import Mathlib

/-!
Verification of the CalloutForge codeblock parser and template engine.

The TypeScript sources are shallowly embedded: JavaScript strings are
modeled as `List Char` (`Str`), the regular expressions of the line
matcher and of the placeholder syntaxes are translated into executable
character-list functions (each translation is justified in a comment at
the definition, since the regexes in question are deterministic: no
backtracking can change the accepted language or the captured groups),
and the line-oriented state machine of `src/codeblock-parser/parser.ts`
becomes a structurally recursive function over the list of lines.
-/

/-- Characters treated as whitespace by the JavaScript `\s` class and
`String.prototype.trim` (ASCII part, which is all the sources use). -/
def isWs (c : Char) : Bool :=
  c = ' ' || c = '\t' || c = '\n' || c = '\r' || c = '\x0b' || c = '\x0c'

/-- JavaScript strings, modeled as lists of characters. -/
abbrev Str := List Char

/-- Left part of `String.prototype.trim`. -/
def jsTrimLeft (l : Str) : Str := l.dropWhile isWs

/-- Right part of `String.prototype.trim`. -/
def jsTrimRight (l : Str) : Str := (l.reverse.dropWhile isWs).reverse

/-- `String.prototype.trim`: drop whitespace from both ends. -/
def jsTrim (l : Str) : Str := jsTrimRight (jsTrimLeft l)

/-- `String.prototype.split('\n')`. -/
def jsSplitNl : Str → List Str
  | [] => [[]]
  | c :: rest =>
    match jsSplitNl rest with
    | [] => [[c]]
    | g :: gs => if c = '\n' then [] :: g :: gs else (c :: g) :: gs

/-- `Array.prototype.join('\n')` for lists of lines. -/
def jsJoinNl : List Str → Str
  | [] => []
  | [x] => x
  | x :: y :: xs => x ++ '\n' :: jsJoinNl (y :: xs)

/-- `Array.prototype.join(sep)` on Lean strings, used for error messages. -/
def joinSep (sep : String) : List String → String
  | [] => ""
  | [x] => x
  | x :: y :: xs => x ++ sep ++ joinSep sep (y :: xs)

-- ### Basic lemmas about the string primitives

theorem jsSplitNl_ne_nil (s : Str) : jsSplitNl s ≠ [] := by
  induction s with
  | nil => simp [jsSplitNl]
  | cons c rest ih =>
    simp only [jsSplitNl]
    cases h : jsSplitNl rest with
    | nil => simp
    | cons g gs => by_cases hc : c = '\n' <;> simp [hc]

theorem jsSplitNl_cons (c : Char) (rest : Str) :
    jsSplitNl (c :: rest) =
      if c = '\n' then [] :: jsSplitNl rest
      else (c :: (jsSplitNl rest).headI) :: (jsSplitNl rest).tail := by
  simp only [jsSplitNl]
  cases h : jsSplitNl rest with
  | nil => exact absurd h (jsSplitNl_ne_nil rest)
  | cons g gs => by_cases hc : c = '\n' <;> simp [hc, List.headI]

theorem jsSplitNl_no_nl (s : Str) (h : '\n' ∉ s) : jsSplitNl s = [s] := by
  induction s with
  | nil => rfl
  | cons c rest ih =>
    have hc : ¬ (c = '\n') := fun hc => h (by rw [hc]; exact List.mem_cons_self _ _)
    rw [jsSplitNl_cons, if_neg hc, ih (fun hm => h (List.mem_cons_of_mem c hm))]
    simp [List.headI]

theorem jsSplitNl_append_nl (a b : Str) :
    jsSplitNl (a ++ '\n' :: b) = jsSplitNl a ++ jsSplitNl b := by
  induction a with
  | nil =>
    rw [List.nil_append, jsSplitNl_cons]
    simp [jsSplitNl]
  | cons c rest ih =>
    simp only [List.cons_append]
    rw [jsSplitNl_cons, jsSplitNl_cons, ih]
    by_cases hc : c = '\n'
    · simp [hc]
    · have h1 := jsSplitNl_ne_nil rest
      cases h : jsSplitNl rest with
      | nil => exact absurd h h1
      | cons g gs => simp [hc, h, List.headI]

theorem mem_jsSplitNl_no_nl (s : Str) : ∀ l ∈ jsSplitNl s, '\n' ∉ l := by
  induction s with
  | nil =>
    intro l hl
    simp only [jsSplitNl, List.mem_singleton] at hl
    subst hl; simp
  | cons c rest ih =>
    intro l hl
    rw [jsSplitNl_cons] at hl
    by_cases hc : c = '\n'
    · rw [if_pos hc] at hl
      rcases List.mem_cons.mp hl with h | h
      · subst h; simp
      · exact ih l h
    · rw [if_neg hc] at hl
      cases hs : jsSplitNl rest with
      | nil => exact absurd hs (jsSplitNl_ne_nil rest)
      | cons g gs =>
        rw [hs] at hl
        simp only [List.headI, List.tail_cons] at hl
        rcases List.mem_cons.mp hl with h | h
        · subst h
          intro hm
          rcases List.mem_cons.mp hm with h' | h'
          · exact hc h'.symm
          · exact ih g (by rw [hs]; exact List.mem_cons_self g gs) h'
        · exact ih l (by rw [hs]; exact List.mem_cons_of_mem g h)

theorem jsJoinNl_jsSplitNl (s : Str) : jsJoinNl (jsSplitNl s) = s := by
  induction s with
  | nil => rfl
  | cons c rest ih =>
    rw [jsSplitNl_cons]
    by_cases hc : c = '\n'
    · rw [if_pos hc, hc]
      cases hs : jsSplitNl rest with
      | nil => exact absurd hs (jsSplitNl_ne_nil rest)
      | cons g gs =>
        rw [hs] at ih
        simpa [jsJoinNl] using ih
    · rw [if_neg hc]
      cases hs : jsSplitNl rest with
      | nil => exact absurd hs (jsSplitNl_ne_nil rest)
      | cons g gs =>
        rw [hs] at ih
        cases gs with
        | nil =>
          simp only [List.headI, List.tail_cons]
          simp only [jsJoinNl] at ih ⊢
          rw [ih]
        | cons g2 gs2 =>
          simp only [List.headI, List.tail_cons]
          simp only [jsJoinNl] at ih ⊢
          rw [List.cons_append, ih]

theorem jsSplitNl_jsJoinNl (ls : List Str) (hne : ls ≠ [])
    (h : ∀ l ∈ ls, '\n' ∉ l) : jsSplitNl (jsJoinNl ls) = ls := by
  induction ls with
  | nil => exact absurd rfl hne
  | cons x xs ih =>
    cases xs with
    | nil =>
      simp only [jsJoinNl]
      exact jsSplitNl_no_nl x (h x (List.mem_cons_self x []))
    | cons y ys =>
      have hx : '\n' ∉ x := h x (List.mem_cons_self x (y :: ys))
      have hrest : ∀ l ∈ y :: ys, '\n' ∉ l := fun l hl => h l (List.mem_cons_of_mem x hl)
      simp only [jsJoinNl]
      rw [jsSplitNl_append_nl, jsSplitNl_no_nl x hx, ih (by simp) hrest]
      rfl

theorem jsTrimLeft_no_ws_head (l : Str) (c : Char) (hc : isWs c = false) :
    jsTrimLeft (c :: l) = c :: l := by
  simp [jsTrimLeft, List.dropWhile, hc]

theorem jsTrimRight_no_ws_last (l : Str) (c : Char) (hc : isWs c = false) :
    jsTrimRight (l ++ [c]) = l ++ [c] := by
  simp [jsTrimRight, List.dropWhile, hc]

theorem jsTrimLeft_idem (l : Str) : jsTrimLeft (jsTrimLeft l) = jsTrimLeft l := by
  induction l with
  | nil => rfl
  | cons c rest ih =>
    by_cases hc : isWs c
    · simpa [jsTrimLeft, List.dropWhile, hc] using ih
    · simp only [Bool.not_eq_true] at hc
      simp [jsTrimLeft, List.dropWhile, hc]

theorem jsTrimRight_sub (l : Str) : ∃ t, l = jsTrimRight l ++ t := by
  simp only [jsTrimRight]
  obtain ⟨t, ht⟩ : ∃ t, l.reverse = t ++ l.reverse.dropWhile isWs :=
    ⟨l.reverse.takeWhile isWs, (List.takeWhile_append_dropWhile ..).symm⟩
  refine ⟨t.reverse, ?_⟩
  conv_lhs => rw [← l.reverse_reverse, ht]
  simp

theorem jsTrimLeft_sub (l : Str) : ∃ t, l = t ++ jsTrimLeft l :=
  ⟨l.takeWhile isWs, (List.takeWhile_append_dropWhile ..).symm⟩

theorem jsTrim_sub (l : Str) : ∃ a b, l = a ++ jsTrim l ++ b := by
  obtain ⟨a, ha⟩ := jsTrimLeft_sub l
  obtain ⟨b, hb⟩ := jsTrimRight_sub (jsTrimLeft l)
  refine ⟨a, b, ?_⟩
  rw [List.append_assoc, jsTrim, ← hb, ← ha]

theorem not_mem_jsTrim (l : Str) (c : Char) (h : c ∉ l) : c ∉ jsTrim l := by
  intro hm
  obtain ⟨a, b, hab⟩ := jsTrim_sub l
  exact h (hab ▸ (by simp [hm]))

theorem jsTrimRight_nil : jsTrimRight [] = [] := rfl


theorem dropWhile_idem (p : Char → Bool) (l : Str) :
    (l.dropWhile p).dropWhile p = l.dropWhile p := by
  induction l with
  | nil => rfl
  | cons c rest ih =>
    by_cases hc : p c
    · simpa [List.dropWhile, hc] using ih
    · simp only [Bool.not_eq_true] at hc
      simp [List.dropWhile, hc]

theorem jsTrimRight_idem (l : Str) : jsTrimRight (jsTrimRight l) = jsTrimRight l := by
  simp only [jsTrimRight, List.reverse_reverse]
  rw [dropWhile_idem]

theorem length_dropWhile_le (p : Char → Bool) (l : Str) :
    (l.dropWhile p).length ≤ l.length := by
  induction l with
  | nil => simp
  | cons c rest ih =>
    rw [List.dropWhile_cons]
    by_cases hc : p c
    · simp only [hc, if_true]
      simp only [List.length_cons]
      omega
    · simp [hc]

theorem jsTrimLeft_of_trimmed_right (l : Str) (h : jsTrimLeft l = l) :
    jsTrimLeft (jsTrimRight l) = jsTrimRight l := by
  rcases hr : jsTrimRight l with _ | ⟨c, m⟩
  · rfl
  · obtain ⟨t, ht⟩ := jsTrimRight_sub l
    rw [hr] at ht
    have hc : isWs c = false := by
      by_contra hcw
      simp only [Bool.not_eq_false] at hcw
      rw [ht, show (c :: m ++ t : Str) = c :: (m ++ t) by simp] at h
      rw [jsTrimLeft, List.dropWhile_cons] at h
      simp only [hcw, if_true] at h
      have h2 : (List.dropWhile isWs (m ++ t)).length ≤ (m ++ t).length :=
        length_dropWhile_le ..
      rw [h] at h2
      simp only [List.length_cons, List.length_append] at h2
      omega
    exact jsTrimLeft_no_ws_head m c hc

theorem jsTrim_idem (l : Str) : jsTrim (jsTrim l) = jsTrim l := by
  have hY : jsTrimLeft (jsTrimLeft l) = jsTrimLeft l := jsTrimLeft_idem l
  rw [jsTrim, jsTrim, jsTrimLeft_of_trimmed_right (jsTrimLeft l) hY, jsTrimRight_idem]

theorem jsTrimLeft_jsTrim (l : Str) : jsTrimLeft (jsTrim l) = jsTrim l := by
  rw [jsTrim, jsTrimLeft_of_trimmed_right (jsTrimLeft l) (jsTrimLeft_idem l)]

theorem jsTrim_of_head_last (c : Char) (m : Str) (d : Char)
    (hc : isWs c = false) (hd : isWs d = false) :
    jsTrim (c :: m ++ [d]) = c :: m ++ [d] := by
  have h1 : jsTrimLeft (c :: (m ++ [d])) = c :: (m ++ [d]) := jsTrimLeft_no_ws_head _ c hc
  have h2 : jsTrimRight ((c :: m) ++ [d]) = (c :: m) ++ [d] := jsTrimRight_no_ws_last _ d hd
  rw [jsTrim, show (c :: m ++ [d] : Str) = c :: (m ++ [d]) by simp, h1]
  rw [show (c :: (m ++ [d]) : Str) = (c :: m) ++ [d] by simp, h2]

theorem jsTrim_singleton (c : Char) (hc : isWs c = false) : jsTrim [c] = [c] := by
  have h1 : jsTrimLeft [c] = [c] := jsTrimLeft_no_ws_head [] c hc
  have h2 : jsTrimRight ([] ++ [c]) = [] ++ [c] := jsTrimRight_no_ws_last [] c hc
  simp only [List.nil_append] at h2
  rw [jsTrim, h1, h2]

/-- A nonempty string whose first and last characters are not whitespace is
fixed by `jsTrim`. -/
theorem jsTrim_eq_self_of_ends (l : Str) (hne : l ≠ [])
    (hh : isWs (l.head hne) = false) (hl : isWs (l.getLast hne) = false) :
    jsTrim l = l := by
  rcases l with _ | ⟨c, m⟩
  · exact absurd rfl hne
  · rcases hm : m.length with _ | k
    · have : m = [] := List.length_eq_zero.mp hm
      subst this
      exact jsTrim_singleton c (by simpa using hh)
    · have hmne : m ≠ [] := by intro h; rw [h] at hm; simp at hm
      have hsplit : c :: m = c :: m.dropLast ++ [m.getLast hmne] := by
        simp [List.dropLast_append_getLast hmne]
      rw [hsplit]
      refine jsTrim_of_head_last c m.dropLast (m.getLast hmne) (by simpa using hh) ?_
      have : (c :: m).getLast hne = m.getLast hmne := List.getLast_cons hmne
      rw [← this]
      exact hl

-- ## The codeblock parser
-- Embedded from `src/codeblock-parser/parser.ts`, `src/codeblock-parser/types.ts`
-- and `src/old-parser/states.ts`.

/-- The parser states (`ParserState` enum in `old-parser/states.ts`). -/
inductive ParserState
  | codeblockStart
  | propertyStart
  | propertyText
  | codefenceStart
  | codefenceText
  | codefenceEnd
  | codeblockEnd
  | parseError
deriving DecidableEq, Repr

/-- `ParserState[s]` in TypeScript: the printable name of a state. -/
def stateName : ParserState → String
  | .codeblockStart => "CodeblockStart"
  | .propertyStart => "PropertyStart"
  | .propertyText => "PropertyText"
  | .codefenceStart => "CodefenceStart"
  | .codefenceText => "CodefenceText"
  | .codefenceEnd => "CodefenceEnd"
  | .codeblockEnd => "CodeblockEnd"
  | .parseError => "Error"

/-- The four rule names of the line matcher (`RuleName` in
`codeblock-parser/types.ts`). -/
inductive RuleName
  | codefenceEnd
  | propertyStart
  | codefenceStart
  | anyText
deriving DecidableEq, Repr

/-- `rule.name` as it appears in error messages. -/
def ruleNameStr : RuleName → String
  | .codefenceEnd => "codefence-end"
  | .propertyStart => "property-start"
  | .codefenceStart => "codefence-start"
  | .anyText => "any-text"

/-- The result of `_matchLine`: which rule fired, together with the
capture groups of that rule's regex. -/
inductive LineMatch
  | codefenceEnd
  | propertyStart (key value : Str)
  | codefenceStart (backticks : Nat)
  | anyText
deriving DecidableEq, Repr

def LineMatch.rule : LineMatch → RuleName
  | .codefenceEnd => .codefenceEnd
  | .propertyStart _ _ => .propertyStart
  | .codefenceStart _ => .codefenceStart
  | .anyText => .anyText

/-- Key characters of the `property-start` regex character class `[a-z\-]`. -/
def isKeyChar (c : Char) : Bool := ('a' ≤ c && c ≤ 'z') || c = '-'

/-- The backtick character (spelled by code point to keep the source text
plain). -/
def backtick : Char := Char.ofNat 96

/-- The `property-start` regex `^([a-z\-]+)\s*:\s*(.*)$`.

The translation takes the maximal run of key characters, then the maximal
run of whitespace, then requires a colon, and captures the remainder with
its leading whitespace removed.  This is exactly what the backtracking
regex engine produces: the quantifiers `+` and the first `\s*` are greedy,
and giving back characters cannot help, because a key character is neither
whitespace nor `:`; the second `\s*` is greedy and `(.*)$` takes whatever
is left. -/
def propMatch (l : Str) : Option (Str × Str) :=
  let key := l.takeWhile isKeyChar
  if key.isEmpty then none
  else
    match (l.dropWhile isKeyChar).dropWhile isWs with
    | ':' :: rest => some (key, rest.dropWhile isWs)
    | _ => none

/-- The `codefence-start` regex `^(`{3,})(?:\s*[^\s]+)?\s*$`.

Group 1 is the maximal leading run of backticks (at least three); the rest
of the line must consist of an optional whitespace run, an optional single
run of non-whitespace characters (the language tag, which may itself
contain backticks), and optional trailing whitespace.  Backtracking the
greedy group 1 can never turn a failure into a success: shrinking it only
moves backticks into the non-whitespace run, which changes nothing about
the shape of the remainder. -/
def codefenceStartMatch (l : Str) : Option Nat :=
  let ticks := l.takeWhile (fun c => c = backtick)
  if 3 ≤ ticks.length then
    let r := l.dropWhile (fun c => c = backtick)
    let afterTag := (r.dropWhile isWs).dropWhile (fun c => !(isWs c))
    if afterTag.all isWs then some ticks.length else none
  else none

/-- The `codefence-end` regex, `new RegExp("^" + backticks + "$")`: the
line must be exactly the remembered run of backticks. -/
def codefenceEndMatch (n : Nat) (l : Str) : Bool :=
  l = List.replicate n backtick

/-- `_matchLine` without an active fence: the rules are tried in map
insertion order (`codefence-end` is skipped while its regex is null), so
`property-start`, then `codefence-start`, then the catch-all `any-text`. -/
def matchLineNoFence (l : Str) : LineMatch :=
  match propMatch l with
  | some (k, v) => .propertyStart k v
  | none =>
    match codefenceStartMatch l with
    | some n => .codefenceStart n
    | none => .anyText

/-- `_matchLine`: with an active fence the `codefence-end` rule is first. -/
def matchLine (fence : Option Nat) (l : Str) : LineMatch :=
  match fence with
  | some n => if codefenceEndMatch n l then .codefenceEnd else matchLineNoFence l
  | none => matchLineNoFence l

/-- `TRANSITION_MAP` from `old-parser/states.ts`.  (The jump maps of the
per-state classes of the codeblock-engine variant, `unnamed/part_012`,
define the identical table.) -/
def TRANSITION_MAP : ParserState → RuleName → Option ParserState
  | .codeblockStart, .propertyStart => some .propertyStart
  | .codeblockStart, _ => none
  | .propertyStart, .propertyStart => some .propertyStart
  | .propertyStart, .codefenceStart => some .codefenceStart
  | .propertyStart, .anyText => some .propertyText
  | .propertyStart, .codefenceEnd => none
  | .propertyText, .propertyStart => some .propertyStart
  | .propertyText, .codefenceStart => some .codefenceStart
  | .propertyText, .anyText => some .propertyText
  | .propertyText, .codefenceEnd => none
  | .codefenceStart, .codefenceEnd => some .codefenceEnd
  | .codefenceStart, .propertyStart => some .codefenceText
  | .codefenceStart, .codefenceStart => some .codefenceText
  | .codefenceStart, .anyText => some .codefenceText
  | .codefenceText, .codefenceEnd => some .codefenceEnd
  | .codefenceText, .propertyStart => some .codefenceText
  | .codefenceText, .codefenceStart => some .codefenceText
  | .codefenceText, .anyText => some .codefenceText
  | .codefenceEnd, .propertyStart => some .propertyStart
  | .codefenceEnd, .codefenceStart => some .codefenceStart
  | .codefenceEnd, .anyText => some .propertyText
  | .codefenceEnd, .codefenceEnd => none
  | .codeblockEnd, _ => none
  | .parseError, _ => none

/-- `ACCEPTING_STATES` from `old-parser/states.ts`. -/
def ACCEPTING_STATES (s : ParserState) : Bool :=
  s = .propertyStart || s = .propertyText || s = .codefenceEnd

/-- `CodeblockProperty` (`codeblock-parser/types.ts`): a name and a
growable value. -/
structure CodeblockProperty where
  name : Str
  value : Str
deriving DecidableEq, Repr

/-- `CodeblockProperty.appendText`: `this._value += "\n" + value`. -/
def CodeblockProperty.appendText (p : CodeblockProperty) (l : Str) : CodeblockProperty :=
  ⟨p.name, p.value ++ '\n' :: l⟩

/-- The entry action of one state handler on the current line.  It
returns the updated fence slot (the mutable `codefence-end` regex),
property buffer and property array, or the error the handler throws.
This is the first half of each `_handle*` method of `CodeblockParser`
(everything before `_advanceState`). -/
def entryAction (fence : Option Nat) (buf : Option CodeblockProperty)
    (acc : List CodeblockProperty) (s : ParserState) (lv : Str) (m : LineMatch)
    (i : Nat) :
    Except String (Option Nat × Option CodeblockProperty × List CodeblockProperty) :=
  match s with
  | .propertyStart =>
    -- `_handlePropertyStart`: store the buffered property, buffer a new one.
    match m with
    | .propertyStart k v => .ok (fence, some ⟨k, v⟩, acc ++ buf.toList)
    | _ => .error "Implementation Error: property-start state without a property match."
  | .propertyText =>
    -- `_handlePropertyText`: append the line to the buffered property.
    match buf with
    | some p => .ok (fence, some (p.appendText lv), acc)
    | none =>
      .error ("Line " ++ toString (i + 1) ++
        ": no current property to update for line \"" ++ String.mk lv ++ "\".")
  | .codefenceStart =>
    -- `_handleCodefenceStart`: remember the backtick run, append the line.
    match m with
    | .codefenceStart n =>
      match buf with
      | some p => .ok (some n, some (p.appendText lv), acc)
      | none =>
        .error ("Line " ++ toString (i + 1) ++
          ": no current property to update for line \"" ++ String.mk lv ++ "\".")
    | _ => .error "Implementation Error: codefence-start state without a fence match."
  | .codefenceText =>
    -- `_handleCodefenceText`: append the line.
    match buf with
    | some p => .ok (fence, some (p.appendText lv), acc)
    | none =>
      .error ("Line " ++ toString (i + 1) ++
        ": no current property to update for line \"" ++ String.mk lv ++ "\".")
  | .codefenceEnd =>
    -- `_handleCodefenceEnd`: clear the fence slot, append the line.
    match buf with
    | some p => .ok (none, some (p.appendText lv), acc)
    | none =>
      .error ("Line " ++ toString (i + 1) ++
        ": no current property to update for line \"" ++ String.mk lv ++ "\".")
  | _ => .error "Implementation Error: unreachable state handler."

/-- The `_parse` loop of `CodeblockParser`, starting from the handler of
state `s` on the current (already trimmed, by `_getLine`) line `lv` whose
match is `m`; `rest` holds the raw lines after the current one, `i` is the
current line index.  After the entry action, `_advanceState` either ends
the parse (accepting or not) when the current line is the last one, or
matches the next line and follows `TRANSITION_MAP`. -/
def runLoop (fence : Option Nat) (buf : Option CodeblockProperty)
    (acc : List CodeblockProperty) (s : ParserState) (lv : Str) (m : LineMatch)
    (i : Nat) (rest : List Str) : Except String (List CodeblockProperty) :=
    match entryAction fence buf acc s lv m i with
    | .error e => .error e
    | .ok (fence', buf', acc') =>
      match rest with
      | [] =>
        if ACCEPTING_STATES s then
          -- `_handleCodeblockEnd` stores the buffered property.
          .ok (acc' ++ buf'.toList)
        else
          .error ("Unexpected end of input: expected to complete codeblock but got state "
            ++ stateName s)
      | next :: rest' =>
        let lv' := jsTrim next
        let m' := matchLine fence' lv'
        match TRANSITION_MAP s m'.rule with
        | some s' => runLoop fence' buf' acc' s' lv' m' (i + 1) rest'
        | none =>
          .error ("Invalid transition from state " ++ stateName s ++ " on rule "
            ++ ruleNameStr m'.rule)

/-- Parsing of a non-empty list of lines, beginning in `CodeblockStart`:
the first line is matched and consumed without incrementing the index
(`_handleCodeblockStart` calls `_advanceState(false)`).  The initial value
of the mutable `codefence-end` slot is a parameter so that instance
freshness can be stated (the field initializer of `_lineMatchers` sets it
to `null`). -/
def parseLinesFrom (fence0 : Option Nat) : List Str → Except String (List CodeblockProperty)
  | [] => .error "CodeblockLine index out of bounds."
  | l0 :: rest =>
    let lv := jsTrim l0
    let m := matchLine fence0 lv
    match TRANSITION_MAP .codeblockStart m.rule with
    | some s => runLoop fence0 none [] s lv m 0 rest
    | none => .error "Codeblock must start with a property"

/-- The value the `codefence-end` slot holds when a `CodeblockParser`
instance is constructed: `regex: null` in the `_lineMatchers` field
initializer (`parser.ts`, line 24). -/
def matcherSlotInit : Option Nat := none

/-- The constructor of `CodeblockParser` for a given initial matcher-slot
value: guard the trimmed source against emptiness, split into lines,
parse. -/
def parseCodeblockWithSlot (slot : Option Nat) (source : Str) :
    Except String (List CodeblockProperty) :=
  let t := jsTrim source
  if t.isEmpty then .error "Codeblock is empty or has only whitespaces."
  else parseLinesFrom slot (jsSplitNl t)

/-- `CodeblockParser.parseProperties`: each call constructs a fresh
parser instance, whose matcher slot starts at `matcherSlotInit`. -/
def parseProperties (source : Str) : Except String (List CodeblockProperty) :=
  parseCodeblockWithSlot matcherSlotInit source

/-- A sequence of `parseProperties` invocations of the *codeblock-parser*
variant only (`src/codeblock-parser/parser.ts`).  In that variant the
matcher map is the per-instance field initializer `_lineMatchers`
(lines 17–45): a new object literal with `regex: null` is built for every
constructed instance, and nothing else reads or writes it, so each call
of the static method starts from `matcherSlotInit` with no channel from
earlier invocations.  The codeblock-engine variant shares its matcher
objects across instances and is modeled separately below
(`engineSequence`), with the slot threaded from call to call. -/
def parseSequence (sources : List Str) : List (Except String (List CodeblockProperty)) :=
  sources.map (fun s => parseCodeblockWithSlot matcherSlotInit s)

-- ## The codeblock-engine variant of the parser
-- Embedded from `unnamed/part_010` (the `Pair`-based `CodeblockParser`),
-- `unnamed/part_012` (its state classes) and `src/codeblock-engine/match.ts`.
-- Its matcher regexes and jump maps are identical to the ones above, so
-- `matchLine`, `TRANSITION_MAP` and `ACCEPTING_STATES` are shared; the
-- machine differs in that lines are matched and appended raw (there is no
-- `_getLine` trimming) and in its error texts, and the constructor runs
-- `validatePairs` after the machine finishes.

/-- `Pair` (`rendering/pair`): a key and a growable value. -/
structure Pair where
  key : Str
  value : Str
deriving DecidableEq, Repr

/-- `Pair.extend`: `this.sourceValue += "\n" + value`. -/
def Pair.extend (p : Pair) (l : Str) : Pair := ⟨p.key, p.value ++ '\n' :: l⟩

/-- The state-class names of the engine variant (`constructor.name`). -/
def engineStateName : ParserState → String
  | .codeblockStart => "CodeblockStartState"
  | .propertyStart => "PairState"
  | .propertyText => "PairContentState"
  | .codefenceStart => "NestedStartState"
  | .codefenceText => "NestedContentState"
  | .codefenceEnd => "NestedEndState"
  | .codeblockEnd => "CodeblockEndState"
  | .parseError => "ParsingErrorState"

/-- `JumpCondition[...]` names from `codeblock-engine/match.ts`. -/
def jumpName : RuleName → String
  | .propertyStart => "Property"
  | .codefenceStart => "NestedStart"
  | .codefenceEnd => "NestedEnd"
  | .anyText => "Text"

/-- The `handle()` body of one engine state class on the current line
(everything before `jump()`). -/
def engineEntry (fence : Option Nat) (buf : Option Pair) (acc : List Pair)
    (s : ParserState) (lv : Str) (m : LineMatch) (i : Nat) :
    Except String (Option Nat × Option Pair × List Pair) :=
  match s with
  | .propertyStart =>
    match m with
    | .propertyStart k v => .ok (fence, some ⟨k, v⟩, acc ++ buf.toList)
    | _ => .error "Implementation error: pair state without a pair match."
  | .propertyText =>
    match buf with
    | some p => .ok (fence, some (p.extend lv), acc)
    | none => .error ("Line " ++ toString (i + 1) ++ ": no active pair to append to.")
  | .codefenceStart =>
    match m with
    | .codefenceStart n =>
      match buf with
      | some p => .ok (some n, some (p.extend lv), acc)
      | none => .error ("Line " ++ toString (i + 1) ++ ": no active pair to append to.")
    | _ => .error "Implementation error: nested-start state without a fence match."
  | .codefenceText =>
    match buf with
    | some p => .ok (fence, some (p.extend lv), acc)
    | none => .error ("Line " ++ toString (i + 1) ++ ": no active pair to append to.")
  | .codefenceEnd =>
    match buf with
    | some p => .ok (none, some (p.extend lv), acc)
    | none => .error ("Line " ++ toString (i + 1) ++ ": no active pair to append to.")
  | _ => .error "Implementation error: unreachable state handler."

/-- The engine parse loop (`while (!this.state.isFinal()) state.handle()`
plus the shared `jump()` of `unnamed/part_012`); lines are used raw. -/
def engineLoop (fence : Option Nat) (buf : Option Pair) (acc : List Pair)
    (s : ParserState) (lv : Str) (m : LineMatch) (i : Nat) (rest : List Str) :
    Except String (List Pair) :=
  match engineEntry fence buf acc s lv m i with
  | .error e => .error e
  | .ok (fence', buf', acc') =>
    match rest with
    | [] =>
      if ACCEPTING_STATES s then .ok (acc' ++ buf'.toList)
      else
        .error ("Unexpected end of input: " ++ engineStateName s ++
          " is not an accepting state.")
    | next :: rest' =>
      let m' := matchLine fence' next
      match TRANSITION_MAP s m'.rule with
      | some s' => engineLoop fence' buf' acc' s' next m' (i + 1) rest'
      | none =>
        .error ("Invalid input transition: " ++ jumpName m'.rule ++
          " jump condition has no mapping in " ++ engineStateName s ++ ".")

/-- The machine part of the engine constructor: match the first raw line
while in `CodeblockStartState` (which consumes it without incrementing the
index) and loop. -/
def engineLines : List Str → Except String (List Pair)
  | [] => .error "Implementation error: no lines to parse."
  | l0 :: rest =>
    let m := matchLine none l0
    match TRANSITION_MAP .codeblockStart m.rule with
    | some s => engineLoop none none [] s l0 m 0 rest
    | none => .error "Codeblock must start with a pair."

/-- The engine constructor up to (not including) `validatePairs`. -/
def engineMachine (source : Str) : Except String (List Pair) :=
  let t := jsTrim source
  if t.isEmpty then .error "Codeblock is empty or has only whitespaces."
  else engineLines (jsSplitNl t)

/-- One step of `validatePairs`: `seenPairs.has(pair.key) ?
duplicatePairs.add(pair.key) : seenPairs.add(pair.key)`, with the two
JavaScript `Set`s modeled as insertion-ordered duplicate-free lists. -/
def validateStep (st : List Str × List Str) (p : Pair) : List Str × List Str :=
  if p.key ∈ st.1 then
    (st.1, if p.key ∈ st.2 then st.2 else st.2 ++ [p.key])
  else
    (st.1 ++ [p.key], st.2)

/-- `validatePairs` (`unnamed/part_010`): scan the finalized pair list;
if any key repeated, fail naming the members of the duplicate set in
insertion order, comma-joined. -/
def validatePairs (pairs : List Pair) : Option String :=
  let st := pairs.foldl validateStep ([], [])
  if st.2.isEmpty then none
  else some ("Duplicate pairs found: " ++ joinSep ", " (st.2.map String.mk))

/-- The engine `CodeblockParser` constructor: run the machine, then
validate the parsed pairs for duplicates. -/
def engineFromString (source : Str) : Except String (List Pair) :=
  match engineMachine source with
  | .error e => .error e
  | .ok ps =>
    match validatePairs ps with
    | some e => .error e
    | none => .ok ps

-- ### The engine machine with the shared matcher slot made explicit
-- In the engine variant the matcher map is `new Map(MATCHERS)`
-- (`unnamed/part_010`, line 10): a *shallow* copy of the module-level map
-- of `codeblock-engine/match.ts`, whose mutable `LineMatchRule` objects
-- are shared by every instance.  `setCodefenceRegex` and
-- `clearCodefenceRegex` write `rule.regex` through to the shared
-- `NestedEnd` rule, so its value is module state that survives one
-- invocation and is seen by the next.  The definitions below are the
-- same machine with that slot threaded in and out explicitly.

/-- The matcher-slot value after one handler body has run, including the
runs that throw: `NestedStartState.handle` calls `setCodefenceRegex`
*before* `extendPairValue`, and `NestedEndState.handle` calls
`clearCodefenceRegex` *before* `extendPairValue`, so the slot update has
happened even when the append throws. -/
def entrySlot (fence : Option Nat) (s : ParserState) (m : LineMatch) : Option Nat :=
  match s, m with
  | .codefenceStart, .codefenceStart n => some n
  | .codefenceEnd, _ => none
  | _, _ => fence

/-- `engineLoop` with the shared slot returned alongside the result: the
pair's second component is the value the module-level `NestedEnd` regex
holds when the run ends, normally or by a throw. -/
def engineLoopS (fence : Option Nat) (buf : Option Pair) (acc : List Pair)
    (s : ParserState) (lv : Str) (m : LineMatch) (i : Nat) (rest : List Str) :
    Except String (List Pair) × Option Nat :=
  match engineEntry fence buf acc s lv m i with
  | .error e => (.error e, entrySlot fence s m)
  | .ok (fence', buf', acc') =>
    match rest with
    | [] =>
      if ACCEPTING_STATES s then (.ok (acc' ++ buf'.toList), fence')
      else
        (.error ("Unexpected end of input: " ++ engineStateName s ++
          " is not an accepting state."), fence')
    | next :: rest' =>
      let m' := matchLine fence' next
      match TRANSITION_MAP s m'.rule with
      | some s' => engineLoopS fence' buf' acc' s' next m' (i + 1) rest'
      | none =>
        (.error ("Invalid input transition: " ++ jumpName m'.rule ++
          " jump condition has no mapping in " ++ engineStateName s ++ "."), fence')

/-- `engineLines` with the incoming slot explicit: the constructor's
first `matchCurrentLine` already runs against the shared rules, so a
leaked `NestedEnd` regex is live from the very first line. -/
def engineLinesS (slot : Option Nat) : List Str → Except String (List Pair) × Option Nat
  | [] => (.error "Implementation error: no lines to parse.", slot)
  | l0 :: rest =>
    let m := matchLine slot l0
    match TRANSITION_MAP .codeblockStart m.rule with
    | some s => engineLoopS slot none [] s l0 m 0 rest
    | none => (.error "Codeblock must start with a pair.", slot)

/-- The machine part of the engine constructor with the slot threaded:
the emptiness guard throws before any matching, leaving the slot
untouched. -/
def engineMachineS (slot : Option Nat) (source : Str) :
    Except String (List Pair) × Option Nat :=
  let t := jsTrim source
  if t.isEmpty then (.error "Codeblock is empty or has only whitespaces.", slot)
  else engineLinesS slot (jsSplitNl t)

/-- The full engine constructor with the slot threaded: `validatePairs`
runs after the machine and never touches the matcher map. -/
def engineFromStringS (slot : Option Nat) (source : Str) :
    Except String (List Pair) × Option Nat :=
  match engineMachineS slot source with
  | (.ok ps, slot') =>
    match validatePairs ps with
    | some e => (.error e, slot')
    | none => (.ok ps, slot')
  | (.error e, slot') => (.error e, slot')

/-- Repeated `CodeblockParser.fromString` calls of the engine variant:
every constructor's `new Map(MATCHERS)` shallow copy shares the same
mutable `NestedEnd` rule, so the slot each invocation leaves behind is
the slot the next invocation starts from. -/
def engineSequenceFrom (slot : Option Nat) : List Str → List (Except String (List Pair))
  | [] => []
  | s :: rest =>
    (engineFromStringS slot s).1 :: engineSequenceFrom (engineFromStringS slot s).2 rest

/-- A fresh module: at load time the `MATCHERS` literal builds the
`NestedEnd` rule with `regex: null`. -/
def engineSequence (sources : List Str) : List (Except String (List Pair)) :=
  engineSequenceFrom none sources

-- ### A direct characterization of the duplicate set

/-- The keys of a pair list, in order. -/
def pairKeys (ps : List Pair) : List Str := ps.map Pair.key

/-- The second and later occurrence of every key, in source order. -/
def laterOccurrences : List Str → List Str → List Str
  | _, [] => []
  | seen, k :: ks =>
    if k ∈ seen then k :: laterOccurrences seen ks
    else laterOccurrences (seen ++ [k]) ks

/-- Deduplication keeping the first occurrence of every element. -/
def dedupKeepFirst : List Str → List Str → List Str
  | _, [] => []
  | seen, k :: ks =>
    if k ∈ seen then dedupKeepFirst seen ks
    else k :: dedupKeepFirst (seen ++ [k]) ks

/-- The duplicated keys of a key list, each exactly once, ordered by the
position where each key is first detected as a duplicate — that is, by
each key's second occurrence. -/
def duplicatedKeys (ks : List Str) : List Str :=
  dedupKeepFirst [] (laterOccurrences [] ks)

theorem validate_foldl_eq (ps : List Pair) :
    ∀ seen dup, (ps.foldl validateStep (seen, dup)).2 =
      dup ++ dedupKeepFirst dup (laterOccurrences seen (pairKeys ps)) := by
  induction ps with
  | nil => intro seen dup; simp [pairKeys, laterOccurrences, dedupKeepFirst]
  | cons p ps ih =>
    intro seen dup
    simp only [pairKeys, List.map_cons, List.foldl_cons, laterOccurrences]
    by_cases h1 : p.key ∈ seen
    · simp only [validateStep, if_pos h1, h1, if_true]
      by_cases h2 : p.key ∈ dup
      · rw [if_pos h2]
        have := ih seen dup
        simp only [pairKeys] at this
        rw [this]
        simp [dedupKeepFirst, h1, h2]
      · rw [if_neg h2]
        have := ih seen (dup ++ [p.key])
        simp only [pairKeys] at this
        rw [this]
        simp only [dedupKeepFirst, h1, if_true, h2, if_neg h2]
        simp
    · simp only [validateStep, if_neg h1, h1, if_false]
      have := ih (seen ++ [p.key]) dup
      simp only [pairKeys] at this
      rw [this]

theorem mem_laterOccurrences (ks : List Str) :
    ∀ seen k, k ∈ laterOccurrences seen ks ↔
      (k ∈ seen ∧ k ∈ ks) ∨ 2 ≤ ks.count k := by
  induction ks with
  | nil => intro seen k; simp [laterOccurrences]
  | cons k0 ks ih =>
    intro seen k
    simp only [laterOccurrences]
    by_cases h0 : k0 ∈ seen
    · rw [if_pos h0]
      by_cases hk : k = k0
      · subst hk
        constructor
        · intro _
          exact Or.inl ⟨h0, List.mem_cons_self _ _⟩
        · intro _
          exact List.mem_cons_self _ _
      · constructor
        · intro h
          have h' : k ∈ laterOccurrences seen ks := by
            rcases List.mem_cons.mp h with h | h
            · exact absurd h hk
            · exact h
          rcases (ih seen k).mp h' with ⟨hs, hm⟩ | hc
          · exact Or.inl ⟨hs, List.mem_cons_of_mem _ hm⟩
          · exact Or.inr (le_trans hc (List.count_le_count_cons ..))
        · intro h
          apply List.mem_cons_of_mem
          apply (ih seen k).mpr
          rcases h with ⟨hs, hm⟩ | hc
          · rcases List.mem_cons.mp hm with h | h
            · exact absurd h hk
            · exact Or.inl ⟨hs, h⟩
          · right
            rwa [List.count_cons_of_ne hk] at hc
    · rw [if_neg h0]
      rw [ih (seen ++ [k0]) k]
      by_cases hk : k = k0
      · subst hk
        constructor
        · rintro (⟨hs, hm⟩ | hc)
          · right
            rw [List.count_cons_self]
            have : 0 < ks.count k := List.count_pos_iff.mpr hm
            omega
          · right
            rw [List.count_cons_self]
            omega
        · rintro (⟨hs, _⟩ | hc)
          · exact absurd hs h0
          · rw [List.count_cons_self] at hc
            by_cases hmem : k ∈ ks
            · exact Or.inl ⟨List.mem_append_right _ (List.mem_singleton.mpr rfl), hmem⟩
            · have h0c : ks.count k = 0 := List.count_eq_zero.mpr hmem
              omega
      · constructor
        · rintro (⟨hs, hm⟩ | hc)
          · rcases List.mem_append.mp hs with h | h
            · exact Or.inl ⟨h, List.mem_cons_of_mem _ hm⟩
            · exact absurd (List.mem_singleton.mp h) hk
          · right
            rwa [List.count_cons_of_ne hk]
        · rintro (⟨hs, hm⟩ | hc)
          · have hm' : k ∈ ks := by
              rcases List.mem_cons.mp hm with h | h
              · exact absurd h hk
              · exact h
            exact Or.inl ⟨List.mem_append_left _ hs, hm'⟩
          · right
            rwa [List.count_cons_of_ne hk] at hc

theorem mem_dedupKeepFirst (ks : List Str) :
    ∀ seen k, k ∈ dedupKeepFirst seen ks ↔ (k ∉ seen ∧ k ∈ ks) := by
  induction ks with
  | nil => intro seen k; simp [dedupKeepFirst]
  | cons k0 ks ih =>
    intro seen k
    simp only [dedupKeepFirst]
    by_cases h0 : k0 ∈ seen
    · rw [if_pos h0, ih seen k]
      constructor
      · rintro ⟨hn, hm⟩
        exact ⟨hn, List.mem_cons_of_mem _ hm⟩
      · rintro ⟨hn, hm⟩
        rcases List.mem_cons.mp hm with h | h
        · subst h
          exact absurd h0 hn
        · exact ⟨hn, h⟩
    · rw [if_neg h0]
      constructor
      · intro h
        rcases List.mem_cons.mp h with h | h
        · subst h
          exact ⟨h0, List.mem_cons_self _ _⟩
        · obtain ⟨hn, hm⟩ := (ih (seen ++ [k0]) k).mp h
          exact ⟨fun hs => hn (List.mem_append_left _ hs), List.mem_cons_of_mem _ hm⟩
      · rintro ⟨hn, hm⟩
        by_cases hk : k = k0
        · subst hk
          exact List.mem_cons_self _ _
        · have hm' : k ∈ ks := by
            rcases List.mem_cons.mp hm with h | h
            · exact absurd h hk
            · exact h
          apply List.mem_cons_of_mem
          apply (ih (seen ++ [k0]) k).mpr
          refine ⟨?_, hm'⟩
          intro hmem
          rcases List.mem_append.mp hmem with h2 | h2
          · exact hn h2
          · exact hk (List.mem_singleton.mp h2)

theorem nodup_dedupKeepFirst (ks : List Str) :
    ∀ seen, (dedupKeepFirst seen ks).Nodup := by
  induction ks with
  | nil => intro seen; simp [dedupKeepFirst]
  | cons k0 ks ih =>
    intro seen
    simp only [dedupKeepFirst]
    by_cases h0 : k0 ∈ seen
    · rw [if_pos h0]
      exact ih seen
    · rw [if_neg h0, List.nodup_cons]
      refine ⟨?_, ih (seen ++ [k0])⟩
      intro hmem
      exact ((mem_dedupKeepFirst ks (seen ++ [k0]) k0).mp hmem).1
        (List.mem_append_right _ (List.mem_singleton.mpr rfl))

theorem duplicatedKeys_mem (ks : List Str) (k : Str) :
    k ∈ duplicatedKeys ks ↔ 2 ≤ ks.count k := by
  rw [duplicatedKeys, mem_dedupKeepFirst, mem_laterOccurrences]
  simp

theorem validatePairs_eq (ps : List Pair) :
    validatePairs ps =
      (if (duplicatedKeys (pairKeys ps)).isEmpty then none
       else some ("Duplicate pairs found: " ++
         joinSep ", " ((duplicatedKeys (pairKeys ps)).map String.mk))) := by
  have h := validate_foldl_eq ps [] []
  simp only [List.nil_append] at h
  rw [validatePairs, h]
  rfl

/-- C2, amended: whenever the engine's state-machine pass finalizes a pair
list with at least one repeated key, the parse (whose constructor runs
`validatePairs` as a mandatory final step) fails, and the error names every
duplicated key exactly once, comma-joined — but ordered by each key's
*second* occurrence (the point where the duplicate is detected), not by
first-seen order. -/
theorem c2_duplicate_keys_all_reported (source : Str) (ps : List Pair)
    (hparse : engineMachine source = .ok ps)
    (hdup : ∃ k, 2 ≤ (pairKeys ps).count k) :
    engineFromString source =
      .error ("Duplicate pairs found: " ++
        joinSep ", " ((duplicatedKeys (pairKeys ps)).map String.mk))
    ∧ (∀ k, k ∈ duplicatedKeys (pairKeys ps) ↔ 2 ≤ (pairKeys ps).count k)
    ∧ (duplicatedKeys (pairKeys ps)).Nodup := by
  obtain ⟨k, hk⟩ := hdup
  have hmem : k ∈ duplicatedKeys (pairKeys ps) := (duplicatedKeys_mem _ k).mpr hk
  have hne : duplicatedKeys (pairKeys ps) ≠ [] := List.ne_nil_of_mem hmem
  refine ⟨?_, fun k => duplicatedKeys_mem _ k, nodup_dedupKeepFirst _ _⟩
  simp only [engineFromString, hparse]
  rw [validatePairs_eq]
  cases hd : duplicatedKeys (pairKeys ps) with
  | nil => exact absurd hd hne
  | cons d ds => simp

/-- C2, counterexample to the claim as stated: on four properties with
keys `a, b, b, a` the error lists the duplicated keys as `b, a` (order of
second occurrences), not in first-seen order `a, b`; and the
codeblock-parser variant does not validate at all — it returns the
duplicated properties successfully. -/
theorem c2_counterexample :
    (engineFromString ("a: one" ++ "\n" ++ "b: two" ++ "\n" ++ "b: three" ++ "\n"
        ++ "a: four").data =
      .error "Duplicate pairs found: b, a")
    ∧ ("Duplicate pairs found: b, a" ≠ "Duplicate pairs found: a, b")
    ∧ parseProperties ("a: one" ++ "\n" ++ "a: two").data =
        .ok [⟨"a".data, "one".data⟩, ⟨"a".data, "two".data⟩] := by
  refine ⟨rfl, by decide, rfl⟩

/-- C2, witness for the amended theorem at a concrete input. -/
theorem c2_witness :
    engineFromString ("a: one" ++ "\n" ++ "b: two" ++ "\n" ++ "b: three" ++ "\n"
        ++ "a: four").data =
      .error ("Duplicate pairs found: " ++
        joinSep ", " ((duplicatedKeys (pairKeys
          [⟨"a".data, "one".data⟩, ⟨"b".data, "two".data⟩,
           ⟨"b".data, "three".data⟩, ⟨"a".data, "four".data⟩])).map String.mk)) :=
  (c2_duplicate_keys_all_reported
    ("a: one" ++ "\n" ++ "b: two" ++ "\n" ++ "b: three" ++ "\n" ++ "a: four").data
    [⟨"a".data, "one".data⟩, ⟨"b".data, "two".data⟩,
     ⟨"b".data, "three".data⟩, ⟨"a".data, "four".data⟩]
    (by rfl) ⟨"a".data, by decide⟩).1

/-- With a pristine slot (`regex: null`, the module's load-time value),
the threaded engine loop computes the same result as the slot-free model:
the slot only becomes observable once an earlier invocation has left it
set. -/
theorem engineLoopS_fst (rest : List Str) : ∀ (fence : Option Nat) (buf : Option Pair)
    (acc : List Pair) (s : ParserState) (lv : Str) (m : LineMatch) (i : Nat),
    (engineLoopS fence buf acc s lv m i rest).1 = engineLoop fence buf acc s lv m i rest := by
  induction rest with
  | nil =>
    intro fence buf acc s lv m i
    rw [engineLoopS, engineLoop]
    cases engineEntry fence buf acc s lv m i with
    | error e => rfl
    | ok t =>
      obtain ⟨fence', buf', acc'⟩ := t
      dsimp only
      by_cases h : ACCEPTING_STATES s
      · rw [if_pos h, if_pos h]
      · rw [if_neg h, if_neg h]
  | cons next rest' ih =>
    intro fence buf acc s lv m i
    rw [engineLoopS, engineLoop]
    cases engineEntry fence buf acc s lv m i with
    | error e => rfl
    | ok t =>
      obtain ⟨fence', buf', acc'⟩ := t
      dsimp only
      cases TRANSITION_MAP s (matchLine fence' next).rule with
      | none => rfl
      | some s' => exact ih fence' buf' acc' s' next (matchLine fence' next) (i + 1)

/-- `engineLinesS` with a pristine slot agrees with `engineLines`. -/
theorem engineLinesS_fst (ls : List Str) :
    (engineLinesS none ls).1 = engineLines ls := by
  cases ls with
  | nil => rfl
  | cons l0 rest =>
    rw [engineLinesS, engineLines]
    cases TRANSITION_MAP .codeblockStart (matchLine none l0).rule with
    | none => rfl
    | some s => exact engineLoopS_fst rest none none [] s l0 (matchLine none l0) 0

/-- `engineMachineS` with a pristine slot agrees with `engineMachine`. -/
theorem engineMachineS_fst (s : Str) :
    (engineMachineS none s).1 = engineMachine s := by
  rw [engineMachineS, engineMachine]
  by_cases h : (jsTrim s).isEmpty
  · rw [if_pos h, if_pos h]
  · rw [if_neg h, if_neg h]
    exact engineLinesS_fst (jsSplitNl (jsTrim s))

/-- `engineFromStringS` with a pristine slot agrees with
`engineFromString`. -/
theorem engineFromStringS_fst (s : Str) :
    (engineFromStringS none s).1 = engineFromString s := by
  rw [engineFromStringS, engineFromString]
  have h := engineMachineS_fst s
  cases hm : engineMachineS none s with
  | mk r slot' =>
    rw [hm] at h
    cases r with
    | error e => rw [← h]
    | ok ps =>
      rw [← h]
      dsimp only
      cases validatePairs ps with
      | none => rfl
      | some e => rfl

/-- C3: determinism across repeated invocations holds for the
codeblock-parser variant, and for the codeblock-engine variant only from
a pristine matcher slot.  In `src/codeblock-parser/parser.ts` each
invocation constructs its own instance whose `_lineMatchers` field
initializer builds a fresh map with the `codefence-end` slot at
`matcherSlotInit` (`regex: null`), so two invocation histories with
arbitrary (and different) earlier sources give the same final result,
the one determined by the last source alone.  In the engine variant the
claim fails (`c3_counterexample`): `new Map(MATCHERS)` shallow-copies the
module-level map of `codeblock-engine/match.ts`, every instance shares
the same mutable `NestedEnd` rule, and a parse that fails while a fence
is open leaves its regex set for the next invocation; what does hold is
that an engine invocation whose incoming slot is pristine — the load-time
state, before any leak — computes the result of the slot-free model. -/
theorem c3_no_matcher_state_across_invocations (pre1 pre2 : List Str) (s : Str) :
    ((parseSequence (pre1 ++ [s])).getLast? = some (parseProperties s)
      ∧ (parseSequence (pre1 ++ [s])).getLast? = (parseSequence (pre2 ++ [s])).getLast?)
    ∧ (engineFromStringS none s).1 = engineFromString s := by
  have h : ∀ pre : List Str, (parseSequence (pre ++ [s])).getLast? = some (parseProperties s) := by
    intro pre
    rw [parseSequence, List.map_append, List.map_singleton, List.getLast?_concat]
    rfl
  exact ⟨⟨h pre1, (h pre1).trans (h pre2).symm⟩, engineFromStringS_fst s⟩

/-- C3, counterexample for the codeblock-engine variant: parsing
`"a: x\n` ``` `"` fails at end of input with the fence still open, and —
because `NestedStartState.handle` ran `setCodefenceRegex` before the
throw — leaves the shared `NestedEnd` regex set to three backticks.  A
fresh engine parses `"a: x\n` ``` `\ncode\n` ``` `"` to a single pair,
but the same source parsed right after the failed invocation matches its
fence line as `NestedEnd` already from `PairState`, which has no mapping
for that jump condition, and errors out: the same input string yields
different results depending on an earlier invocation. -/
theorem c3_counterexample :
    engineFromStringS none ("a: x" ++ "\n" ++ "```" ++ "\n" ++ "code" ++ "\n" ++ "```").data
        = (.ok [⟨"a".data, ("x" ++ "\n" ++ "```" ++ "\n" ++ "code" ++ "\n" ++ "```").data⟩], none)
      ∧ engineSequence [("a: x" ++ "\n" ++ "```").data,
          ("a: x" ++ "\n" ++ "```" ++ "\n" ++ "code" ++ "\n" ++ "```").data]
        = [.error "Unexpected end of input: NestedStartState is not an accepting state.",
           .error "Invalid input transition: NestedEnd jump condition has no mapping in PairState."]
      ∧ (Except.error "Invalid input transition: NestedEnd jump condition has no mapping in PairState."
          : Except String (List Pair))
        ≠ .ok [⟨"a".data, ("x" ++ "\n" ++ "```" ++ "\n" ++ "code" ++ "\n" ++ "```").data⟩] :=
  ⟨rfl, rfl, fun h => Except.noConfusion h⟩

theorem propMatch_nil : propMatch [] = none := rfl

theorem propMatch_ne_nil (l : Str) (k v : Str) (h : propMatch l = some (k, v)) :
    l ≠ [] := by
  intro hl
  rw [hl, propMatch_nil] at h
  exact Option.noConfusion h

/-- C10: a single-line input that matches the property-declaration
pattern parses to exactly one property, built from the two capture
groups: the first line is consumed while the machine is still in
`CodeblockStart` (no index increment), and since that line is also the
last one, the accepting `PropertyStart` state transitions to
`CodeblockEnd`, which stores the buffered property. -/
theorem c10_single_line_property (line key v : Str)
    (hnl : '\n' ∉ line)
    (hm : propMatch (jsTrim line) = some (key, v)) :
    parseProperties line = .ok [⟨key, v⟩] := by
  have hne : jsTrim line ≠ [] := propMatch_ne_nil _ _ _ hm
  have hnl' : '\n' ∉ jsTrim line := not_mem_jsTrim line _ hnl
  rw [parseProperties, parseCodeblockWithSlot]
  simp only [matcherSlotInit]
  rw [if_neg (by simpa using hne)]
  rw [jsSplitNl_no_nl _ hnl']
  simp only [parseLinesFrom, jsTrim_idem, matchLine, matchLineNoFence, hm]
  rfl

/-- C10, witness: the concrete single-line input `title: Hello`. -/
theorem c10_witness :
    parseProperties "title: Hello".data = .ok [⟨"title".data, "Hello".data⟩] :=
  c10_single_line_property "title: Hello".data "title".data "Hello".data
    (by decide) (by decide)

-- ### Fence behavior of the parser (claims about opaque fenced content)

/-- `ls.foldl appendText p`: the property obtained by appending the lines
`ls` one after the other. -/
def appendLines (p : CodeblockProperty) (ls : List Str) : CodeblockProperty :=
  ls.foldl CodeblockProperty.appendText p

theorem appendLines_nil (p : CodeblockProperty) : appendLines p [] = p := rfl

theorem appendLines_cons (p : CodeblockProperty) (x : Str) (xs : List Str) :
    appendLines p (x :: xs) = appendLines (p.appendText x) xs := rfl

theorem appendLines_concat (p : CodeblockProperty) (xs : List Str) (y : Str) :
    appendLines p (xs ++ [y]) = (appendLines p xs).appendText y := by
  simp [appendLines, List.foldl_append]

theorem appendLines_name (p : CodeblockProperty) (xs : List Str) :
    (appendLines p xs).name = p.name := by
  induction xs generalizing p with
  | nil => rfl
  | cons x xs ih => rw [appendLines_cons, ih]; rfl

/-- A backtick is not a key character, so a line that opens a fence can
never match the `property-start` rule. -/
theorem fence_not_prop (l : Str) (n : Nat) (h : codefenceStartMatch l = some n) :
    propMatch l = none := by
  rcases l with _ | ⟨c, t⟩
  · rfl
  · have hc : c = backtick := by
      by_contra hc
      rw [codefenceStartMatch] at h
      simp only [List.takeWhile] at h
      rw [show (decide (c = backtick)) = false by simp [hc]] at h
      simp at h
    subst hc
    rw [propMatch]
    have : isKeyChar backtick = false := by decide
    simp [List.takeWhile, this]

theorem matchLineNoFence_rule_cases (l : Str) :
    (matchLineNoFence l).rule = .propertyStart ∨ (matchLineNoFence l).rule = .codefenceStart
    ∨ (matchLineNoFence l).rule = .anyText := by
  rw [matchLineNoFence]
  cases h1 : propMatch l with
  | some kv => cases kv; simp [LineMatch.rule]
  | none =>
    cases h2 : codefenceStartMatch l with
    | some n => simp [LineMatch.rule]
    | none => simp [LineMatch.rule]

theorem fenceText_step (l : Str) :
    TRANSITION_MAP .codefenceText (matchLineNoFence l).rule = some .codefenceText := by
  rcases matchLineNoFence_rule_cases l with h | h | h <;> rw [h] <;> rfl

theorem fenceStart_step (l : Str) :
    TRANSITION_MAP .codefenceStart (matchLineNoFence l).rule = some .codefenceText := by
  rcases matchLineNoFence_rule_cases l with h | h | h <;> rw [h] <;> rfl

theorem matchLine_fence_close (n : Nat) (l : Str) (h : l = List.replicate n backtick) :
    matchLine (some n) l = .codefenceEnd := by
  rw [matchLine, codefenceEndMatch]
  simp [h]

theorem matchLine_fence_open_ne (n : Nat) (l : Str) (h : l ≠ List.replicate n backtick) :
    matchLine (some n) l = matchLineNoFence l := by
  rw [matchLine, codefenceEndMatch]
  simp [h]

/-- Inside an open fence every line whose trim is not the remembered
backtick run — including lines that look like property declarations or
like fences of a different backtick count — is appended to the buffered
property and the machine stays inside the fence; the line whose trim is
exactly the remembered run moves to `CodefenceEnd`. -/
theorem runLoop_fence_run (n : Nat) (body : List Str) :
    ∀ (s : ParserState) (fence : Option Nat) (p : CodeblockProperty)
      (acc : List CodeblockProperty) (lv : Str) (m : LineMatch) (i : Nat)
      (close : Str) (rest : List Str),
      ((s = .codefenceText ∧ fence = some n) ∨ (s = .codefenceStart ∧ m = .codefenceStart n)) →
      (∀ l ∈ body, jsTrim l ≠ List.replicate n backtick) →
      jsTrim close = List.replicate n backtick →
      runLoop fence (some p) acc s lv m i (body ++ close :: rest) =
        runLoop (some n) (some (appendLines p (lv :: body.map jsTrim))) acc .codefenceEnd
          (List.replicate n backtick) .codefenceEnd (i + body.length + 1) rest := by
  induction body with
  | nil =>
    intro s fence p acc lv m i close rest hs hbody hclose
    rcases hs with ⟨hs, hf⟩ | ⟨hs, hm⟩
    · subst hs; subst hf
      rw [runLoop]
      simp only [entryAction, List.nil_append]
      rw [hclose, matchLine_fence_close n _ rfl]
      simp only [LineMatch.rule, TRANSITION_MAP]
      rfl
    · subst hs; subst hm
      rw [runLoop]
      simp only [entryAction, List.nil_append]
      rw [hclose, matchLine_fence_close n _ rfl]
      simp only [LineMatch.rule, TRANSITION_MAP]
      rfl
  | cons b body ih =>
    intro s fence p acc lv m i close rest hs hbody hclose
    have hb : jsTrim b ≠ List.replicate n backtick :=
      hbody b (List.mem_cons_self b body)
    have hbody' : ∀ l ∈ body, jsTrim l ≠ List.replicate n backtick :=
      fun l hl => hbody l (List.mem_cons_of_mem b hl)
    have hnext := ih .codefenceText (some n) (p.appendText lv) acc (jsTrim b)
      (matchLineNoFence (jsTrim b)) (i + 1) close rest (Or.inl ⟨rfl, rfl⟩) hbody' hclose
    have harith : i + 1 + body.length + 1 = i + (b :: body).length + 1 := by
      simp only [List.length_cons]
      omega
    rcases hs with ⟨hs, hf⟩ | ⟨hs, hm⟩
    · subst hs; subst hf
      rw [runLoop]
      simp only [entryAction, List.cons_append]
      rw [matchLine_fence_open_ne n _ hb, fenceText_step]
      refine Eq.trans rfl (Eq.trans hnext ?_)
      rw [harith]
      simp only [List.map_cons, appendLines_cons]
    · subst hs; subst hm
      rw [runLoop]
      simp only [entryAction, List.cons_append]
      rw [matchLine_fence_open_ne n _ hb, fenceStart_step]
      refine Eq.trans rfl (Eq.trans hnext ?_)
      rw [harith]
      simp only [List.map_cons, appendLines_cons]

theorem jsJoinNl_cons_cons (x y : Str) (xs : List Str) :
    jsJoinNl (x :: y :: xs) = x ++ '\n' :: jsJoinNl (y :: xs) := rfl

theorem jsJoinNl_cons_cons_ne_nil (x y : Str) (xs : List Str) :
    jsJoinNl (x :: y :: xs) ≠ [] := by
  rw [jsJoinNl_cons_cons]
  intro h
  have := congrArg List.length h
  simp at this

/-- The first line of a parse: matched and consumed while the machine is
still in `CodeblockStart` (no index increment). -/
theorem parseLinesFrom_cons (fence0 : Option Nat) (l0 : Str) (rest : List Str) :
    parseLinesFrom fence0 (l0 :: rest) =
      match TRANSITION_MAP .codeblockStart (matchLine fence0 (jsTrim l0)).rule with
      | some s => runLoop fence0 none [] s (jsTrim l0) (matchLine fence0 (jsTrim l0)) 0 rest
      | none => .error "Codeblock must start with a property" := rfl

theorem matchLine_none (l : Str) : matchLine none l = matchLineNoFence l := rfl

theorem matchLineNoFence_prop (l k v : Str) (h : propMatch l = some (k, v)) :
    matchLineNoFence l = .propertyStart k v := by
  rw [matchLineNoFence, h]

theorem matchLineNoFence_fence (l : Str) (n : Nat)
    (h : codefenceStartMatch l = some n) :
    matchLineNoFence l = .codefenceStart n := by
  rw [matchLineNoFence, fence_not_prop _ _ h, h]

/-- Parsing a codeblock that consists of one property-declaration line
followed by one complete fenced block: the result is a single property
whose value receives, in order, every line from the fence opening to the
fence closing.  The hypotheses only constrain the *trimmed* body lines not
to equal the remembered backtick run — a body line may look like a
property declaration or like a fence with a different backtick count. -/
theorem parse_fence_block (line0 openLine closeLine : Str) (key v0 : Str) (n : Nat)
    (body : List Str)
    (h0 : propMatch (jsTrim line0) = some (key, v0))
    (hopen : codefenceStartMatch (jsTrim openLine) = some n)
    (hclose : jsTrim closeLine = List.replicate n backtick)
    (hbody : ∀ l ∈ body, jsTrim l ≠ List.replicate n backtick)
    (hnl : ∀ l ∈ line0 :: openLine :: body ++ [closeLine], '\n' ∉ l)
    (htrim : jsTrim (jsJoinNl (line0 :: openLine :: body ++ [closeLine]))
      = jsJoinNl (line0 :: openLine :: body ++ [closeLine])) :
    parseProperties (jsJoinNl (line0 :: openLine :: body ++ [closeLine])) =
      .ok [appendLines ⟨key, v0⟩ (jsTrim openLine :: body.map jsTrim
        ++ [List.replicate n backtick])] := by
  have hne : jsJoinNl (line0 :: openLine :: body ++ [closeLine]) ≠ [] :=
    jsJoinNl_cons_cons_ne_nil line0 openLine (body ++ [closeLine])
  have hsplit : jsSplitNl (jsJoinNl (line0 :: openLine :: body ++ [closeLine]))
      = line0 :: openLine :: body ++ [closeLine] :=
    jsSplitNl_jsJoinNl _ (by simp) hnl
  have hm0 : matchLine none (jsTrim line0) = .propertyStart key v0 := by
    rw [matchLine_none]
    exact matchLineNoFence_prop _ _ _ h0
  have hmOpen : matchLine none (jsTrim openLine) = .codefenceStart n := by
    rw [matchLine_none]
    exact matchLineNoFence_fence _ _ hopen
  rw [parseProperties, parseCodeblockWithSlot]
  simp only [matcherSlotInit, htrim]
  rw [if_neg (by simpa using hne), hsplit]
  rw [show parseLinesFrom none (line0 :: openLine :: body ++ [closeLine]) =
      (match TRANSITION_MAP .codeblockStart (matchLine none (jsTrim line0)).rule with
       | some s => runLoop none none [] s (jsTrim line0)
           (matchLine none (jsTrim line0)) 0 (openLine :: body ++ [closeLine])
       | none => .error "Codeblock must start with a property") from rfl]
  rw [hm0]
  show runLoop none none [] .propertyStart (jsTrim line0) (.propertyStart key v0) 0
      (openLine :: (body ++ [closeLine])) = _
  rw [runLoop]
  simp only [entryAction]
  rw [hmOpen]
  show runLoop none (some ⟨key, v0⟩) ([] ++ Option.toList none) .codefenceStart
      (jsTrim openLine) (.codefenceStart n) (0 + 1) (body ++ [closeLine]) = _
  rw [show ([] ++ Option.toList (none : Option CodeblockProperty)) = [] from rfl]
  rw [runLoop_fence_run n body .codefenceStart none ⟨key, v0⟩ [] (jsTrim openLine)
    (.codefenceStart n) (0 + 1) closeLine [] (Or.inr ⟨rfl, rfl⟩) hbody hclose]
  rw [runLoop]
  simp only [entryAction, ACCEPTING_STATES]
  rw [appendLines_concat]
  rfl

/-- C1: inside an open code fence, every line up to the matching
fence-close line — including lines that match the property-declaration
pattern or look like a fence of a different backtick count — is appended
to the currently buffered property's value and never starts a new
property: the parse yields exactly one property holding all those lines. -/
theorem c1_fenced_content_is_opaque (line0 openLine closeLine : Str) (key v0 : Str)
    (n : Nat) (body : List Str)
    (h0 : propMatch (jsTrim line0) = some (key, v0))
    (hopen : codefenceStartMatch (jsTrim openLine) = some n)
    (hclose : jsTrim closeLine = List.replicate n backtick)
    (hbody : ∀ l ∈ body, jsTrim l ≠ List.replicate n backtick)
    (hnl : ∀ l ∈ line0 :: openLine :: body ++ [closeLine], '\n' ∉ l)
    (htrim : jsTrim (jsJoinNl (line0 :: openLine :: body ++ [closeLine]))
      = jsJoinNl (line0 :: openLine :: body ++ [closeLine])) :
    parseProperties (jsJoinNl (line0 :: openLine :: body ++ [closeLine])) =
      .ok [appendLines ⟨key, v0⟩ (jsTrim openLine :: body.map jsTrim
        ++ [List.replicate n backtick])] :=
  parse_fence_block line0 openLine closeLine key v0 n body
    h0 hopen hclose hbody hnl htrim

/-- C1, witness: the example from the specification — `code: 1` inside
the fence is fence content, not a second property. -/
theorem c1_witness :
    parseProperties ("note: intro" ++ "\n" ++ "```" ++ "\n" ++ "code: 1"
        ++ "\n" ++ "```").data =
      .ok [⟨"note".data,
        ("intro" ++ "\n" ++ "```" ++ "\n" ++ "code: 1" ++ "\n" ++ "```").data⟩] :=
  c1_fenced_content_is_opaque "note: intro".data "```".data "```".data
    "note".data "intro".data 3 ["code: 1".data]
    (by decide) (by decide) (by decide) (by decide) (by decide) (by decide)

theorem appendLines_value (p : CodeblockProperty) (ls : List Str) :
    (appendLines p ls).value = p.value ++ (ls.map (fun l => '\n' :: l)).flatten := by
  induction ls generalizing p with
  | nil => simp [appendLines_nil]
  | cons x xs ih =>
    rw [appendLines_cons, ih]
    simp [CodeblockProperty.appendText]

theorem mem_of_mem_dropWhile (p : Char → Bool) (l : Str) (c : Char)
    (h : c ∈ l.dropWhile p) : c ∈ l := by
  have heq : l = l.takeWhile p ++ l.dropWhile p := (List.takeWhile_append_dropWhile ..).symm
  rw [heq]
  exact List.mem_append_right _ h

theorem propMatch_no_nl (l k v : Str) (h : propMatch l = some (k, v))
    (hnl : '\n' ∉ l) : '\n' ∉ v := by
  rw [propMatch] at h
  by_cases hk : (l.takeWhile isKeyChar).isEmpty
  · rw [if_pos hk] at h
    exact absurd h (by simp)
  · rw [if_neg hk] at h
    split at h
    · rename_i rest heq
      simp only [Option.some.injEq, Prod.mk.injEq] at h
      intro hm
      apply hnl
      apply mem_of_mem_dropWhile isKeyChar
      apply mem_of_mem_dropWhile isWs
      rw [heq]
      exact List.mem_cons_of_mem _ (mem_of_mem_dropWhile isWs rest '\n' (h.2 ▸ hm))
    · exact absurd h (by simp)

theorem splitNl_flatten (v0 : Str) (ls : List Str) (hv0 : '\n' ∉ v0)
    (hls : ∀ l ∈ ls, '\n' ∉ l) :
    jsSplitNl (v0 ++ (ls.map (fun l => '\n' :: l)).flatten) = v0 :: ls := by
  induction ls generalizing v0 with
  | nil => simpa using jsSplitNl_no_nl v0 hv0
  | cons x xs ih =>
    simp only [List.map_cons, List.flatten_cons]
    rw [show v0 ++ (('\n' :: x) ++ (xs.map (fun l => '\n' :: l)).flatten)
        = v0 ++ '\n' :: (x ++ (xs.map (fun l => '\n' :: l)).flatten) by simp]
    rw [jsSplitNl_append_nl, jsSplitNl_no_nl v0 hv0]
    rw [ih x (hls x (List.mem_cons_self x xs)) (fun l hl => hls l (List.mem_cons_of_mem x hl))]
    rfl

/-- C8 (amended): the opening and closing fence delimiter lines are
stored verbatim, as whole lines of the owning property's value, *after*
the per-line trim that `_getLine` applies to every line; when the fence
lines carry no leading or trailing whitespace in the source (the
hypotheses `hopenT`, `hcloseT`) they are therefore preserved
byte-for-byte. -/
theorem c8_fence_lines_stored_verbatim (line0 openLine closeLine : Str) (key v0 : Str)
    (n : Nat) (body : List Str)
    (h0 : propMatch (jsTrim line0) = some (key, v0))
    (hopen : codefenceStartMatch openLine = some n)
    (hopenT : jsTrim openLine = openLine)
    (hclose : closeLine = List.replicate n backtick)
    (hcloseT : jsTrim closeLine = closeLine)
    (hbody : ∀ l ∈ body, jsTrim l ≠ List.replicate n backtick)
    (hnl : ∀ l ∈ line0 :: openLine :: body ++ [closeLine], '\n' ∉ l)
    (htrim : jsTrim (jsJoinNl (line0 :: openLine :: body ++ [closeLine]))
      = jsJoinNl (line0 :: openLine :: body ++ [closeLine])) :
    ∃ p, parseProperties (jsJoinNl (line0 :: openLine :: body ++ [closeLine])) = .ok [p]
      ∧ jsSplitNl p.value = v0 :: openLine :: body.map jsTrim ++ [closeLine] := by
  have hopen' : codefenceStartMatch (jsTrim openLine) = some n := by rw [hopenT]; exact hopen
  have hclose' : jsTrim closeLine = List.replicate n backtick := by rw [hcloseT]; exact hclose
  refine ⟨appendLines ⟨key, v0⟩ (jsTrim openLine :: body.map jsTrim
    ++ [List.replicate n backtick]), ?_, ?_⟩
  · exact parse_fence_block line0 openLine closeLine key v0 n body
      h0 hopen' hclose' hbody hnl htrim
  · have hv0 : '\n' ∉ v0 := by
      refine propMatch_no_nl (jsTrim line0) key v0 h0 ?_
      exact not_mem_jsTrim line0 '\n' (hnl line0 (List.mem_cons_self _ _))
    have hls : ∀ l ∈ jsTrim openLine :: body.map jsTrim ++ [List.replicate n backtick],
        '\n' ∉ l := by
      intro l hl
      rcases List.mem_cons.mp hl with h | h
      · subst h
        exact not_mem_jsTrim openLine '\n'
          (hnl openLine (List.mem_cons_of_mem _ (List.mem_cons_self _ _)))
      · rcases List.mem_append.mp h with h | h
        · obtain ⟨b, hb, rfl⟩ := List.mem_map.mp h
          refine not_mem_jsTrim b '\n' ?_
          refine hnl b ?_
          exact List.mem_cons_of_mem _ (List.mem_cons_of_mem _
            (List.mem_append_left _ hb))
        · rw [List.mem_singleton.mp h]
          intro hm
          have := List.eq_of_mem_replicate hm
          exact absurd this (by decide)
    rw [show (appendLines ⟨key, v0⟩ (jsTrim openLine :: body.map jsTrim
        ++ [List.replicate n backtick])).value
      = (⟨key, v0⟩ : CodeblockProperty).value ++ (((jsTrim openLine :: body.map jsTrim
        ++ [List.replicate n backtick]).map (fun l => '\n' :: l)).flatten)
      from appendLines_value ..]
    rw [show (⟨key, v0⟩ : CodeblockProperty).value = v0 from rfl]
    rw [splitNl_flatten v0 _ hv0 hls]
    rw [hopenT, hclose]
    simp

/-- C8, witness: a four-backtick fence whose body is a bare three-backtick
line; both delimiter lines appear byte-for-byte as lines of the value. -/
theorem c8_witness :
    ∃ p, parseProperties ("k: v" ++ "\n" ++ "````" ++ "\n" ++ "```" ++ "\n"
        ++ "````").data = .ok [p]
      ∧ jsSplitNl p.value = ["v".data, "````".data, "```".data, "````".data] :=
  c8_fence_lines_stored_verbatim "k: v".data "````".data "````".data
    "k".data "v".data 4 ["```".data]
    (by decide) (by decide) (by decide) (by decide) (by decide) (by decide)
    (by decide) (by decide)

/-- C8, counterexample to the claim as stated: when the opening fence
line carries a leading space in the source, the stored line is the
trimmed `` ``` ``, so the value does not contain the source's fence line
byte-for-byte. -/
theorem c8_counterexample :
    parseProperties ("k: v" ++ "\n" ++ " ```" ++ "\n" ++ "x" ++ "\n" ++ "```").data =
      .ok [⟨"k".data, ("v" ++ "\n" ++ "```" ++ "\n" ++ "x" ++ "\n" ++ "```").data⟩]
    ∧ " ```".data ∉ jsSplitNl ("v" ++ "\n" ++ "```" ++ "\n" ++ "x" ++ "\n" ++ "```").data :=
  ⟨rfl, by decide⟩

-- ## The template engine
-- Embedded from `src/template-engine/handlebar.ts`, `parser.ts`, `token.ts`,
-- `template.ts`, and the template-module variant `src/template/template.ts`,
-- `src/template-module/token.ts` (whose placeholder regexes are identical).

/-- The brace characters, spelled by code point to keep the source text
plain. -/
def openBrace : Char := Char.ofNat 123

def closeBrace : Char := Char.ofNat 125

/-- The apostrophe character used in the token-conflict error messages. -/
def apos : String := String.mk [Char.ofNat 39]

/-- Name characters of the placeholder regexes' class `[a-zA-Z\-]`. -/
def isTokenNameChar (c : Char) : Bool :=
  ('a' ≤ c && c ≤ 'z') || ('A' ≤ c && c ≤ 'Z') || c = '-'

/-- A successful match of one of the three placeholder syntaxes, with its
raw capture groups (`required`, `optional`, `fallback` — the last is the
`default` syntax of the template-module variant, same regex). -/
inductive HandlebarMatch
  | required (name : Str)
  | optional (name : Str)
  | fallback (name : Str) (fb : Str)
deriving DecidableEq, Repr

/-- The `required` regex `\{\{\s*([a-zA-Z\-]+)\s*\}\}`, matched at the
start of `l`; returns the length of the whole match and group 1.  All
quantifier runs are maximal: name characters, whitespace and the braces
are pairwise disjoint, so backtracking can never turn this failure into a
success. -/
def tryRequired (l : Str) : Option (Nat × Str) :=
  match l with
  | c1 :: c2 :: rest =>
    if c1 = openBrace && c2 = openBrace then
      let ws1 := rest.takeWhile isWs
      let r1 := rest.dropWhile isWs
      let nm := r1.takeWhile isTokenNameChar
      let r2 := r1.dropWhile isTokenNameChar
      if nm.isEmpty then none
      else
        let ws2 := r2.takeWhile isWs
        let r3 := r2.dropWhile isWs
        match r3 with
        | d1 :: d2 :: _ =>
          if d1 = closeBrace && d2 = closeBrace then
            some (2 + ws1.length + nm.length + ws2.length + 2, nm)
          else none
        | _ => none
    else none
  | _ => none

/-- The `optional` regex `\{\{\s*([a-zA-Z\-]+)\s*\?\s*\}\}`. -/
def tryOptional (l : Str) : Option (Nat × Str) :=
  match l with
  | c1 :: c2 :: rest =>
    if c1 = openBrace && c2 = openBrace then
      let ws1 := rest.takeWhile isWs
      let r1 := rest.dropWhile isWs
      let nm := r1.takeWhile isTokenNameChar
      let r2 := r1.dropWhile isTokenNameChar
      if nm.isEmpty then none
      else
        let ws2 := r2.takeWhile isWs
        let r3 := r2.dropWhile isWs
        match r3 with
        | q :: r4 =>
          if q = '?' then
            let ws3 := r4.takeWhile isWs
            let r5 := r4.dropWhile isWs
            match r5 with
            | d1 :: d2 :: _ =>
              if d1 = closeBrace && d2 = closeBrace then
                some (2 + ws1.length + nm.length + ws2.length + 1 + ws3.length + 2, nm)
              else none
            | _ => none
          else none
        | _ => none
    else none
  | _ => none

/-- The `fallback` regex `\{\{\s*([a-zA-Z\-]+)\s*\|\s*([^\}]+)\s*\}\}`.

After the `|`, let `run` be the characters up to the first closing brace:
the trailing `\s*\}\}` can only consume characters of `run`, so the two
closing braces must stand exactly at the end of `run`.  Group 2 is `run`
without its leading whitespace (consumed by the greedy `\s*`) — except
when `run` is all whitespace, where the greedy `\s*` gives back exactly
one character so that `([^\}]+)` can match it. -/
def tryFallback (l : Str) : Option (Nat × Str × Str) :=
  match l with
  | c1 :: c2 :: rest =>
    if c1 = openBrace && c2 = openBrace then
      let ws1 := rest.takeWhile isWs
      let r1 := rest.dropWhile isWs
      let nm := r1.takeWhile isTokenNameChar
      let r2 := r1.dropWhile isTokenNameChar
      if nm.isEmpty then none
      else
        let ws2 := r2.takeWhile isWs
        let r3 := r2.dropWhile isWs
        match r3 with
        | q :: r4 =>
          if q = '|' then
            let run := r4.takeWhile (fun c => !(c = closeBrace))
            let rest4 := r4.dropWhile (fun c => !(c = closeBrace))
            if run.isEmpty then none
            else
              match rest4 with
              | d1 :: d2 :: _ =>
                if d1 = closeBrace && d2 = closeBrace then
                  let g := run.dropWhile isWs
                  let group2 := if g.isEmpty then run.drop (run.length - 1) else g
                  some (2 + ws1.length + nm.length + ws2.length + 1 + run.length + 2,
                    nm, group2)
                else none
              | _ => none
          else none
        | _ => none
    else none
  | _ => none

/-- One position of the master regex: the three named alternatives are
tried in declaration order (`required`, `optional`, `fallback`). -/
def tryHandlebarAt (l : Str) : Option (Nat × HandlebarMatch) :=
  match tryRequired l with
  | some (len, nm) => some (len, .required nm)
  | none =>
    match tryOptional l with
    | some (len, nm) => some (len, .optional nm)
    | none =>
      match tryFallback l with
      | some (len, nm, fb) => some (len, .fallback nm fb)
      | none => none

/-- `masterRegex.exec` from the current scan position: find the leftmost
position where some alternative matches.  Returns the literal text before
the match, the match, and the remainder after the match (the next scan
position, JavaScript `lastIndex`). -/
def scanHandlebar : Str → Option (Str × HandlebarMatch × Str)
  | [] => none
  | c :: t =>
    match tryHandlebarAt (c :: t) with
    | some (len, pm) => some ([], pm, (c :: t).drop len)
    | none =>
      match scanHandlebar t with
      | some (pre, pm, post) => some (c :: pre, pm, post)
      | none => none

theorem tryRequired_pos (l : Str) (len : Nat) (nm : Str)
    (h : tryRequired l = some (len, nm)) : 1 ≤ len := by
  unfold tryRequired at h
  repeat' (first | (split at h) | (dsimp only at h))
  all_goals first
    | exact Option.noConfusion h
    | (simp only [Option.some.injEq, Prod.mk.injEq] at h; omega)

theorem tryOptional_pos (l : Str) (len : Nat) (nm : Str)
    (h : tryOptional l = some (len, nm)) : 1 ≤ len := by
  unfold tryOptional at h
  repeat' (first | (split at h) | (dsimp only at h))
  all_goals first
    | exact Option.noConfusion h
    | (simp only [Option.some.injEq, Prod.mk.injEq] at h; omega)

theorem tryFallback_pos (l : Str) (len : Nat) (nm fb : Str)
    (h : tryFallback l = some (len, nm, fb)) : 1 ≤ len := by
  unfold tryFallback at h
  repeat' (first | (split at h) | (dsimp only at h))
  all_goals first
    | exact Option.noConfusion h
    | (simp only [Option.some.injEq, Prod.mk.injEq] at h; omega)

theorem tryHandlebarAt_pos (l : Str) (len : Nat) (pm : HandlebarMatch)
    (h : tryHandlebarAt l = some (len, pm)) : 1 ≤ len := by
  rw [tryHandlebarAt] at h
  split at h
  · rename_i len' nm' heq
    simp only [Option.some.injEq, Prod.mk.injEq] at h
    exact h.1 ▸ tryRequired_pos l len' nm' heq
  · split at h
    · rename_i len' nm' heq
      simp only [Option.some.injEq, Prod.mk.injEq] at h
      exact h.1 ▸ tryOptional_pos l len' nm' heq
    · split at h
      · rename_i len' nm' fb' heq
        simp only [Option.some.injEq, Prod.mk.injEq] at h
        exact h.1 ▸ tryFallback_pos l len' nm' fb' heq
      · exact absurd h (by simp)

/-- A successful scan strictly shrinks the remaining input, so a fuel
budget of the input length is always sufficient for the tokenizer. -/
theorem scanHandlebar_shrinks (l : Str) :
    ∀ pre pm post, scanHandlebar l = some (pre, pm, post) → post.length < l.length := by
  induction l with
  | nil => intro pre pm post h; exact absurd h (by simp [scanHandlebar])
  | cons c t ih =>
    intro pre pm post h
    rw [scanHandlebar] at h
    split at h
    · rename_i len pm' heq
      simp only [Option.some.injEq, Prod.mk.injEq] at h
      have hpos := tryHandlebarAt_pos _ _ _ heq
      have hdrop : ((c :: t).drop len).length = (c :: t).length - len := List.length_drop ..
      rw [← h.2.2, hdrop]
      simp only [List.length_cons]
      omega
    · split at h
      · rename_i pre' pm' post' heq
        simp only [Option.some.injEq, Prod.mk.injEq] at h
        have := ih pre' pm' post' heq
        rw [← h.2.2]
        simp only [List.length_cons]
        omega
      · exact absurd h (by simp)

/-- The token classes of the template engine (`template-engine/token.ts`):
literal text and the three handlebar variants. -/
inductive TemplateToken
  | text (content : Str)
  | required (key : Str)
  | optional (key : Str)
  | fallback (key : Str) (fb : Str)
deriving DecidableEq, Repr

/-- `syntax.toToken` of `SYNTAX_LIBRARY` (`template-engine/handlebar.ts`):
the key (and the fallback default) are trimmed at extraction time. -/
def tokenFromMatch : HandlebarMatch → TemplateToken
  | .required nm => .required (jsTrim nm)
  | .optional nm => .optional (jsTrim nm)
  | .fallback nm fb => .fallback (jsTrim nm) (jsTrim fb)

/-- `TemplateParser.parse` with an explicit fuel argument.  Each
successful `masterRegex.exec` advances the scan position by at least one
character (`scanHandlebar_shrinks`), so fuel `source.length` never runs
out; `parseTemplateFuel_fuel_free` below makes this precise. -/
def parseTemplateFuel : Nat → Str → List TemplateToken
  | 0, l => if l.isEmpty then [] else [.text l]
  | fuel + 1, l =>
    match scanHandlebar l with
    | some (pre, pm, post) =>
      (if pre.isEmpty then [] else [.text pre])
        ++ tokenFromMatch pm :: parseTemplateFuel fuel post
    | none => if l.isEmpty then [] else [.text l]

/-- `TemplateParser.parse` / `TemplateParser.fromString(...).tokens`:
scan the source with the master regex, emitting a text token for the
literal text before each placeholder match (skipped when empty), the
placeholder token, and a final text token for any trailing text. -/
def parseTemplate (source : Str) : List TemplateToken :=
  parseTemplateFuel source.length source

theorem parseTemplateFuel_fuel_free (fuel1 : Nat) :
    ∀ fuel2 l, l.length ≤ fuel1 → l.length ≤ fuel2 →
      parseTemplateFuel fuel1 l = parseTemplateFuel fuel2 l := by
  induction fuel1 using Nat.strong_induction_on with
  | _ fuel1 ih =>
    intro fuel2 l h1 h2
    match fuel1, fuel2 with
    | 0, 0 => rfl
    | 0, f2 + 1 =>
      have : l = [] := List.length_eq_zero.mp (Nat.le_zero.mp h1)
      subst this
      rw [parseTemplateFuel, parseTemplateFuel]
      rfl
    | f1 + 1, 0 =>
      have : l = [] := List.length_eq_zero.mp (Nat.le_zero.mp h2)
      subst this
      rw [parseTemplateFuel, parseTemplateFuel]
      rfl
    | f1 + 1, f2 + 1 =>
      rw [parseTemplateFuel, parseTemplateFuel]
      cases hscan : scanHandlebar l with
      | none => rfl
      | some v =>
        obtain ⟨pre, pm, post⟩ := v
        have hlt := scanHandlebar_shrinks l pre pm post hscan
        have hpost1 : post.length ≤ f1 := by omega
        have hpost2 : post.length ≤ f2 := by
          by_cases hf : post.length ≤ f2
          · exact hf
          · omega
        dsimp only
        rw [ih f1 (by omega) f2 post hpost1 hpost2]

/-- C9 (amended): tokenizing a template string in which no substring
matches any of the three placeholder syntaxes (formalized: the master
regex finds no match anywhere, `scanHandlebar s = none`) yields exactly
one Text token whose content is the whole input string taken verbatim —
not trimmed — or zero tokens for the empty input. -/
theorem c9_no_placeholder_single_text (s : Str) (hscan : scanHandlebar s = none) :
    parseTemplate s = if s.isEmpty then [] else [.text s] := by
  rw [parseTemplate]
  cases s with
  | nil => rfl
  | cons c t =>
    rw [show (c :: t).length = t.length + 1 from rfl, parseTemplateFuel, hscan]

/-- C9, witness at a concrete placeholder-free input. -/
theorem c9_witness :
    parseTemplate "Hello world".data = [TemplateToken.text "Hello world".data] :=
  c9_no_placeholder_single_text "Hello world".data (by decide)

/-- C9, counterexample to the claim as stated: on a placeholder-free
input with trailing whitespace, the single Text token holds the input
verbatim, which differs from the trimmed input the claim requires. -/
theorem c9_counterexample :
    parseTemplate "Hello world ".data = [TemplateToken.text "Hello world ".data]
    ∧ scanHandlebar "Hello world ".data = none
    ∧ "Hello world ".data ≠ jsTrim "Hello world ".data := by
  exact ⟨rfl, by decide, by decide⟩

/-- Modelled from the spec: the helper `escapeHTML` (imported from
`utils/html` by `codeblock-engine/pair.ts`) is not among the source
files — only its caller `wrap` is.  It is modelled as standard HTML
entity escaping; no claim below depends on its behavior (the compiled
positions it affects are abstracted by hypotheses). -/
def escapeHTML (l : Str) : Str :=
  l.flatMap (fun c =>
    if c = '&' then "&amp;".data
    else if c = '<' then "&lt;".data
    else if c = '>' then "&gt;".data
    else if c = '"' then "&quot;".data
    else if c = Char.ofNat 39 then "&#39;".data
    else [c])

/-- `CodeblockProperty.wrap` (`codeblock-engine/pair.ts`): wrap the
escaped value in the markdown marker div. -/
def Pair.wrap (p : Pair) : Str :=
  "<div class=\"cf-markdown\">".data ++ escapeHTML p.value ++ "</div>".data

/-- The key of a handlebar token (`token.key`); text tokens have none. -/
def TemplateToken.key : TemplateToken → Str
  | .text _ => []
  | .required k => k
  | .optional k => k
  | .fallback k _ => k

/-- The `fallback` field of `HandlebarToken`: `undefined` for
`RequiredToken`, the empty string for `OptionalToken`, the stored default
for `FallbackToken`. -/
def TemplateToken.fallbackField : TemplateToken → Option Str
  | .text _ => none
  | .required _ => none
  | .optional _ => some []
  | .fallback _ fb => some fb

/-- `HandlebarToken.normalize`: use the matching pair's wrapped value; a
missing pair falls back to the token's `fallback` field, and a missing
required value is an error naming the key. -/
def handlebarNormalize (t : TemplateToken) (pair : Option Pair) : Except String Str :=
  match pair with
  | some p => .ok p.wrap
  | none =>
    match t.fallbackField with
    | some fb => .ok fb
    | none =>
      .error ("Missing value for required key \"" ++ String.mk t.key ++ "\"")

/-- The `pairMap` lookup of `Template.compile`: a JavaScript `Map` built
by inserting the pairs in order, so a later pair with the same key
overrides an earlier one. -/
def pairLookup (pairs : List Pair) (k : Str) : Option Pair :=
  pairs.foldl (fun acc p => if p.key = k then some p else acc) none

/-- The per-token transform of `Template.compile`
(`template-engine/template.ts`): a handlebar token is normalized against
the pair map, a text token keeps its content. -/
def compileOne (t : TemplateToken) (pairs : List Pair) : Except String Str :=
  match t with
  | .text c => .ok c
  | t => handlebarNormalize t (pairLookup pairs t.key)

/-- `Template.compile`: transform every token independently and join the
results; the `Promise.all` of the source rejects with the first (in token
order) normalization error. -/
def compileTokens (tokens : List TemplateToken) (pairs : List Pair) : Except String Str :=
  match tokens with
  | [] => .ok []
  | t :: ts =>
    match compileOne t pairs with
    | .error e => .error e
    | .ok s =>
      match compileTokens ts pairs with
      | .error e => .error e
      | .ok r => .ok (s ++ r)

theorem pairLookup_none (pairs : List Pair) (k : Str)
    (h : ∀ p ∈ pairs, p.key ≠ k) : pairLookup pairs k = none := by
  have hgen : ∀ acc : Option Pair,
      pairs.foldl (fun acc p => if p.key = k then some p else acc) acc = acc := by
    induction pairs with
    | nil => intro acc; rfl
    | cons p ps ih =>
      intro acc
      rw [List.foldl_cons, if_neg (h p (List.mem_cons_self p ps))]
      exact ih (fun q hq => h q (List.mem_cons_of_mem p hq)) acc
  exact hgen none

theorem compileTokens_append (a b : List TemplateToken) (pairs : List Pair)
    (ra rb : Str) (ha : compileTokens a pairs = .ok ra)
    (hb : compileTokens b pairs = .ok rb) :
    compileTokens (a ++ b) pairs = .ok (ra ++ rb) := by
  induction a generalizing ra with
  | nil =>
    rw [compileTokens] at ha
    simp only [Except.ok.injEq] at ha
    subst ha
    simpa using hb
  | cons t ts ih =>
    rw [compileTokens] at ha
    rw [List.cons_append, compileTokens]
    cases hone : compileOne t pairs with
    | error e =>
      rw [hone] at ha
      exact absurd ha (by simp)
    | ok s =>
      rw [hone] at ha
      dsimp only at ha ⊢
      cases hts : compileTokens ts pairs with
      | error e =>
        rw [hts] at ha
        exact absurd ha (by simp)
      | ok r =>
        rw [hts] at ha
        dsimp only at ha
        simp only [Except.ok.injEq] at ha
        rw [ih r hts]
        dsimp only
        simp only [Except.ok.injEq]
        rw [← ha]
        simp

/-- C5: the compiler resolves each placeholder occurrence independently
and does not deduplicate repeated placeholders of the same name.  When a
tokenized template contains two Fallback placeholders with the same name
and (possibly different) defaults, and no property carries that name,
each occurrence compiles to its own stored default — which the tokenizer
stored trimmed — at its own position. -/
theorem c5_repeated_fallback_each_occurrence (src : Str)
    (pre mid post : List TemplateToken) (n d1 d2 : Str) (pairs : List Pair)
    (r1 r2 r3 : Str)
    (htok : parseTemplate src =
      pre ++ TemplateToken.fallback n d1 :: mid ++ TemplateToken.fallback n d2 :: post)
    (hn : ∀ p ∈ pairs, p.key ≠ n)
    (h1 : compileTokens pre pairs = .ok r1)
    (h2 : compileTokens mid pairs = .ok r2)
    (h3 : compileTokens post pairs = .ok r3) :
    compileTokens (parseTemplate src) pairs =
      .ok (r1 ++ d1 ++ r2 ++ d2 ++ r3) := by
  have hfb : ∀ d : Str, compileTokens [.fallback n d] pairs = .ok d := by
    intro d
    have hone : compileOne (.fallback n d) pairs = .ok d := by
      show handlebarNormalize (.fallback n d) (pairLookup pairs n) = .ok d
      rw [pairLookup_none pairs n hn]
      rfl
    rw [compileTokens, hone]
    dsimp only
    rw [show compileTokens [] pairs = .ok [] from rfl]
    simp
  have e3 : compileTokens ([TemplateToken.fallback n d2] ++ post) pairs
      = .ok (d2 ++ r3) := compileTokens_append _ _ _ _ _ (hfb d2) h3
  have e2 : compileTokens (mid ++ ([TemplateToken.fallback n d2] ++ post)) pairs
      = .ok (r2 ++ (d2 ++ r3)) := compileTokens_append _ _ _ _ _ h2 e3
  have e1 : compileTokens ([TemplateToken.fallback n d1]
      ++ (mid ++ ([TemplateToken.fallback n d2] ++ post))) pairs
      = .ok (d1 ++ (r2 ++ (d2 ++ r3))) := compileTokens_append _ _ _ _ _ (hfb d1) e2
  have e0 := compileTokens_append _ _ _ _ _ h1 e1
  rw [htok]
  simpa [List.append_assoc] using e0

/-- C5, witness: the same fallback name with two different defaults; each
position receives its own trimmed default. -/
theorem c5_witness :
    compileTokens (parseTemplate "\x7b\x7ba| x \x7d\x7dB\x7b\x7ba|y\x7d\x7d".data)
        [⟨"other".data, "v".data⟩] =
      .ok ("x".data ++ "B".data ++ "y".data) := by
  have h := c5_repeated_fallback_each_occurrence
    "\x7b\x7ba| x \x7d\x7dB\x7b\x7ba|y\x7d\x7d".data
    [] [.text "B".data] [] "a".data "x".data "y".data
    [⟨"other".data, "v".data⟩] [] "B".data []
    (by decide) (by decide) rfl rfl rfl
  simpa using h

-- ## The template-module token model and property normalization
-- Embedded from `src/template-module/token.ts` (also `src/template/token`)
-- and `normalizeCodeblockProperties` in `src/codeblock-parser/types.ts`.

/-- The token classes of the template module: `RequiredToken`,
`OptionalToken`, `DefaultedToken`, with the name (and the default) trimmed
by the constructors. -/
inductive ModuleToken
  | required (name : Str)
  | optional (name : Str)
  | defaulted (name : Str) (defaultValue : Str)
deriving DecidableEq, Repr

def ModuleToken.name : ModuleToken → Str
  | .required n => n
  | .optional n => n
  | .defaulted n _ => n

/-- The static `isRequired` flag of each token class. -/
def ModuleToken.isRequired : ModuleToken → Bool
  | .required _ => true
  | _ => false

/-- The `defaultValue` field: `""` for `OptionalToken`, the stored
default for `DefaultedToken` (a `RequiredToken` has none; the code only
reads the field on non-required tokens). -/
def ModuleToken.defaultValue : ModuleToken → Str
  | .required _ => []
  | .optional _ => []
  | .defaulted _ d => d

/-- `syntax.extract` composed with the token constructors (which trim):
to a module token from a raw placeholder match. -/
def moduleTokenFromMatch : HandlebarMatch → ModuleToken
  | .required nm => .required (jsTrim nm)
  | .optional nm => .optional (jsTrim nm)
  | .fallback nm fb => .defaulted (jsTrim nm) (jsTrim fb)

/-- `Template._scanTemplateString`, fuel version: collect the placeholder
tokens in appearance order (no text tokens in this variant). -/
def scanTokensFuel : Nat → Str → List ModuleToken
  | 0, _ => []
  | fuel + 1, l =>
    match scanHandlebar l with
    | some (_, pm, post) => moduleTokenFromMatch pm :: scanTokensFuel fuel post
    | none => []

/-- `Template._scanTemplateString` (`src/template/template.ts`). -/
def scanTemplateString (source : Str) : List ModuleToken :=
  scanTokensFuel source.length source

/-- The `propMap` lookup of `normalizeCodeblockProperties`: a JavaScript
`Map` keyed by the trimmed property name; later properties override
earlier ones with the same trimmed name. -/
def propMapLookup (properties : List CodeblockProperty) (n : Str) :
    Option CodeblockProperty :=
  properties.foldl (fun acc p => if jsTrim p.name = n then some p else acc) none

/-- One token of the `normalizeCodeblockProperties` loop: keep the
matching property, collect a missing required name, or substitute the
token's default value. -/
def normalizeStep (properties : List CodeblockProperty)
    (st : List CodeblockProperty × List Str) (t : ModuleToken) :
    List CodeblockProperty × List Str :=
  match propMapLookup properties (jsTrim t.name) with
  | some p => (st.1 ++ [p], st.2)
  | none =>
    if t.isRequired then (st.1, st.2 ++ [jsTrim t.name])
    else (st.1 ++ [⟨jsTrim t.name, t.defaultValue⟩], st.2)

/-- `normalizeCodeblockProperties` (`codeblock-parser/types.ts`): filter
and complete the properties against the template tokens, and fail naming
every missing required token, comma-joined, if any. -/
def normalizeCodeblockProperties (properties : List CodeblockProperty)
    (tokens : List ModuleToken) : Except String (List CodeblockProperty) :=
  let st := tokens.foldl (normalizeStep properties) ([], [])
  if st.2.isEmpty then .ok st.1
  else .error ("Missing required properties: " ++ joinSep ", " (st.2.map String.mk))

/-- The missing-required names, computed directly. -/
def missingRequired (properties : List CodeblockProperty) :
    List ModuleToken → List Str
  | [] => []
  | t :: ts =>
    if propMapLookup properties (jsTrim t.name) = none ∧ t.isRequired then
      jsTrim t.name :: missingRequired properties ts
    else missingRequired properties ts

theorem normalize_foldl_missing (properties : List CodeblockProperty)
    (tokens : List ModuleToken) :
    ∀ a m, (tokens.foldl (normalizeStep properties) (a, m)).2
      = m ++ missingRequired properties tokens := by
  induction tokens with
  | nil => intro a m; simp [missingRequired]
  | cons t ts ih =>
    intro a m
    rw [List.foldl_cons, missingRequired]
    cases hl : propMapLookup properties (jsTrim t.name) with
    | some p =>
      rw [if_neg (show ¬((some p : Option CodeblockProperty) = none
        ∧ t.isRequired = true) by simp)]
      rw [normalizeStep, hl]
      exact ih _ m
    | none =>
      rw [normalizeStep, hl]
      by_cases hr : t.isRequired
      · rw [if_pos hr, if_pos ⟨rfl, hr⟩]
        dsimp only
        rw [ih _ (m ++ [jsTrim t.name])]
        simp
      · rw [if_neg hr, if_neg (by simp [hr])]
        exact ih _ m

theorem mem_missingRequired (properties : List CodeblockProperty)
    (tokens : List ModuleToken) (n : Str) :
    n ∈ missingRequired properties tokens ↔
      ∃ t ∈ tokens, t.isRequired = true ∧ jsTrim t.name = n
        ∧ propMapLookup properties n = none := by
  induction tokens with
  | nil => simp [missingRequired]
  | cons t ts ih =>
    rw [missingRequired]
    by_cases hc : propMapLookup properties (jsTrim t.name) = none ∧ t.isRequired
    · rw [if_pos hc]
      constructor
      · intro h
        rcases List.mem_cons.mp h with h | h
        · exact ⟨t, List.mem_cons_self t ts, by simp [hc.2], h.symm, h ▸ hc.1⟩
        · obtain ⟨u, hu, h1, h2, h3⟩ := ih.mp h
          exact ⟨u, List.mem_cons_of_mem t hu, h1, h2, h3⟩
      · rintro ⟨u, hu, h1, h2, h3⟩
        rcases List.mem_cons.mp hu with h | h
        · subst h
          exact h2 ▸ List.mem_cons_self _ _
        · exact List.mem_cons_of_mem _ (ih.mpr ⟨u, h, h1, h2, h3⟩)
    · rw [if_neg hc]
      rw [ih]
      constructor
      · rintro ⟨u, hu, h1, h2, h3⟩
        exact ⟨u, List.mem_cons_of_mem t hu, h1, h2, h3⟩
      · rintro ⟨u, hu, h1, h2, h3⟩
        rcases List.mem_cons.mp hu with h | h
        · subst h
          subst h2
          exact absurd ⟨h3, h1⟩ hc
        · exact ⟨u, h, h1, h2, h3⟩

theorem mem_joinSep (sep : String) (l : List String) (x : String) (h : x ∈ l) :
    ∃ a b, joinSep sep l = a ++ x ++ b := by
  induction l with
  | nil => exact absurd h (by simp)
  | cons y ys ih =>
    cases ys with
    | nil =>
      rw [List.mem_singleton] at h
      subst h
      exact ⟨"", "", by simp [joinSep]⟩
    | cons z zs =>
      rcases List.mem_cons.mp h with h | h
      · subst h
        exact ⟨"", sep ++ joinSep sep (z :: zs), by simp [joinSep, String.append_assoc]⟩
      · obtain ⟨a, b, hab⟩ := ih h
        refine ⟨y ++ sep ++ a, b, ?_⟩
        rw [joinSep, hab]
        simp [String.append_assoc]

/-- C4: if some Required placeholder token has no property whose trimmed
name equals the token's trimmed name, `normalizeCodeblockProperties`
fails, never substituting anything for the missing Required placeholder;
the error message is the comma-join of the (deterministically computed)
missing required names and in particular contains that token's name. -/
theorem c4_missing_required_fails (properties : List CodeblockProperty)
    (tokens : List ModuleToken) (t : ModuleToken)
    (ht : t ∈ tokens) (hreq : t.isRequired = true)
    (hmiss : propMapLookup properties (jsTrim t.name) = none) :
    normalizeCodeblockProperties properties tokens =
      .error ("Missing required properties: " ++
        joinSep ", " ((missingRequired properties tokens).map String.mk))
    ∧ ∃ a b, ("Missing required properties: " ++
        joinSep ", " ((missingRequired properties tokens).map String.mk))
      = a ++ String.mk (jsTrim t.name) ++ b := by
  have hmem : jsTrim t.name ∈ missingRequired properties tokens :=
    (mem_missingRequired properties tokens (jsTrim t.name)).mpr ⟨t, ht, hreq, rfl, hmiss⟩
  have hne : missingRequired properties tokens ≠ [] := List.ne_nil_of_mem hmem
  constructor
  · have hfold := normalize_foldl_missing properties tokens [] []
    rw [List.nil_append] at hfold
    simp only [normalizeCodeblockProperties, hfold]
    cases hmr : missingRequired properties tokens with
    | nil => exact absurd hmr hne
    | cons x xs => simp
  · obtain ⟨a, b, hab⟩ := mem_joinSep ", " _ (String.mk (jsTrim t.name))
      (List.mem_map_of_mem String.mk hmem)
    refine ⟨"Missing required properties: " ++ a, b, ?_⟩
    rw [hab]
    simp [String.append_assoc]

/-- C4, witness: one required `title` token against an empty property
list. -/
theorem c4_witness :
    normalizeCodeblockProperties [] [ModuleToken.required "title".data] =
      .error ("Missing required properties: " ++
        joinSep ", " ((missingRequired [] [ModuleToken.required "title".data]).map
          String.mk))
    ∧ ∃ a b, ("Missing required properties: " ++
        joinSep ", " ((missingRequired [] [ModuleToken.required "title".data]).map
          String.mk))
      = a ++ String.mk (jsTrim "title".data) ++ b :=
  c4_missing_required_fails [] [.required "title".data] (.required "title".data)
    (by decide) (by decide) (by decide)

-- ### Token equivalence and conflict detection (`Template._build`)

/-- `Token.isSameSubclass`: same runtime class. -/
def ModuleToken.isSameSubclass : ModuleToken → ModuleToken → Bool
  | .required _, .required _ => true
  | .optional _, .optional _ => true
  | .defaulted _ _, .defaulted _ _ => true
  | _, _ => false

/-- `Token.isEquivalentTo`: same subclass and same name; the
`DefaultedToken` override additionally compares the default values. -/
def ModuleToken.isEquivalentTo (a b : ModuleToken) : Bool :=
  match a, b with
  | .defaulted n1 d1, .defaulted n2 d2 => (n1 == n2) && (d1 == d2)
  | a, b => a.isSameSubclass b && (a.name == b.name)

theorem equiv_symm (a b : ModuleToken) (h : a.isEquivalentTo b = true) :
    b.isEquivalentTo a = true := by
  cases a <;> cases b <;>
    simp_all [ModuleToken.isEquivalentTo, ModuleToken.isSameSubclass, ModuleToken.name]

theorem equiv_trans (a b c : ModuleToken) (h1 : a.isEquivalentTo b = true)
    (h2 : a.isEquivalentTo c = true) : b.isEquivalentTo c = true := by
  cases a <;> cases b <;> cases c <;>
    simp_all [ModuleToken.isEquivalentTo, ModuleToken.isSameSubclass, ModuleToken.name]

/-- The conflict-checking loop of `Template._build`: each scanned token
is compared with the already-kept token of the same name, if any. -/
def buildTokensGo : List ModuleToken → List ModuleToken → Except String (List ModuleToken)
  | acc, [] => .ok acc
  | acc, t :: ts =>
    match acc.find? (fun e => e.name == t.name) with
    | some e =>
      if !(e.isSameSubclass t) then
        .error ("Token conflict: Token " ++ apos ++ String.mk t.name ++ apos
          ++ " exists with a different type.")
      else if !(e.isEquivalentTo t) then
        .error ("Token conflict: Token " ++ apos ++ String.mk t.name ++ apos
          ++ " exists with different properties.")
      else buildTokensGo acc ts
    | none => buildTokensGo (acc ++ [t]) ts

/-- `Template.fromString` / the `Template` constructor: trim the source,
scan it, and run the conflict-checking build. -/
def templateBuild (source : Str) : Except String (List ModuleToken) :=
  buildTokensGo [] (scanTemplateString (jsTrim source))

theorem buildTokensGo_error_shape (l : List ModuleToken) :
    ∀ acc m, buildTokensGo acc l = .error m →
      ∃ nm tl, m = "Token conflict: Token " ++ apos ++ nm ++ apos ++ tl := by
  induction l with
  | nil =>
    intro acc m h
    rw [buildTokensGo] at h
    exact absurd h (by simp)
  | cons t ts ih =>
    intro acc m h
    rw [buildTokensGo] at h
    split at h
    · split at h
      · simp only [Except.error.injEq] at h
        exact ⟨String.mk t.name, " exists with a different type.", h.symm⟩
      · split at h
        · simp only [Except.error.injEq] at h
          exact ⟨String.mk t.name, " exists with different properties.", h.symm⟩
        · exact ih acc m h
    · exact ih (acc ++ [t]) m h

theorem buildTokensGo_ok_equiv (l : List ModuleToken) :
    ∀ acc r, (acc.map ModuleToken.name).Nodup → buildTokensGo acc l = .ok r →
      (∀ t ∈ l, ∀ e ∈ acc, e.name = t.name → e.isEquivalentTo t = true)
      ∧ (∀ t1 t2, [t1, t2].Sublist l → t1.name = t2.name →
          t1.isEquivalentTo t2 = true) := by
  induction l with
  | nil =>
    intro acc r _ _
    refine ⟨by simp, fun t1 t2 hsub _ => ?_⟩
    have := hsub.length_le
    simp at this
  | cons t ts ih =>
    intro acc r hnd h
    rw [buildTokensGo] at h
    split at h
    · rename_i e hfind
      have hmem_e : e ∈ acc := List.mem_of_find?_eq_some hfind
      have hname_e : e.name = t.name := by
        have := List.find?_some hfind
        simpa using this
      split at h
      · exact absurd h (by simp)
      · split at h
        · exact absurd h (by simp)
        · rename_i hsub2 hequiv2
          have hequiv : e.isEquivalentTo t = true := by
            simpa using hequiv2
          obtain ⟨A, B⟩ := ih acc r hnd h
          have huniq : ∀ e' ∈ acc, e'.name = t.name → e' = e := by
            intro e' he' hn'
            exact List.inj_on_of_nodup_map hnd he' hmem_e (hn'.trans hname_e.symm)
          constructor
          · intro t' ht' e' he' hn'
            rcases List.mem_cons.mp ht' with h' | h'
            · subst h'
              rw [huniq e' he' hn']
              exact hequiv
            · exact A t' h' e' he' hn'
          · intro t1 t2 hsub hn
            cases hsub with
            | cons _ hsub' => exact B t1 t2 hsub' hn
            | cons₂ _ hsub' =>
              have ht2 : t2 ∈ ts := hsub'.subset (List.mem_singleton.mpr rfl)
              have he2 : e.isEquivalentTo t2 = true :=
                A t2 ht2 e hmem_e (hname_e.trans hn)
              exact equiv_trans e t t2 hequiv he2
    · rename_i hfind
      have hnone : ∀ e ∈ acc, ¬ (e.name == t.name) = true := List.find?_eq_none.mp hfind
      have hnotin : t.name ∉ acc.map ModuleToken.name := by
        intro hmem
        obtain ⟨e, he, hne⟩ := List.mem_map.mp hmem
        exact hnone e he (by simp [hne])
      have hnd' : ((acc ++ [t]).map ModuleToken.name).Nodup := by
        rw [List.map_append]
        simp only [List.map_cons, List.map_nil]
        rw [List.nodup_append]
        refine ⟨hnd, List.nodup_singleton _, ?_⟩
        intro x hx hx2
        rw [List.mem_singleton] at hx2
        subst hx2
        exact hnotin hx
      obtain ⟨A, B⟩ := ih (acc ++ [t]) r hnd' h
      constructor
      · intro t' ht' e' he' hn'
        rcases List.mem_cons.mp ht' with h' | h'
        · subst h'
          exact absurd (by simp [hn'] : (e'.name == t'.name) = true) (hnone e' he')
        · exact A t' h' e' (List.mem_append_left _ he') hn'
      · intro t1 t2 hsub hn
        cases hsub with
        | cons _ hsub' => exact B t1 t2 hsub' hn
        | cons₂ _ hsub' =>
          have ht2 : t2 ∈ ts := hsub'.subset (List.mem_singleton.mpr rfl)
          exact A t2 ht2 t (List.mem_append_right _ (List.mem_singleton.mpr rfl)) hn

theorem equiv_sameSubclass (a b : ModuleToken) (h : a.isEquivalentTo b = true) :
    a.isSameSubclass b = true := by
  cases a <;> cases b <;>
    simp_all [ModuleToken.isEquivalentTo, ModuleToken.isSameSubclass]

theorem buildTokensGo_ok (l : List ModuleToken) :
    ∀ acc, (∀ t ∈ l, ∀ e ∈ acc, e.name = t.name → e.isEquivalentTo t = true) →
      (∀ t1 t2, [t1, t2].Sublist l → t1.name = t2.name → t1.isEquivalentTo t2 = true) →
      ∃ r, buildTokensGo acc l = .ok r := by
  induction l with
  | nil =>
    intro acc _ _
    exact ⟨acc, rfl⟩
  | cons t ts ih =>
    intro acc hA hB
    rw [buildTokensGo]
    cases hfind : acc.find? (fun e => e.name == t.name) with
    | some e =>
      have hmem_e : e ∈ acc := List.mem_of_find?_eq_some hfind
      have hname_e : e.name = t.name := by simpa using List.find?_some hfind
      have hequiv : e.isEquivalentTo t = true :=
        hA t (List.mem_cons_self t ts) e hmem_e hname_e
      have h1 : (!(e.isSameSubclass t)) = false := by
        rw [equiv_sameSubclass e t hequiv]; rfl
      have h2 : (!(e.isEquivalentTo t)) = false := by
        rw [hequiv]; rfl
      dsimp only
      rw [h1, h2]
      simp only [Bool.false_eq_true, if_false]
      exact ih acc (fun t' ht' => hA t' (List.mem_cons_of_mem _ ht'))
        (fun t1 t2 hsub hn => hB t1 t2 (hsub.cons t) hn)
    | none =>
      dsimp only
      refine ih (acc ++ [t]) ?_ ?_
      · intro t' ht' e' he' hn'
        rcases List.mem_append.mp he' with h' | h'
        · exact hA t' (List.mem_cons_of_mem _ ht') e' h' hn'
        · rw [List.mem_singleton] at h'
          rw [h'] at hn' ⊢
          exact hB t t' (List.Sublist.cons₂ t (List.singleton_sublist.mpr ht')) hn'
      · intro t1 t2 hsub hn
        exact hB t1 t2 (hsub.cons t) hn

/-- C6: building a template rejects conflicting reuses of a placeholder
name and accepts identical reuses.  If the scanned token list contains two
tokens of the same name that are not equivalent (different subclass, or
`DefaultedToken`s with different defaults), `Template._build` fails with a
token-conflict error produced at the equivalence check; it never resolves
the conflict by keeping either occurrence.  If instead every pair of
same-named scanned tokens is equivalent, the build succeeds. -/
theorem c6_token_conflicts_rejected (source : Str) :
    ((∃ t1 t2, [t1, t2].Sublist (scanTemplateString (jsTrim source)) ∧
        t1.name = t2.name ∧ t1.isEquivalentTo t2 = false) →
      ∃ m, templateBuild source = .error m ∧
        ∃ nm tl, m = "Token conflict: Token " ++ apos ++ nm ++ apos ++ tl)
    ∧ ((∀ t1 t2, [t1, t2].Sublist (scanTemplateString (jsTrim source)) →
        t1.name = t2.name → t1.isEquivalentTo t2 = true) →
      ∃ r, templateBuild source = .ok r) := by
  constructor
  · rintro ⟨t1, t2, hsub, hn, hne⟩
    cases hres : buildTokensGo [] (scanTemplateString (jsTrim source)) with
    | ok r =>
      have := (buildTokensGo_ok_equiv _ [] r (by simp) hres).2 t1 t2 hsub hn
      rw [this] at hne
      exact absurd hne (by simp)
    | error m =>
      exact ⟨m, hres, buildTokensGo_error_shape _ [] m hres⟩
  · intro hall
    exact buildTokensGo_ok (scanTemplateString (jsTrim source)) [] (by simp) hall

theorem c6_witness :
    (∃ m, templateBuild "\x7b\x7ba\x7d\x7d \x7b\x7ba?\x7d\x7d".data = .error m ∧
        ∃ nm tl, m = "Token conflict: Token " ++ apos ++ nm ++ apos ++ tl)
    ∧ (∃ r, templateBuild "\x7b\x7ba?\x7d\x7d \x7b\x7ba?\x7d\x7d".data = .ok r) := by
  constructor
  · refine (c6_token_conflicts_rejected "\x7b\x7ba\x7d\x7d \x7b\x7ba?\x7d\x7d".data).1
      ⟨.required "a".data, .optional "a".data, ?_, by decide, by decide⟩
    have hscan : scanTemplateString (jsTrim "\x7b\x7ba\x7d\x7d \x7b\x7ba?\x7d\x7d".data)
        = [.required "a".data, .optional "a".data] := by decide
    rw [hscan]
  · refine (c6_token_conflicts_rejected "\x7b\x7ba?\x7d\x7d \x7b\x7ba?\x7d\x7d".data).2 ?_
    intro t1 t2 hsub hn
    have hscan : scanTemplateString (jsTrim "\x7b\x7ba?\x7d\x7d \x7b\x7ba?\x7d\x7d".data)
        = [.optional "a".data, .optional "a".data] := by decide
    rw [hscan] at hsub
    have hlen : ([t1, t2] : List ModuleToken).length
        = ([ModuleToken.optional "a".data, .optional "a".data] : List ModuleToken).length := rfl
    have heq := hsub.eq_of_length hlen
    simp only [List.cons.injEq, and_true] at heq
    rw [heq.1, heq.2]
    decide

-- ### C7: parse idempotence on the parser's own serialization
-- Additional string lemmas used by the round-trip development.

theorem dropWhile_append_of_all (p : Char → Bool) (l r : Str)
    (h : ∀ c ∈ l, p c = true) : (l ++ r).dropWhile p = r.dropWhile p := by
  induction l with
  | nil => rfl
  | cons c cs ih =>
    rw [List.cons_append, List.dropWhile_cons]
    rw [h c (List.mem_cons_self c cs)]
    exact ih (fun c hc => h c (List.mem_cons_of_mem _ hc))

theorem dropWhile_append_of_ne_nil (p : Char → Bool) (x y : Str)
    (h : x.dropWhile p ≠ []) : (x ++ y).dropWhile p = x.dropWhile p ++ y := by
  induction x with
  | nil => exact absurd rfl h
  | cons c cs ih =>
    by_cases hc : p c
    · rw [List.cons_append, List.dropWhile_cons, List.dropWhile_cons, if_pos hc, if_pos hc]
      rw [List.dropWhile_cons, if_pos hc] at h
      exact ih h
    · rw [List.cons_append, List.dropWhile_cons, List.dropWhile_cons, if_neg hc, if_neg hc]
      rfl

theorem jsTrimRight_fixed (l : Str) (h : jsTrim l = l) : jsTrimRight l = l := by
  have h2 : jsTrimRight (jsTrim l) = jsTrim l := by rw [jsTrim, jsTrimRight_idem]
  rw [h] at h2
  exact h2

theorem jsTrimLeft_fixed (l : Str) (h : jsTrim l = l) : jsTrimLeft l = l := by
  have h2 := jsTrimLeft_jsTrim l
  rw [h] at h2
  exact h2

theorem jsTrimRight_length (l : Str) : (jsTrimRight l).length ≤ l.length := by
  rw [jsTrimRight]
  have := length_dropWhile_le isWs l.reverse
  simpa using this

theorem jsTrimRight_suffix (A v : Str) (h : jsTrimRight (A ++ v) = A ++ v) :
    jsTrimRight v = v := by
  rcases hv : v.reverse with _ | ⟨c, w⟩
  · have : v = [] := by simpa using congrArg List.reverse hv
    subst this
    rfl
  · have hvv : v = w.reverse ++ [c] := by
      have := congrArg List.reverse hv
      simpa using this
    by_cases hc : isWs c
    · exfalso
      have h1 : (A ++ v).reverse = c :: (w ++ A.reverse) := by
        rw [hvv]
        simp
      have h2 : jsTrimRight (A ++ v) = ((w ++ A.reverse).dropWhile isWs).reverse := by
        rw [jsTrimRight, h1, List.dropWhile_cons, if_pos hc]
      have h3 := length_dropWhile_le isWs (w ++ A.reverse)
      have h4 := congrArg List.length h2
      rw [h] at h4
      simp only [List.length_reverse, List.length_append] at h4 h3
      rw [hvv] at h4
      simp only [List.length_append, List.length_reverse, List.length_cons,
        List.length_nil] at h4
      omega
    · rw [hvv]
      exact jsTrimRight_no_ws_last _ c (by simpa using hc)

theorem jsTrim_nil_all_ws (l : Str) (h : jsTrim l = []) : ∀ c ∈ l, isWs c = true := by
  intro c hc
  rw [jsTrim] at h
  have h1 : (jsTrimLeft l).reverse.dropWhile isWs = [] := by
    rw [jsTrimRight] at h
    have := congrArg List.reverse h
    simpa using this
  have h2 : ∀ x ∈ jsTrimLeft l, isWs x = true := by
    intro x hx
    exact List.dropWhile_eq_nil_iff.mp h1 x (List.mem_reverse.mpr hx)
  have hsplit : l = l.takeWhile isWs ++ jsTrimLeft l :=
    (List.takeWhile_append_dropWhile ..).symm
  rw [hsplit] at hc
  rcases List.mem_append.mp hc with h' | h'
  · exact List.mem_takeWhile_imp h'
  · exact h2 c h'

theorem last_not_ws_of_trimRight_fixed (l : Str) (hne : l ≠ [])
    (h : jsTrimRight l = l) : isWs (l.getLast hne) = false := by
  by_contra hw
  simp only [Bool.not_eq_false] at hw
  have hsplit : l = l.dropLast ++ [l.getLast hne] := (List.dropLast_append_getLast hne).symm
  have h2 : jsTrimRight l = jsTrimRight l.dropLast := by
    conv_lhs => rw [hsplit]
    rw [jsTrimRight, jsTrimRight]
    rw [show (l.dropLast ++ [l.getLast hne]).reverse = l.getLast hne :: l.dropLast.reverse
      by simp]
    rw [List.dropWhile_cons, if_pos hw]
  have h3 := jsTrimRight_length l.dropLast
  rw [← h2, h] at h3
  have h4 : l.dropLast.length < l.length := by
    rw [List.length_dropLast]
    have : l.length ≠ 0 := fun h0 => hne (List.length_eq_zero.mp h0)
    omega
  omega

theorem jsTrimRight_append_ws (A : Str) (d : Char) (hd : isWs d = true) :
    jsTrimRight (A ++ [d]) = jsTrimRight A := by
  rw [jsTrimRight, jsTrimRight]
  rw [show (A ++ [d]).reverse = d :: A.reverse by simp]
  rw [List.dropWhile_cons, if_pos (by rw [hd])]

theorem jsTrimRight_append_of_ne_nil (A B : Str) (hB : jsTrimRight B ≠ []) :
    jsTrimRight (A ++ B) = A ++ jsTrimRight B := by
  rw [jsTrimRight, jsTrimRight]
  rw [List.reverse_append]
  have hB2 : B.reverse.dropWhile isWs ≠ [] := by
    intro h0
    apply hB
    rw [jsTrimRight, h0]
    rfl
  rw [dropWhile_append_of_ne_nil isWs _ _ hB2]
  simp

theorem jsJoinNl_concat (xs : List Str) (y : Str) (hxs : xs ≠ []) :
    jsJoinNl (xs ++ [y]) = jsJoinNl xs ++ '\n' :: y := by
  induction xs with
  | nil => exact absurd rfl hxs
  | cons x xs ih =>
    cases xs with
    | nil => rfl
    | cons x2 xs2 =>
      rw [show ((x :: x2 :: xs2) ++ [y] : List Str) = x :: ((x2 :: xs2) ++ [y]) by simp]
      rw [show ((x2 :: xs2) ++ [y] : List Str) = x2 :: (xs2 ++ [y]) by simp]
      rw [jsJoinNl_cons_cons]
      rw [show (x2 :: (xs2 ++ [y]) : List Str) = (x2 :: xs2) ++ [y] by simp]
      rw [ih (by simp)]
      rw [jsJoinNl_cons_cons]
      simp

theorem jsJoinNl_cons_general (x : Str) (xs : List Str) :
    jsJoinNl (x :: xs) = x ++ (if xs.isEmpty then [] else '\n' :: jsJoinNl xs) := by
  cases xs with
  | nil => simp [jsJoinNl]
  | cons y ys => rw [jsJoinNl_cons_cons]; simp

theorem jsSplitNl_prepend (x s : Str) (hx : '\n' ∉ x) :
    jsSplitNl (x ++ s) = (x ++ (jsSplitNl s).headI) :: (jsSplitNl s).tail := by
  induction x with
  | nil =>
    simp only [List.nil_append]
    cases h : jsSplitNl s with
    | nil => exact absurd h (jsSplitNl_ne_nil s)
    | cons g gs => simp [List.headI]
  | cons c cs ih =>
    have hc : ¬ (c = '\n') := fun h0 => hx (by rw [h0]; exact List.mem_cons_self _ _)
    rw [List.cons_append, jsSplitNl_cons, if_neg hc]
    rw [ih (fun hm => hx (List.mem_cons_of_mem c hm))]
    simp [List.headI]

theorem jsSplitNl_jsJoinNl_pieces (xs : List Str) (hne : xs ≠ []) :
    jsSplitNl (jsJoinNl xs) = (xs.map jsSplitNl).flatten := by
  induction xs with
  | nil => exact absurd rfl hne
  | cons x xs ih =>
    cases xs with
    | nil => simp [jsJoinNl]
    | cons y ys =>
      rw [jsJoinNl_cons_cons, jsSplitNl_append_nl, ih (by simp)]
      simp

theorem jsJoinNl_as_flatten (v0 : Str) (ls : List Str) :
    jsJoinNl (v0 :: ls) = v0 ++ (ls.map (fun l => '\n' :: l)).flatten := by
  induction ls generalizing v0 with
  | nil => simp [jsJoinNl]
  | cons x xs ih =>
    rw [jsJoinNl_cons_cons, ih x]
    simp

theorem last_split_trim_ne_nil (t : Str) (hne : t ≠ []) (htr : jsTrim t = t) :
    ∀ l, (jsSplitNl t).getLast? = some l → jsTrim l ≠ [] := by
  intro l hl
  obtain ⟨init, hinit⟩ := List.getLast?_eq_some_iff.mp hl
  intro htl
  have hallws : ∀ c ∈ l, isWs c = true := jsTrim_nil_all_ws l htl
  have hjoin := jsJoinNl_jsSplitNl t
  rw [hinit] at hjoin
  cases init with
  | nil =>
    simp only [List.nil_append, jsJoinNl] at hjoin
    rw [← hjoin] at hne htr
    cases l with
    | nil => exact hne rfl
    | cons c cs =>
      have hR := jsTrimRight_fixed _ htr
      have := last_not_ws_of_trimRight_fixed (c :: cs) (by simp) hR
      rw [hallws _ (List.getLast_mem _)] at this
      exact Bool.noConfusion this
  | cons i0 irest =>
    rw [jsJoinNl_concat _ _ (by simp)] at hjoin
    have hR := jsTrimRight_fixed t htr
    rw [← hjoin] at hR
    have hws2 : ∀ c ∈ ('\n' :: l : Str), isWs c = true := by
      intro c hc
      rcases List.mem_cons.mp hc with h' | h'
      · subst h'; decide
      · exact hallws c h'
    have h2 : jsTrimRight (jsJoinNl (i0 :: irest) ++ '\n' :: l)
        = jsTrimRight (jsJoinNl (i0 :: irest)) := by
      rw [jsTrimRight, jsTrimRight, List.reverse_append]
      rw [dropWhile_append_of_all isWs _ _ (by
        intro c hc
        exact hws2 c (List.mem_reverse.mp hc))]
    rw [h2] at hR
    have h3 := jsTrimRight_length (jsJoinNl (i0 :: irest))
    rw [hR] at h3
    simp only [List.length_append, List.length_cons] at h3
    omega

theorem keyChar_not_ws (c : Char) (h : isKeyChar c = true) : isWs c = false := by
  by_contra hw
  simp only [Bool.not_eq_false] at hw
  rw [isWs] at hw
  simp only [Bool.or_eq_true, decide_eq_true_eq] at hw
  rcases hw with ((((h1 | h1) | h1) | h1) | h1) | h1 <;> subst h1 <;>
    exact absurd h (by decide)

theorem keychar_no_nl (nm : Str) (h : nm.all isKeyChar = true) : '\n' ∉ nm := by
  intro hm
  have := List.all_eq_true.mp h '\n' hm
  exact absurd this (by decide)

theorem propMatch_key (l k v : Str) (h : propMatch l = some (k, v)) :
    k ≠ [] ∧ k.all isKeyChar = true := by
  rw [propMatch] at h
  by_cases hk : (l.takeWhile isKeyChar).isEmpty
  · rw [if_pos hk] at h
    exact absurd h (by simp)
  · rw [if_neg hk] at h
    split at h
    · simp only [Option.some.injEq, Prod.mk.injEq] at h
      constructor
      · rw [← h.1]
        simpa [List.isEmpty_iff] using hk
      · rw [← h.1, List.all_eq_true]
        intro c hc
        exact List.mem_takeWhile_imp hc
    · exact absurd h (by simp)

theorem propMatch_value_trimmed (l k v : Str) (h : propMatch l = some (k, v))
    (hl : jsTrim l = l) : jsTrim v = v := by
  rw [propMatch] at h
  by_cases hk : (l.takeWhile isKeyChar).isEmpty
  · rw [if_pos hk] at h
    exact absurd h (by simp)
  · rw [if_neg hk] at h
    split at h
    · rename_i rest heq
      simp only [Option.some.injEq, Prod.mk.injEq] at h
      have hleft : jsTrimLeft v = v := by
        rw [← h.2, jsTrimLeft, dropWhile_idem]
      have hsuffix : ∃ A, l = A ++ v := by
        refine ⟨l.takeWhile isKeyChar ++ (l.dropWhile isKeyChar).takeWhile isWs
          ++ [':'] ++ rest.takeWhile isWs, ?_⟩
        conv_lhs => rw [← List.takeWhile_append_dropWhile isKeyChar l]
        conv_lhs => rw [← List.takeWhile_append_dropWhile isWs (l.dropWhile isKeyChar)]
        rw [heq, ← h.2]
        conv_lhs => rw [← List.takeWhile_append_dropWhile isWs rest]
        simp
      obtain ⟨A, hA⟩ := hsuffix
      have hright : jsTrimRight v = v := by
        refine jsTrimRight_suffix A v ?_
        rw [← hA]
        exact jsTrimRight_fixed l hl
      rw [jsTrim, hleft, hright]
    · exact absurd h (by simp)

theorem takeWhile_keychar_build (nm rest : Str) (h2 : nm.all isKeyChar = true) :
    (nm ++ ':' :: rest).takeWhile isKeyChar = nm
    ∧ (nm ++ ':' :: rest).dropWhile isKeyChar = ':' :: rest := by
  induction nm with
  | nil =>
    simp only [List.nil_append]
    constructor
    · rw [List.takeWhile_cons]
      simp [show isKeyChar ':' = false by decide]
    · rw [List.dropWhile_cons]
      simp [show isKeyChar ':' = false by decide]
  | cons c cs ih =>
    have hc : isKeyChar c = true := by
      have := List.all_eq_true.mp h2 c (List.mem_cons_self c cs)
      exact this
    have hcs : cs.all isKeyChar = true := by
      rw [List.all_eq_true]
      intro x hx
      exact List.all_eq_true.mp h2 x (List.mem_cons_of_mem _ hx)
    obtain ⟨iht, ihd⟩ := ih hcs
    constructor
    · rw [List.cons_append, List.takeWhile_cons, hc]
      simp [iht]
    · rw [List.cons_append, List.dropWhile_cons, hc]
      simpa using ihd

theorem propMatch_build (nm v : Str) (h1 : nm ≠ []) (h2 : nm.all isKeyChar = true)
    (hv : jsTrimLeft v = v) :
    propMatch (nm ++ ':' :: ' ' :: v) = some (nm, v) := by
  obtain ⟨ht, hd⟩ := takeWhile_keychar_build nm (' ' :: v) h2
  rw [propMatch]
  rw [show ((nm ++ ':' :: ' ' :: v).takeWhile isKeyChar) = nm from ht]
  rw [if_neg (by simpa [List.isEmpty_iff] using h1)]
  rw [hd]
  rw [show (':' :: ' ' :: v : Str).dropWhile isWs = ':' :: ' ' :: v by
    rw [List.dropWhile_cons]; simp [show isWs ':' = false by decide]]
  show some (nm, (' ' :: v : Str).dropWhile isWs) = some (nm, v)
  rw [show (' ' :: v : Str).dropWhile isWs = v.dropWhile isWs by
    rw [List.dropWhile_cons]; simp [show isWs ' ' = true by decide]]
  rw [show v.dropWhile isWs = v from hv]

theorem propMatch_build_empty (nm : Str) (h1 : nm ≠ []) (h2 : nm.all isKeyChar = true) :
    propMatch (nm ++ [':']) = some (nm, []) := by
  obtain ⟨ht, hd⟩ := takeWhile_keychar_build nm [] h2
  rw [propMatch]
  rw [show ((nm ++ [':']).takeWhile isKeyChar) = nm from ht]
  rw [if_neg (by simpa [List.isEmpty_iff] using h1)]
  rw [hd]
  rw [show (':' :: [] : Str).dropWhile isWs = [':'] by
    rw [List.dropWhile_cons]; simp [show isWs ':' = false by decide]]
  show some (nm, ([] : Str).dropWhile isWs) = some (nm, [])
  rfl

theorem matchLineNoFence_prop_inv (lv k v : Str)
    (h : matchLineNoFence lv = .propertyStart k v) : propMatch lv = some (k, v) := by
  rw [matchLineNoFence] at h
  cases hp : propMatch lv with
  | some kv =>
    obtain ⟨k2, v2⟩ := kv
    rw [hp] at h
    dsimp only at h
    simp only [LineMatch.propertyStart.injEq] at h
    rw [h.1, h.2]
  | none =>
    rw [hp] at h
    dsimp only at h
    cases hc : codefenceStartMatch lv with
    | some n =>
      rw [hc] at h
      dsimp only at h
      exact absurd h (by simp)
    | none =>
      rw [hc] at h
      dsimp only at h
      exact absurd h (by simp)

theorem matchLineNoFence_fence_inv (lv : Str) (n : Nat)
    (h : matchLineNoFence lv = .codefenceStart n) : codefenceStartMatch lv = some n := by
  rw [matchLineNoFence] at h
  cases hp : propMatch lv with
  | some kv =>
    obtain ⟨k2, v2⟩ := kv
    rw [hp] at h
    dsimp only at h
    exact absurd h (by simp)
  | none =>
    rw [hp] at h
    dsimp only at h
    cases hc : codefenceStartMatch lv with
    | some m =>
      rw [hc] at h
      dsimp only at h
      simp only [LineMatch.codefenceStart.injEq] at h
      rw [h]
    | none =>
      rw [hc] at h
      dsimp only at h
      exact absurd h (by simp)

theorem matchLineNoFence_ne_end (lv : Str) : matchLineNoFence lv ≠ .codefenceEnd := by
  rcases matchLineNoFence_rule_cases lv with h | h | h <;>
    (intro h0; rw [h0] at h; exact absurd h (by simp [LineMatch.rule]))

theorem codefenceEndMatch_true_iff (n : Nat) (l : Str) :
    codefenceEndMatch n l = true ↔ l = List.replicate n backtick := by
  rw [codefenceEndMatch]
  simp

/-- One step of the content tracker: how a line that is *content* of the
current property changes the fence slot.  `none` means the line is not
content — outside a fence it matches the `property-start` rule and would
begin a new property instead of being appended. -/
def contentStep (f : Option Nat) (lv : Str) : Option (Option Nat) :=
  match f with
  | some n => some (if codefenceEndMatch n lv then none else some n)
  | none =>
    match matchLineNoFence lv with
    | .propertyStart _ _ => none
    | .codefenceStart n => some (some n)
    | _ => some none

/-- Folding the content tracker over a list of lines. -/
def contentFold (f : Option Nat) : List Str → Option (Option Nat)
  | [] => some f
  | l :: ls =>
    match contentStep f l with
    | some f2 => contentFold f2 ls
    | none => none

theorem contentFold_append (ls : List Str) : ∀ (f : Option Nat) (y : Str),
    contentFold f (ls ++ [y]) =
      match contentFold f ls with
      | some f2 => contentStep f2 y
      | none => none := by
  induction ls with
  | nil =>
    intro f y
    show (match contentStep f y with
      | some f2 => contentFold f2 []
      | none => none) = contentStep f y
    cases contentStep f y <;> rfl
  | cons l ls ih =>
    intro f y
    rw [List.cons_append]
    show (match contentStep f l with
        | some f2 => contentFold f2 (ls ++ [y])
        | none => none)
      = match contentFold f (l :: ls) with
        | some f2 => contentStep f2 y
        | none => none
    cases hstep : contentStep f l with
    | some f2 =>
      dsimp only
      rw [ih f2 y]
      rw [show contentFold f (l :: ls)
        = match contentStep f l with
          | some f2 => contentFold f2 ls
          | none => none from rfl]
      rw [hstep]
    | none =>
      dsimp only
      rw [show contentFold f (l :: ls)
        = match contentStep f l with
          | some f2 => contentFold f2 ls
          | none => none from rfl]
      rw [hstep]

/-- Well-formedness of the buffered property relative to the current
fence slot: a nonempty key-character name, every value line fixed by the
per-line trim, and the lines after the first folding (as content) to the
current slot value. -/
def BufWF (p : CodeblockProperty) (f : Option Nat) : Prop :=
  p.name ≠ [] ∧ p.name.all isKeyChar = true
  ∧ (∀ l ∈ jsSplitNl p.value, jsTrim l = l)
  ∧ contentFold none (jsSplitNl p.value).tail = some f

/-- Well-formedness of a completed property of a successful parse. -/
def WFprop (p : CodeblockProperty) : Prop := BufWF p none

/-- The last-property condition of a successful parse: the last line of
the last property's value is nonempty unless that value is empty (the
input cannot end in trailing whitespace because the source is trimmed
before it is split). -/
def LastOK (ps : List CodeblockProperty) : Prop :=
  ∀ p, ps.getLast? = some p →
    ((jsSplitNl p.value).getLast? = some [] → p.value = [])

/-- The re-serialization named by the specification: each property
contributes the line `key: <first value line>` followed by the remaining
lines of its value, i.e. the `name: value` texts are joined with
newlines. -/
def serializeProperties (ps : List CodeblockProperty) : Str :=
  jsJoinNl (ps.map (fun p => p.name ++ ':' :: ' ' :: p.value))

/-- The whole serialized text of one property. -/
def headlineOf (p : CodeblockProperty) : Str := p.name ++ ':' :: ' ' :: p.value

/-- The first serialized line of one property. -/
def hlineOf (p : CodeblockProperty) : Str :=
  p.name ++ ':' :: ' ' :: (jsSplitNl p.value).headI

/-- The serialized line blocks of a list of properties, each block headed
by an explicit headline text (which may differ from `hlineOf` only for
the last block, whose trailing space the global trim may remove). -/
def blockLinesH : List (Str × CodeblockProperty) → List Str
  | [] => []
  | (h, q) :: rest => (h :: (jsSplitNl q.value).tail) ++ blockLinesH rest

/-- The parser state in which a content line is consumed, given the
fence slot value before that line. -/
def contState (f : Option Nat) (lv : Str) : ParserState :=
  match f with
  | some n => if codefenceEndMatch n lv then .codefenceEnd else .codefenceText
  | none =>
    match matchLineNoFence lv with
    | .codefenceStart _ => .codefenceStart
    | _ => .propertyText

/-- The per-state facts that hold whenever `runLoop` is entered, as
enforced by `TRANSITION_MAP` and by the fence bookkeeping of the entry
actions. -/
def StateInv (s : ParserState) (fence : Option Nat) (lv : Str) (m : LineMatch) : Prop :=
  match s with
  | .propertyStart =>
    fence = none ∧ ∃ k v, m = .propertyStart k v ∧ propMatch lv = some (k, v)
  | .propertyText => fence = none ∧ matchLineNoFence lv = .anyText
  | .codefenceStart =>
    fence = none ∧ ∃ n, m = .codefenceStart n ∧ matchLineNoFence lv = .codefenceStart n
  | .codefenceText => ∃ n, fence = some n ∧ codefenceEndMatch n lv = false
  | .codefenceEnd => ∃ n, fence = some n ∧ codefenceEndMatch n lv = true
  | _ => False

theorem jsSplitNl_headlineOf (p : CodeblockProperty) (hnm : '\n' ∉ p.name) :
    jsSplitNl (headlineOf p) = hlineOf p :: (jsSplitNl p.value).tail := by
  rw [headlineOf, hlineOf]
  rw [show (p.name ++ ':' :: ' ' :: p.value : Str)
    = (p.name ++ [':', ' ']) ++ p.value by simp]
  rw [jsSplitNl_prepend _ _ (by
    intro hm
    rcases List.mem_append.mp hm with h' | h'
    · exact hnm h'
    · exact absurd h' (by decide))]
  simp

theorem rowA_eq (s : ParserState)
    (hs : s = .propertyStart ∨ s = .propertyText ∨ s = .codefenceEnd) (r : RuleName) :
    TRANSITION_MAP s r = TRANSITION_MAP .propertyStart r := by
  rcases hs with h | h | h <;> subst h <;> cases r <;> rfl

theorem rowF_eq (s : ParserState)
    (hs : s = .codefenceStart ∨ s = .codefenceText) (r : RuleName) :
    TRANSITION_MAP s r = TRANSITION_MAP .codefenceText r := by
  rcases hs with h | h <;> subst h <;> cases r <;> rfl

theorem contState_class (f f2 : Option Nat) (lv : Str)
    (hstep : contentStep f lv = some f2) :
    (f2 = none ∧ (contState f lv = .propertyText ∨ contState f lv = .codefenceEnd))
    ∨ (∃ n, f2 = some n
        ∧ (contState f lv = .codefenceStart ∨ contState f lv = .codefenceText)) := by
  cases f with
  | some n =>
    rw [contentStep] at hstep
    by_cases hcl : codefenceEndMatch n lv = true
    · rw [if_pos hcl] at hstep
      simp only [Option.some.injEq] at hstep
      left
      exact ⟨hstep.symm, Or.inr (by simp [contState, hcl])⟩
    · rw [if_neg hcl] at hstep
      simp only [Option.some.injEq] at hstep
      right
      exact ⟨n, hstep.symm, Or.inr (by simp [contState, hcl])⟩
  | none =>
    rw [contentStep] at hstep
    cases hm : matchLineNoFence lv with
    | propertyStart k v =>
      rw [hm] at hstep
      exact absurd hstep (by simp)
    | codefenceStart n =>
      rw [hm] at hstep
      dsimp only at hstep
      simp only [Option.some.injEq] at hstep
      right
      exact ⟨n, hstep.symm, Or.inl (by simp [contState, hm])⟩
    | anyText =>
      rw [hm] at hstep
      dsimp only at hstep
      simp only [Option.some.injEq] at hstep
      left
      exact ⟨hstep.symm, Or.inl (by simp [contState, hm])⟩
    | codefenceEnd =>
      exact absurd hm (matchLineNoFence_ne_end lv)

theorem transition_to_content (s1 : ParserState) (f2 g : Option Nat) (lv2 : Str)
    (h1 : (f2 = none
            ∧ (s1 = .propertyStart ∨ s1 = .propertyText ∨ s1 = .codefenceEnd))
          ∨ (∃ n, f2 = some n ∧ (s1 = .codefenceStart ∨ s1 = .codefenceText)))
    (hstep2 : contentStep f2 lv2 = some g) :
    TRANSITION_MAP s1 (matchLine f2 lv2).rule = some (contState f2 lv2) := by
  rcases h1 with ⟨hf2, hsor⟩ | ⟨n, hf2, hsor⟩
  · subst hf2
    rw [matchLine_none, rowA_eq s1 hsor]
    rw [contentStep] at hstep2
    cases hm : matchLineNoFence lv2 with
    | propertyStart k v =>
      rw [hm] at hstep2
      exact absurd hstep2 (by simp)
    | codefenceStart m =>
      simp [contState, hm, TRANSITION_MAP, LineMatch.rule]
    | anyText =>
      simp [contState, hm, TRANSITION_MAP, LineMatch.rule]
    | codefenceEnd =>
      exact absurd hm (matchLineNoFence_ne_end lv2)
  · subst hf2
    rw [rowF_eq s1 hsor]
    by_cases hcl : codefenceEndMatch n lv2 = true
    · rw [matchLine_fence_close n lv2 ((codefenceEndMatch_true_iff n lv2).mp hcl)]
      simp [contState, hcl, TRANSITION_MAP, LineMatch.rule]
    · have hne : lv2 ≠ List.replicate n backtick :=
        fun h0 => hcl ((codefenceEndMatch_true_iff n lv2).mpr h0)
      have hcl2 : codefenceEndMatch n lv2 = false := by simpa using hcl
      rw [matchLine_fence_open_ne n lv2 hne]
      rcases matchLineNoFence_rule_cases lv2 with h | h | h <;> rw [h] <;>
        simp [contState, hcl2, TRANSITION_MAP]

theorem contState_to_headline (f : Option Nat) (lv : Str)
    (hstep : contentStep f lv = some none) :
    TRANSITION_MAP (contState f lv) .propertyStart = some .propertyStart
    ∧ ACCEPTING_STATES (contState f lv) = true := by
  rcases contState_class f none lv hstep with ⟨_, hsor⟩ | ⟨n, hn, _⟩
  · rcases hsor with h | h <;> rw [h] <;> exact ⟨rfl, rfl⟩
  · exact absurd hn (by simp)

theorem entryAction_content (f f2 : Option Nat) (p : CodeblockProperty)
    (acc : List CodeblockProperty) (lv : Str) (i : Nat)
    (hstep : contentStep f lv = some f2) :
    entryAction f (some p) acc (contState f lv) lv (matchLine f lv) i
      = .ok (f2, some (p.appendText lv), acc) := by
  cases f with
  | some n =>
    rw [contentStep] at hstep
    by_cases hcl : codefenceEndMatch n lv = true
    · rw [if_pos hcl] at hstep
      simp only [Option.some.injEq] at hstep
      have hcs : contState (some n) lv = .codefenceEnd := by simp [contState, hcl]
      rw [hcs, ← hstep]
      rfl
    · rw [if_neg hcl] at hstep
      simp only [Option.some.injEq] at hstep
      have hcl2 : codefenceEndMatch n lv = false := by simpa using hcl
      have hcs : contState (some n) lv = .codefenceText := by simp [contState, hcl2]
      rw [hcs, ← hstep]
      rfl
  | none =>
    rw [contentStep] at hstep
    cases hm : matchLineNoFence lv with
    | propertyStart k v =>
      rw [hm] at hstep
      exact absurd hstep (by simp)
    | codefenceStart n =>
      rw [hm] at hstep
      dsimp only at hstep
      simp only [Option.some.injEq] at hstep
      have hcs : contState none lv = .codefenceStart := by simp [contState, hm]
      rw [hcs, matchLine_none, hm, ← hstep]
      rfl
    | anyText =>
      rw [hm] at hstep
      dsimp only at hstep
      simp only [Option.some.injEq] at hstep
      have hcs : contState none lv = .propertyText := by simp [contState, hm]
      rw [hcs, ← hstep]
      rfl
    | codefenceEnd =>
      exact absurd hm (matchLineNoFence_ne_end lv)

theorem jsSplitNl_value_append (p : CodeblockProperty) (lv : Str) (hnl : '\n' ∉ lv) :
    jsSplitNl (p.appendText lv).value = jsSplitNl p.value ++ [lv] := by
  show jsSplitNl (p.value ++ '\n' :: lv) = _
  rw [jsSplitNl_append_nl, jsSplitNl_no_nl lv hnl]

theorem bufWF_append (p : CodeblockProperty) (f f2 : Option Nat) (lv : Str)
    (hp : BufWF p f) (htr : jsTrim lv = lv) (hnl : '\n' ∉ lv)
    (hstep : contentStep f lv = some f2) :
    BufWF (p.appendText lv) f2 := by
  obtain ⟨h1, h2, h3, h4⟩ := hp
  refine ⟨h1, h2, ?_, ?_⟩
  · rw [show jsSplitNl (p.appendText lv).value = jsSplitNl p.value ++ [lv] from
      jsSplitNl_value_append p lv hnl]
    intro l hl
    rcases List.mem_append.mp hl with h' | h'
    · exact h3 l h'
    · rw [List.mem_singleton.mp h']
      exact htr
  · rw [show jsSplitNl (p.appendText lv).value = jsSplitNl p.value ++ [lv] from
      jsSplitNl_value_append p lv hnl]
    have htail : (jsSplitNl p.value ++ [lv]).tail = (jsSplitNl p.value).tail ++ [lv] := by
      cases hs : jsSplitNl p.value with
      | nil => exact absurd hs (jsSplitNl_ne_nil _)
      | cons g gs => simp
    rw [htail, contentFold_append, h4]
    dsimp only
    exact hstep

theorem bufWF_new (lv k v : Str) (h : propMatch lv = some (k, v))
    (htr : jsTrim lv = lv) (hnl : '\n' ∉ lv) :
    BufWF ⟨k, v⟩ none := by
  obtain ⟨hk1, hk2⟩ := propMatch_key lv k v h
  have hv : '\n' ∉ v := propMatch_no_nl lv k v h hnl
  have hvt : jsTrim v = v := propMatch_value_trimmed lv k v h htr
  refine ⟨hk1, hk2, ?_, ?_⟩
  · show ∀ l ∈ jsSplitNl v, jsTrim l = l
    rw [jsSplitNl_no_nl v hv]
    intro l hl
    rw [List.mem_singleton.mp hl]
    exact hvt
  · show contentFold none (jsSplitNl v).tail = some none
    rw [jsSplitNl_no_nl v hv]
    rfl

theorem stateInv_next_none (sprev : ParserState)
    (hs : sprev = .propertyStart ∨ sprev = .propertyText ∨ sprev = .codefenceEnd)
    (lv2 : Str) (s2 : ParserState)
    (htr : TRANSITION_MAP sprev (matchLine none lv2).rule = some s2) :
    StateInv s2 none lv2 (matchLine none lv2) := by
  rw [matchLine_none] at htr ⊢
  rw [rowA_eq sprev hs] at htr
  cases hm : matchLineNoFence lv2 with
  | propertyStart k v =>
    rw [hm] at htr
    simp only [LineMatch.rule, TRANSITION_MAP, Option.some.injEq] at htr
    rw [← htr]
    exact ⟨rfl, k, v, rfl, matchLineNoFence_prop_inv lv2 k v hm⟩
  | codefenceStart n =>
    rw [hm] at htr
    simp only [LineMatch.rule, TRANSITION_MAP, Option.some.injEq] at htr
    rw [← htr]
    exact ⟨rfl, n, rfl, hm⟩
  | anyText =>
    rw [hm] at htr
    simp only [LineMatch.rule, TRANSITION_MAP, Option.some.injEq] at htr
    rw [← htr]
    exact ⟨rfl, hm⟩
  | codefenceEnd =>
    exact absurd hm (matchLineNoFence_ne_end lv2)

theorem stateInv_next_some (sprev : ParserState) (n : Nat)
    (hs : sprev = .codefenceStart ∨ sprev = .codefenceText)
    (lv2 : Str) (s2 : ParserState)
    (htr : TRANSITION_MAP sprev (matchLine (some n) lv2).rule = some s2) :
    StateInv s2 (some n) lv2 (matchLine (some n) lv2) := by
  rw [rowF_eq sprev hs] at htr
  by_cases hcl : codefenceEndMatch n lv2 = true
  · rw [matchLine_fence_close n lv2 ((codefenceEndMatch_true_iff n lv2).mp hcl)] at htr ⊢
    simp only [LineMatch.rule, TRANSITION_MAP, Option.some.injEq] at htr
    rw [← htr]
    exact ⟨n, rfl, hcl⟩
  · have hne : lv2 ≠ List.replicate n backtick :=
      fun h0 => hcl ((codefenceEndMatch_true_iff n lv2).mpr h0)
    rw [matchLine_fence_open_ne n lv2 hne] at htr ⊢
    have hs2 : s2 = .codefenceText := by
      rcases matchLineNoFence_rule_cases lv2 with h | h | h <;> rw [h] at htr <;>
        simp only [TRANSITION_MAP, Option.some.injEq] at htr <;> exact htr.symm
    rw [hs2]
    exact ⟨n, rfl, by simpa using hcl⟩

theorem headI_mem_split (s : Str) : (jsSplitNl s).headI ∈ jsSplitNl s := by
  cases h : jsSplitNl s with
  | nil => exact absurd h (jsSplitNl_ne_nil s)
  | cons g gs => simp [List.headI]

theorem headI_cons_tail_split (s : Str) :
    (jsSplitNl s).headI :: (jsSplitNl s).tail = jsSplitNl s := by
  cases h : jsSplitNl s with
  | nil => exact absurd h (jsSplitNl_ne_nil s)
  | cons g gs => simp [List.headI]

theorem mem_of_mem_tail (l : List Str) (x : Str) (h : x ∈ l.tail) : x ∈ l := by
  cases l with
  | nil => exact absurd h (by simp)
  | cons g gs => exact List.mem_cons_of_mem _ h

theorem contentFold_cons_inv (f : Option Nat) (l : Str) (ls : List Str) (r : Option Nat)
    (h : contentFold f (l :: ls) = some r) :
    ∃ f2, contentStep f l = some f2 ∧ contentFold f2 ls = some r := by
  rw [contentFold] at h
  cases hs : contentStep f l with
  | some f2 =>
    rw [hs] at h
    dsimp only at h
    exact ⟨f2, rfl, h⟩
  | none =>
    rw [hs] at h
    dsimp only at h
    exact absurd h (by simp)

theorem jsTrim_build_line (c : Char) (nm' mid : Str) (d : Char)
    (hc : isWs c = false) (hd : isWs d = false) :
    jsTrim ((c :: nm') ++ ':' :: ' ' :: (mid ++ [d]))
      = (c :: nm') ++ ':' :: ' ' :: (mid ++ [d]) := by
  rw [show ((c :: nm') ++ ':' :: ' ' :: (mid ++ [d]) : Str)
    = c :: (nm' ++ ':' :: ' ' :: mid) ++ [d] by simp]
  exact jsTrim_of_head_last c _ d hc hd

theorem propMatch_hline (p : CodeblockProperty) (hWF : WFprop p) :
    propMatch (jsTrim (hlineOf p)) = some (p.name, (jsSplitNl p.value).headI) := by
  obtain ⟨h1, h2, h3, _⟩ := hWF
  have hv0t : jsTrim (jsSplitNl p.value).headI = (jsSplitNl p.value).headI :=
    h3 _ (headI_mem_split p.value)
  obtain ⟨c, nm', hname⟩ : ∃ c nm', p.name = c :: nm' := by
    cases hn : p.name with
    | nil => exact absurd hn h1
    | cons c nm' => exact ⟨c, nm', rfl⟩
  have hcw : isWs c = false :=
    keyChar_not_ws c (List.all_eq_true.mp h2 c (by rw [hname]; exact List.mem_cons_self _ _))
  rw [hlineOf]
  rcases List.eq_nil_or_concat ((jsSplitNl p.value).headI) with hv0 | ⟨mid, dl, hv0⟩
  · rw [hv0]
    have htr2 : jsTrim (p.name ++ ':' :: ' ' :: []) = p.name ++ [':'] := by
      have hL : jsTrimLeft (p.name ++ ':' :: ' ' :: []) = p.name ++ ':' :: ' ' :: [] := by
        rw [hname, List.cons_append]
        exact jsTrimLeft_no_ws_head _ c hcw
      rw [jsTrim, hL]
      rw [show (p.name ++ ':' :: ' ' :: [] : Str) = (p.name ++ [':']) ++ [' '] by simp]
      rw [jsTrimRight_append_ws _ ' ' (by decide)]
      exact jsTrimRight_no_ws_last _ ':' (by decide)
    rw [htr2]
    exact propMatch_build_empty p.name h1 h2
  · rw [List.concat_eq_append] at hv0
    rw [hv0]
    rw [hv0] at hv0t
    have hdl : isWs dl = false := by
      by_contra hw
      simp only [Bool.not_eq_false] at hw
      have heat := jsTrimRight_append_ws mid dl hw
      rw [jsTrimRight_fixed _ hv0t] at heat
      have hlen := jsTrimRight_length mid
      rw [← heat] at hlen
      simp only [List.length_append, List.length_cons, List.length_nil] at hlen
      omega
    rw [hname]
    rw [jsTrim_build_line c nm' mid dl hcw hdl]
    refine propMatch_build (c :: nm') (mid ++ [dl]) (by simp) (by rw [← hname]; exact h2) ?_
    exact jsTrimLeft_fixed _ hv0t

theorem appendLines_reassemble (p : CodeblockProperty) :
    appendLines ⟨p.name, (jsSplitNl p.value).headI⟩ (jsSplitNl p.value).tail = p := by
  have hval : (appendLines ⟨p.name, (jsSplitNl p.value).headI⟩ (jsSplitNl p.value).tail).value
      = (jsSplitNl p.value).headI
        ++ ((jsSplitNl p.value).tail.map (fun l => '\n' :: l)).flatten :=
    appendLines_value ..
  have hjoin : ((jsSplitNl p.value).headI : Str)
      ++ ((jsSplitNl p.value).tail.map (fun l => '\n' :: l)).flatten = p.value := by
    rw [← jsJoinNl_as_flatten, headI_cons_tail_split, jsJoinNl_jsSplitNl]
  have hn : (appendLines ⟨p.name, (jsSplitNl p.value).headI⟩ (jsSplitNl p.value).tail).name
      = p.name := appendLines_name ..
  calc appendLines ⟨p.name, (jsSplitNl p.value).headI⟩ (jsSplitNl p.value).tail
      = ⟨(appendLines ⟨p.name, (jsSplitNl p.value).headI⟩ (jsSplitNl p.value).tail).name,
         (appendLines ⟨p.name, (jsSplitNl p.value).headI⟩ (jsSplitNl p.value).tail).value⟩
        := rfl
    _ = ⟨p.name, p.value⟩ := by rw [hn, hval, hjoin]
    _ = p := rfl

/-- Running the machine over the content lines of one property: starting
at the first content line (in the state `contState` dictates), all lines
are appended to the buffered property; afterwards the machine either
accepts (no more input) or hands over to `PropertyStart` on the next
headline. -/
theorem runLoop_content (ls : List Str) :
    ∀ (f : Option Nat) (l0 : Str) (p : CodeblockProperty)
      (acc : List CodeblockProperty) (i : Nat) (rest : List Str),
    contentFold f (l0 :: ls) = some none →
    jsTrim l0 = l0 → (∀ l ∈ ls, jsTrim l = l) →
    (rest = [] ∨ ∃ x rest2 kv, rest = x :: rest2 ∧ propMatch (jsTrim x) = some kv) →
    runLoop f (some p) acc (contState f l0) l0 (matchLine f l0) i (ls ++ rest)
      = (match rest with
        | [] => .ok (acc ++ [appendLines p (l0 :: ls)])
        | x :: rest2 =>
          runLoop none (some (appendLines p (l0 :: ls))) acc .propertyStart (jsTrim x)
            (matchLine none (jsTrim x)) (i + 1 + ls.length) rest2) := by
  induction ls with
  | nil =>
    intro f l0 p acc i rest hfold htr0 _ hrest
    obtain ⟨f2, hstep, hrfl⟩ := contentFold_cons_inv f l0 [] none hfold
    have hf2 : f2 = none := by
      rw [contentFold] at hrfl
      simpa using hrfl
    subst hf2
    rw [List.nil_append]
    rw [runLoop]
    rw [entryAction_content f none p acc l0 i hstep]
    dsimp only
    cases rest with
    | nil =>
      dsimp only
      rw [(contState_to_headline f l0 hstep).2]
      simp only [if_true]
      show Except.ok (acc ++ [p.appendText l0]) = Except.ok (acc ++ [appendLines p [l0]])
      rfl
    | cons x rest2 =>
      dsimp only
      rcases hrest with h0 | ⟨x', r2', kv, heq, hkv⟩
      · exact absurd h0 (by simp)
      · obtain ⟨hx1, _⟩ : x = x' ∧ rest2 = r2' := by
          simp only [List.cons.injEq] at heq
          exact ⟨heq.1, heq.2⟩
        rw [← hx1] at hkv
        rw [matchLine_none, matchLineNoFence_prop _ _ _ hkv]
        simp only [LineMatch.rule]
        rw [(contState_to_headline f l0 hstep).1]
        rfl
  | cons l1 ls' ih =>
    intro f l0 p acc i rest hfold htr0 htrs hrest
    obtain ⟨f2, hstep, hfold2⟩ := contentFold_cons_inv f l0 (l1 :: ls') none hfold
    obtain ⟨g, hstep2, _⟩ := contentFold_cons_inv f2 l1 ls' none hfold2
    have htr1 : jsTrim l1 = l1 := htrs l1 (List.mem_cons_self _ _)
    rw [show ((l1 :: ls') ++ rest : List Str) = l1 :: (ls' ++ rest) from rfl]
    rw [runLoop]
    rw [entryAction_content f f2 p acc l0 i hstep]
    dsimp only
    rw [htr1]
    have htrans : TRANSITION_MAP (contState f l0) (matchLine f2 l1).rule
        = some (contState f2 l1) := by
      refine transition_to_content _ f2 g l1 ?_ hstep2
      rcases contState_class f f2 l0 hstep with ⟨hf, hor⟩ | h2
      · exact Or.inl ⟨hf, Or.inr hor⟩
      · exact Or.inr h2
    rw [htrans]
    dsimp only
    rw [ih f2 l1 (p.appendText l0) acc (i + 1) rest hfold2 htr1
      (fun l hl => htrs l (List.mem_cons_of_mem _ hl)) hrest]
    cases rest with
    | nil =>
      show Except.ok (acc ++ [appendLines (p.appendText l0) (l1 :: ls')])
        = Except.ok (acc ++ [appendLines p (l0 :: l1 :: ls')])
      rfl
    | cons x rest2 =>
      show runLoop none (some (appendLines (p.appendText l0) (l1 :: ls'))) acc
          .propertyStart (jsTrim x) (matchLine none (jsTrim x))
          (i + 1 + 1 + ls'.length) rest2
        = runLoop none (some (appendLines p (l0 :: l1 :: ls'))) acc
          .propertyStart (jsTrim x) (matchLine none (jsTrim x))
          (i + 1 + (l1 :: ls').length) rest2
      rw [show appendLines (p.appendText l0) (l1 :: ls') = appendLines p (l0 :: l1 :: ls')
        from rfl]
      rw [show i + 1 + 1 + ls'.length = i + 1 + (l1 :: ls').length by
        simp only [List.length_cons]; omega]

/-- Running the machine from the headline of a property through the
serialized blocks of the remaining properties: every block re-parses to
exactly its property, and the machine accepts at the end. -/
theorem runLoop_blocks (hqs : List (Str × CodeblockProperty)) :
    ∀ (p : CodeblockProperty) (buf : Option CodeblockProperty)
      (acc : List CodeblockProperty) (lv : Str) (i : Nat),
    WFprop p → (∀ x ∈ hqs, WFprop x.2) →
    (∀ x ∈ hqs, propMatch (jsTrim x.1) = some (x.2.name, (jsSplitNl x.2.value).headI)) →
    runLoop none buf acc .propertyStart lv
        (.propertyStart p.name ((jsSplitNl p.value).headI)) i
        ((jsSplitNl p.value).tail ++ blockLinesH hqs)
      = .ok (acc ++ buf.toList ++ p :: hqs.map Prod.snd) := by
  induction hqs with
  | nil =>
    intro p buf acc lv i hp _ _
    have h3 := hp.2.2.1
    have h4 := hp.2.2.2
    rw [runLoop]
    rw [show entryAction none buf acc .propertyStart lv
        (.propertyStart p.name ((jsSplitNl p.value).headI)) i
      = .ok (none, some ⟨p.name, (jsSplitNl p.value).headI⟩, acc ++ buf.toList) from rfl]
    dsimp only
    rw [show blockLinesH [] = [] from rfl]
    cases htail : (jsSplitNl p.value).tail with
    | nil =>
      simp only [List.append_nil]
      rw [if_pos (show ACCEPTING_STATES ParserState.propertyStart = true from rfl)]
      have hre := appendLines_reassemble p
      rw [htail, appendLines_nil] at hre
      rw [hre]
      simp
    | cons t0 ts =>
      rw [htail] at h4
      obtain ⟨g0, hstep0, _⟩ := contentFold_cons_inv none t0 ts none h4
      have ht0 : jsTrim t0 = t0 :=
        h3 t0 (mem_of_mem_tail _ _ (by rw [htail]; exact List.mem_cons_self _ _))
      have hts : ∀ l ∈ ts, jsTrim l = l := fun l hl =>
        h3 l (mem_of_mem_tail _ _ (by rw [htail]; exact List.mem_cons_of_mem _ hl))
      simp only [List.cons_append, List.append_nil]
      rw [ht0]
      have htrans : TRANSITION_MAP .propertyStart (matchLine none t0).rule
          = some (contState none t0) :=
        transition_to_content .propertyStart none g0 t0 (Or.inl ⟨rfl, Or.inl rfl⟩) hstep0
      rw [htrans]
      dsimp only
      rw [show (ts : List Str) = ts ++ [] from (List.append_nil ts).symm]
      rw [runLoop_content ts none t0 ⟨p.name, (jsSplitNl p.value).headI⟩
        (acc ++ buf.toList) (i + 1) [] h4 ht0 hts (Or.inl rfl)]
      dsimp only
      have hre := appendLines_reassemble p
      rw [htail] at hre
      rw [hre]
      simp
  | cons hq hqs' ih =>
    intro p buf acc lv i hp hWFs hHs
    obtain ⟨hl1, q1⟩ := hq
    have h3 := hp.2.2.1
    have h4 := hp.2.2.2
    have hkv : propMatch (jsTrim hl1) = some (q1.name, (jsSplitNl q1.value).headI) :=
      hHs (hl1, q1) (List.mem_cons_self _ _)
    have hq2WF : WFprop q1 := hWFs (hl1, q1) (List.mem_cons_self _ _)
    have hWFs' : ∀ x ∈ hqs', WFprop x.2 := fun x hx => hWFs x (List.mem_cons_of_mem _ hx)
    have hHs' : ∀ x ∈ hqs',
        propMatch (jsTrim x.1) = some (x.2.name, (jsSplitNl x.2.value).headI) :=
      fun x hx => hHs x (List.mem_cons_of_mem _ hx)
    have hm : matchLine none (jsTrim hl1)
        = .propertyStart q1.name ((jsSplitNl q1.value).headI) := by
      rw [matchLine_none]
      exact matchLineNoFence_prop _ _ _ hkv
    rw [runLoop]
    rw [show entryAction none buf acc .propertyStart lv
        (.propertyStart p.name ((jsSplitNl p.value).headI)) i
      = .ok (none, some ⟨p.name, (jsSplitNl p.value).headI⟩, acc ++ buf.toList) from rfl]
    dsimp only
    rw [show blockLinesH ((hl1, q1) :: hqs')
      = (hl1 :: (jsSplitNl q1.value).tail) ++ blockLinesH hqs' from rfl]
    cases htail : (jsSplitNl p.value).tail with
    | nil =>
      simp only [List.nil_append, List.cons_append]
      rw [hm]
      simp only [LineMatch.rule]
      rw [show TRANSITION_MAP .propertyStart RuleName.propertyStart
        = some ParserState.propertyStart from rfl]
      dsimp only
      rw [ih q1 (some ⟨p.name, (jsSplitNl p.value).headI⟩) (acc ++ buf.toList)
        (jsTrim hl1) (i + 1) hq2WF hWFs' hHs']
      have hre := appendLines_reassemble p
      rw [htail, appendLines_nil] at hre
      rw [hre]
      simp
    | cons t0 ts =>
      rw [htail] at h4
      obtain ⟨g0, hstep0, _⟩ := contentFold_cons_inv none t0 ts none h4
      have ht0 : jsTrim t0 = t0 :=
        h3 t0 (mem_of_mem_tail _ _ (by rw [htail]; exact List.mem_cons_self _ _))
      have hts : ∀ l ∈ ts, jsTrim l = l := fun l hl =>
        h3 l (mem_of_mem_tail _ _ (by rw [htail]; exact List.mem_cons_of_mem _ hl))
      simp only [List.cons_append]
      rw [ht0]
      have htrans : TRANSITION_MAP .propertyStart (matchLine none t0).rule
          = some (contState none t0) :=
        transition_to_content .propertyStart none g0 t0 (Or.inl ⟨rfl, Or.inl rfl⟩) hstep0
      rw [htrans]
      dsimp only
      rw [runLoop_content ts none t0 ⟨p.name, (jsSplitNl p.value).headI⟩
        (acc ++ buf.toList) (i + 1)
        (hl1 :: ((jsSplitNl q1.value).tail ++ blockLinesH hqs')) h4 ht0 hts
        (Or.inr ⟨hl1, (jsSplitNl q1.value).tail ++ blockLinesH hqs',
          (q1.name, (jsSplitNl q1.value).headI), rfl, hkv⟩)]
      dsimp only
      rw [hm]
      have hre := appendLines_reassemble p
      rw [htail] at hre
      rw [hre]
      rw [ih q1 (some p) (acc ++ buf.toList) (jsTrim hl1)
        (i + 1 + 1 + ts.length) hq2WF hWFs' hHs']
      simp

/-- What one entry action of a successful run produces: well-formed
accumulated properties, a well-formed buffer, and the fence/state
correlation needed to dispatch on the next line. -/
theorem entry_step (fence : Option Nat) (buf : Option CodeblockProperty)
    (acc : List CodeblockProperty) (s : ParserState) (lv : Str) (m : LineMatch) (i : Nat)
    (f2 : Option Nat) (b2 : Option CodeblockProperty) (a2 : List CodeblockProperty)
    (hent : entryAction fence buf acc s lv m i = .ok (f2, b2, a2))
    (hsi : StateInv s fence lv m)
    (hbufWF : ∀ p, buf = some p → BufWF p fence)
    (haccWF : ∀ p ∈ acc, WFprop p)
    (htri : jsTrim lv = lv) (hnl : '\n' ∉ lv) :
    (∀ p ∈ a2, WFprop p)
    ∧ (∃ p2, b2 = some p2 ∧ BufWF p2 f2)
    ∧ ((f2 = none ∧ (s = .propertyStart ∨ s = .propertyText ∨ s = .codefenceEnd))
        ∨ (∃ n, f2 = some n ∧ (s = .codefenceStart ∨ s = .codefenceText)))
    ∧ (ACCEPTING_STATES s = true ↔ f2 = none)
    ∧ (s = .propertyStart → ∃ k v, b2 = some ⟨k, v⟩ ∧ propMatch lv = some (k, v))
    ∧ (s ≠ .propertyStart → ∃ q : CodeblockProperty, b2 = some (q.appendText lv)) := by
  cases s with
  | codeblockStart => exact hsi.elim
  | codeblockEnd => exact hsi.elim
  | parseError => exact hsi.elim
  | propertyStart =>
    obtain ⟨hf, k, v, hm, hpm⟩ := hsi
    subst hf
    rw [hm] at hent
    rw [show entryAction none buf acc .propertyStart lv (.propertyStart k v) i
      = .ok (none, some ⟨k, v⟩, acc ++ buf.toList) from rfl] at hent
    simp only [Except.ok.injEq, Prod.mk.injEq] at hent
    obtain ⟨hf2, hb2, ha2⟩ := hent
    refine ⟨?_, ⟨⟨k, v⟩, hb2.symm, ?_⟩, Or.inl ⟨hf2.symm, Or.inl rfl⟩, ?_, ?_, ?_⟩
    · intro p hp
      rw [← ha2] at hp
      rcases List.mem_append.mp hp with h' | h'
      · exact haccWF p h'
      · cases hbuf : buf with
        | none =>
          rw [hbuf] at h'
          exact absurd h' (by simp)
        | some q =>
          rw [hbuf] at h'
          simp only [Option.toList_some, List.mem_singleton] at h'
          rw [h']
          exact hbufWF q hbuf
    · rw [← hf2]
      exact bufWF_new lv k v hpm htri hnl
    · rw [← hf2]
      exact ⟨fun _ => rfl, fun _ => rfl⟩
    · intro _
      exact ⟨k, v, hb2.symm, hpm⟩
    · intro hne
      exact absurd rfl hne
  | propertyText =>
    obtain ⟨hf, hmf⟩ := hsi
    subst hf
    cases hbuf : buf with
    | none =>
      rw [hbuf] at hent
      exact Except.noConfusion hent
    | some q =>
      rw [hbuf] at hent
      rw [show entryAction none (some q) acc .propertyText lv m i
        = .ok (none, some (q.appendText lv), acc) from rfl] at hent
      simp only [Except.ok.injEq, Prod.mk.injEq] at hent
      obtain ⟨hf2, hb2, ha2⟩ := hent
      have hq : BufWF q none := hbufWF q hbuf
      have hstep : contentStep none lv = some none := by
        rw [contentStep, hmf]
      refine ⟨by rw [← ha2]; exact haccWF, ⟨q.appendText lv, hb2.symm, ?_⟩,
        Or.inl ⟨hf2.symm, Or.inr (Or.inl rfl)⟩,
        by rw [← hf2]; exact ⟨fun _ => rfl, fun _ => rfl⟩,
        fun hps => absurd hps (by simp), fun _ => ⟨q, hb2.symm⟩⟩
      rw [← hf2]
      exact bufWF_append q none none lv hq htri hnl hstep
  | codefenceStart =>
    obtain ⟨hf, n, hm, hmf⟩ := hsi
    subst hf
    rw [hm] at hent
    cases hbuf : buf with
    | none =>
      rw [hbuf] at hent
      exact Except.noConfusion hent
    | some q =>
      rw [hbuf] at hent
      rw [show entryAction none (some q) acc .codefenceStart lv (.codefenceStart n) i
        = .ok (some n, some (q.appendText lv), acc) from rfl] at hent
      simp only [Except.ok.injEq, Prod.mk.injEq] at hent
      obtain ⟨hf2, hb2, ha2⟩ := hent
      have hq : BufWF q none := hbufWF q hbuf
      have hstep : contentStep none lv = some (some n) := by
        rw [contentStep, hmf]
      refine ⟨by rw [← ha2]; exact haccWF, ⟨q.appendText lv, hb2.symm, ?_⟩,
        Or.inr ⟨n, hf2.symm, Or.inl rfl⟩, ?_,
        fun hps => absurd hps (by simp), fun _ => ⟨q, hb2.symm⟩⟩
      · rw [← hf2]
        exact bufWF_append q none (some n) lv hq htri hnl hstep
      · rw [← hf2]
        exact ⟨fun hacc => absurd hacc (by decide), fun h0 => Option.noConfusion h0⟩
  | codefenceText =>
    obtain ⟨n, hf, hcl⟩ := hsi
    subst hf
    cases hbuf : buf with
    | none =>
      rw [hbuf] at hent
      exact Except.noConfusion hent
    | some q =>
      rw [hbuf] at hent
      rw [show entryAction (some n) (some q) acc .codefenceText lv m i
        = .ok (some n, some (q.appendText lv), acc) from rfl] at hent
      simp only [Except.ok.injEq, Prod.mk.injEq] at hent
      obtain ⟨hf2, hb2, ha2⟩ := hent
      have hq : BufWF q (some n) := hbufWF q hbuf
      have hstep : contentStep (some n) lv = some (some n) := by
        simp [contentStep, hcl]
      refine ⟨by rw [← ha2]; exact haccWF, ⟨q.appendText lv, hb2.symm, ?_⟩,
        Or.inr ⟨n, hf2.symm, Or.inr rfl⟩, ?_,
        fun hps => absurd hps (by simp), fun _ => ⟨q, hb2.symm⟩⟩
      · rw [← hf2]
        exact bufWF_append q (some n) (some n) lv hq htri hnl hstep
      · rw [← hf2]
        exact ⟨fun hacc => absurd hacc (by decide), fun h0 => Option.noConfusion h0⟩
  | codefenceEnd =>
    obtain ⟨n, hf, hcl⟩ := hsi
    subst hf
    cases hbuf : buf with
    | none =>
      rw [hbuf] at hent
      exact Except.noConfusion hent
    | some q =>
      rw [hbuf] at hent
      rw [show entryAction (some n) (some q) acc .codefenceEnd lv m i
        = .ok (none, some (q.appendText lv), acc) from rfl] at hent
      simp only [Except.ok.injEq, Prod.mk.injEq] at hent
      obtain ⟨hf2, hb2, ha2⟩ := hent
      have hq : BufWF q (some n) := hbufWF q hbuf
      have hstep : contentStep (some n) lv = some none := by
        simp [contentStep, hcl]
      refine ⟨by rw [← ha2]; exact haccWF, ⟨q.appendText lv, hb2.symm, ?_⟩,
        Or.inl ⟨hf2.symm, Or.inr (Or.inr rfl)⟩,
        by rw [← hf2]; exact ⟨fun _ => rfl, fun _ => rfl⟩,
        fun hps => absurd hps (by simp), fun _ => ⟨q, hb2.symm⟩⟩
      rw [← hf2]
      exact bufWF_append q (some n) none lv hq htri hnl hstep

/-- Soundness of a successful `runLoop` run: the produced property list
is nonempty, all its members are well formed, and its last member
satisfies the last-line condition. -/
theorem runLoop_sound (rest : List Str) :
    ∀ (fence : Option Nat) (buf : Option CodeblockProperty)
      (acc : List CodeblockProperty) (s : ParserState) (lv : Str) (m : LineMatch)
      (i : Nat) (r : List CodeblockProperty),
    runLoop fence buf acc s lv m i rest = .ok r →
    (∀ p ∈ acc, WFprop p) →
    (∀ p, buf = some p → BufWF p fence) →
    StateInv s fence lv m →
    jsTrim lv = lv → '\n' ∉ lv →
    (∀ l ∈ rest, '\n' ∉ l) →
    (rest = [] → s = .propertyStart ∨ lv ≠ []) →
    (∀ l, rest.getLast? = some l → jsTrim l ≠ []) →
    r ≠ [] ∧ (∀ p ∈ r, WFprop p) ∧ LastOK r := by
  induction rest with
  | nil =>
    intro fence buf acc s lv m i r h haccWF hbufWF hsi htri hnl _ hlast0 _
    rw [runLoop] at h
    cases hent : entryAction fence buf acc s lv m i with
    | error e =>
      rw [hent] at h
      exact Except.noConfusion h
    | ok t =>
      obtain ⟨f2, b2, a2⟩ := t
      rw [hent] at h
      dsimp only at h
      obtain ⟨haccWF2, ⟨p2, hb2, hp2WF⟩, _, hacciff, hps, happ⟩ :=
        entry_step fence buf acc s lv m i f2 b2 a2 hent hsi hbufWF haccWF htri hnl
      by_cases hacc : ACCEPTING_STATES s = true
      · rw [if_pos hacc] at h
        simp only [Except.ok.injEq] at h
        have hf2 : f2 = none := hacciff.mp hacc
        rw [hb2] at h
        simp only [Option.toList_some] at h
        have hWFp2 : WFprop p2 := by
          rw [hf2] at hp2WF
          exact hp2WF
        refine ⟨?_, ?_, ?_⟩
        · rw [← h]
          simp
        · intro p hp
          rw [← h] at hp
          rcases List.mem_append.mp hp with h' | h'
          · exact haccWF2 p h'
          · rw [List.mem_singleton.mp h']
            exact hWFp2
        · intro p hpl
          rw [← h, List.getLast?_concat] at hpl
          injection hpl with hp2p
          rw [← hp2p]
          by_cases hsps : s = .propertyStart
          · obtain ⟨k, v, hb2x, hpm⟩ := hps hsps
            rw [hb2] at hb2x
            injection hb2x with hp2kv
            have hvnl : '\n' ∉ v := propMatch_no_nl lv k v hpm hnl
            rw [hp2kv]
            intro heq
            rw [show (⟨k, v⟩ : CodeblockProperty).value = v from rfl] at heq ⊢
            rw [jsSplitNl_no_nl v hvnl] at heq
            simp only [List.getLast?_singleton, Option.some.injEq] at heq
            rw [← heq]
          · obtain ⟨q, hbq⟩ := happ hsps
            rw [hb2] at hbq
            injection hbq with hp2q
            have hlv : lv ≠ [] := by
              rcases hlast0 rfl with h' | h'
              · exact absurd h' hsps
              · exact h'
            intro heq
            exfalso
            rw [hp2q] at heq
            rw [jsSplitNl_value_append q lv hnl, List.getLast?_concat] at heq
            injection heq with heq2
            exact hlv heq2
      · rw [if_neg hacc] at h
        exact Except.noConfusion h
  | cons next rest2 ih =>
    intro fence buf acc s lv m i r h haccWF hbufWF hsi htri hnl hrestnl _ hlastl
    rw [runLoop] at h
    cases hent : entryAction fence buf acc s lv m i with
    | error e =>
      rw [hent] at h
      exact Except.noConfusion h
    | ok t =>
      obtain ⟨f2, b2, a2⟩ := t
      rw [hent] at h
      dsimp only at h
      obtain ⟨haccWF2, ⟨p2, hb2, hp2WF⟩, hfcase, _, _, _⟩ :=
        entry_step fence buf acc s lv m i f2 b2 a2 hent hsi hbufWF haccWF htri hnl
      cases htr2 : TRANSITION_MAP s (matchLine f2 (jsTrim next)).rule with
      | none =>
        rw [htr2] at h
        exact Except.noConfusion h
      | some s2 =>
        rw [htr2] at h
        dsimp only at h
        have hsi2 : StateInv s2 f2 (jsTrim next) (matchLine f2 (jsTrim next)) := by
          rcases hfcase with ⟨hf2, hsor⟩ | ⟨n, hf2, hsor⟩
          · subst hf2
            exact stateInv_next_none s hsor _ s2 htr2
          · subst hf2
            exact stateInv_next_some s n hsor _ s2 htr2
        have hnl2 : '\n' ∉ next := hrestnl next (List.mem_cons_self _ _)
        refine ih f2 b2 a2 s2 (jsTrim next) _ (i + 1) r h haccWF2
          (fun p hp => by
            rw [hb2] at hp
            injection hp with hp'
            rw [← hp']
            exact hp2WF)
          hsi2 (jsTrim_idem next) (not_mem_jsTrim next _ hnl2)
          (fun l hl => hrestnl l (List.mem_cons_of_mem _ hl)) ?_ ?_
        · intro hr2
          right
          subst hr2
          exact hlastl next (by simp)
        · intro l hl
          refine hlastl l ?_
          cases hr2 : rest2 with
          | nil =>
            rw [hr2] at hl
            exact absurd hl (by simp)
          | cons y ys =>
            rw [hr2] at hl
            rw [List.getLast?_cons_cons]
            exact hl

/-- Everything a successful `parseProperties` run guarantees about its
result. -/
theorem parse_sound (source : Str) (ps : List CodeblockProperty)
    (h : parseProperties source = .ok ps) :
    ps ≠ [] ∧ (∀ p ∈ ps, WFprop p) ∧ LastOK ps := by
  rw [parseProperties, parseCodeblockWithSlot] at h
  simp only [matcherSlotInit] at h
  by_cases hemp : (jsTrim source).isEmpty
  · rw [if_pos hemp] at h
    exact Except.noConfusion h
  · rw [if_neg hemp] at h
    have htne : jsTrim source ≠ [] := by
      intro h0
      apply hemp
      rw [h0]
      rfl
    cases hsplit : jsSplitNl (jsTrim source) with
    | nil => exact absurd hsplit (jsSplitNl_ne_nil _)
    | cons l0 rest =>
      rw [hsplit, parseLinesFrom_cons, matchLine_none] at h
      have hl0mem : l0 ∈ jsSplitNl (jsTrim source) := by
        rw [hsplit]
        exact List.mem_cons_self _ _
      have hl0nl : '\n' ∉ l0 := mem_jsSplitNl_no_nl _ l0 hl0mem
      have hrestnl : ∀ l ∈ rest, '\n' ∉ l := fun l hl =>
        mem_jsSplitNl_no_nl _ l (by rw [hsplit]; exact List.mem_cons_of_mem _ hl)
      have hlastl : ∀ l, rest.getLast? = some l → jsTrim l ≠ [] := by
        intro l hl
        refine last_split_trim_ne_nil (jsTrim source) htne (jsTrim_idem source) l ?_
        rw [hsplit]
        cases hr : rest with
        | nil =>
          rw [hr] at hl
          exact absurd hl (by simp)
        | cons y ys =>
          rw [hr] at hl
          rw [List.getLast?_cons_cons]
          exact hl
      cases hmm : matchLineNoFence (jsTrim l0) with
      | propertyStart k v =>
        rw [hmm] at h
        simp only [LineMatch.rule, TRANSITION_MAP] at h
        exact runLoop_sound rest none none [] .propertyStart (jsTrim l0)
          (.propertyStart k v) 0 ps h (by simp)
          (fun p hp => Option.noConfusion hp)
          ⟨rfl, k, v, rfl, matchLineNoFence_prop_inv _ _ _ hmm⟩
          (jsTrim_idem l0) (not_mem_jsTrim l0 _ hl0nl) hrestnl
          (fun _ => Or.inl rfl) hlastl
      | codefenceStart n =>
        rw [hmm] at h
        simp only [LineMatch.rule, TRANSITION_MAP] at h
        exact Except.noConfusion h
      | anyText =>
        rw [hmm] at h
        simp only [LineMatch.rule, TRANSITION_MAP] at h
        exact Except.noConfusion h
      | codefenceEnd =>
        exact absurd hmm (matchLineNoFence_ne_end (jsTrim l0))

theorem value_trimRight (pl : CodeblockProperty) (hWF : WFprop pl) (llast : Str)
    (hgl : (jsSplitNl pl.value).getLast? = some llast) (hne : llast ≠ []) :
    jsTrimRight pl.value = pl.value ∧ pl.value ≠ [] := by
  have h3 := hWF.2.2.1
  obtain ⟨L2, hL⟩ := List.getLast?_eq_some_iff.mp hgl
  have hlm : llast ∈ jsSplitNl pl.value := by
    rw [hL]
    exact List.mem_append_right _ (List.mem_singleton.mpr rfl)
  have htrR : jsTrimRight llast = llast := jsTrimRight_fixed llast (h3 llast hlm)
  have hval : pl.value = jsJoinNl (L2 ++ [llast]) := by
    rw [← hL, jsJoinNl_jsSplitNl]
  cases hL2 : L2 with
  | nil =>
    rw [hL2] at hval
    simp only [List.nil_append, jsJoinNl] at hval
    rw [hval]
    exact ⟨htrR, hne⟩
  | cons a as =>
    rw [hL2] at hval
    rw [jsJoinNl_concat _ _ (by simp)] at hval
    rw [hval]
    constructor
    · rw [show (jsJoinNl (a :: as) ++ '\n' :: llast : Str)
        = (jsJoinNl (a :: as) ++ ['\n']) ++ llast by simp]
      rw [jsTrimRight_append_of_ne_nil _ _ (by rw [htrR]; exact hne), htrR]
    · intro h0
      have := congrArg List.length h0
      simp at this

theorem trimRight_join_id (A : List Str) (x : Str)
    (hxR : jsTrimRight x = x) (hxne : x ≠ []) :
    jsTrimRight (jsJoinNl (A ++ [x])) = jsJoinNl (A ++ [x]) := by
  cases A with
  | nil => simpa [jsJoinNl] using hxR
  | cons a as =>
    rw [jsJoinNl_concat _ _ (by simp)]
    rw [show (jsJoinNl (a :: as) ++ '\n' :: x : Str)
      = (jsJoinNl (a :: as) ++ ['\n']) ++ x by simp]
    rw [jsTrimRight_append_of_ne_nil _ _ (by rw [hxR]; exact hxne), hxR]

theorem trimRight_join_adj (A : List Str) (nm : Str) :
    jsTrimRight (jsJoinNl (A ++ [nm ++ [':', ' ']])) = jsJoinNl (A ++ [nm ++ [':']]) := by
  cases A with
  | nil =>
    simp only [List.nil_append, jsJoinNl]
    rw [show (nm ++ [':', ' '] : Str) = (nm ++ [':']) ++ [' '] by simp]
    rw [jsTrimRight_append_ws _ ' ' (by decide)]
    exact jsTrimRight_no_ws_last _ ':' (by decide)
  | cons a as =>
    rw [jsJoinNl_concat _ _ (by simp), jsJoinNl_concat _ _ (by simp)]
    rw [show (jsJoinNl (a :: as) ++ '\n' :: (nm ++ [':', ' ']) : Str)
      = (jsJoinNl (a :: as) ++ '\n' :: (nm ++ [':'])) ++ [' '] by simp]
    rw [jsTrimRight_append_ws _ ' ' (by decide)]
    rw [show (jsJoinNl (a :: as) ++ '\n' :: (nm ++ [':']) : Str)
      = (jsJoinNl (a :: as) ++ '\n' :: nm) ++ [':'] by simp]
    rw [jsTrimRight_no_ws_last _ ':' (by decide)]

theorem trimLeft_join_head (x : Str) (Arest : List Str) (c : Char) (xr : Str)
    (hx : x = c :: xr) (hc : isWs c = false) :
    jsTrimLeft (jsJoinNl (x :: Arest)) = jsJoinNl (x :: Arest) := by
  rw [jsJoinNl_cons_general, hx]
  rw [show ((c :: xr : Str)
      ++ (if Arest.isEmpty then [] else '\n' :: jsJoinNl Arest))
    = c :: (xr ++ (if Arest.isEmpty then [] else '\n' :: jsJoinNl Arest)) by simp]
  exact jsTrimLeft_no_ws_head _ c hc

theorem jsJoinNl_concat_ne_nil (A : List Str) (x : Str) (hx : x ≠ []) :
    jsJoinNl (A ++ [x]) ≠ [] := by
  cases A with
  | nil => simpa using hx
  | cons a as =>
    rw [jsJoinNl_concat _ _ (by simp)]
    intro h0
    have := congrArg List.length h0
    simp at this

theorem flatten_blocks (qs : List CodeblockProperty) (hnm : ∀ q ∈ qs, '\n' ∉ q.name) :
    ((qs.map headlineOf).map jsSplitNl).flatten
      = blockLinesH (qs.map (fun q => (hlineOf q, q))) := by
  induction qs with
  | nil => rfl
  | cons q qs' ih =>
    simp only [List.map_cons, List.flatten_cons]
    rw [jsSplitNl_headlineOf q (hnm q (List.mem_cons_self _ _))]
    rw [ih (fun x hx => hnm x (List.mem_cons_of_mem _ hx))]
    rfl

theorem flatten_blocks_adj (qs : List CodeblockProperty) (pl : CodeblockProperty)
    (hnm : ∀ q ∈ qs, '\n' ∉ q.name) (hnm2 : '\n' ∉ pl.name) (hplv : pl.value = []) :
    (((qs.map headlineOf) ++ [pl.name ++ [':']]).map jsSplitNl).flatten
      = blockLinesH (qs.map (fun q => (hlineOf q, q)) ++ [(pl.name ++ [':'], pl)]) := by
  induction qs with
  | nil =>
    simp only [List.map_nil, List.nil_append, List.map_cons]
    rw [jsSplitNl_no_nl _ (by
      intro hm
      rcases List.mem_append.mp hm with h' | h'
      · exact hnm2 h'
      · exact absurd h' (by decide))]
    rw [show blockLinesH [(pl.name ++ [':'], pl)]
      = ((pl.name ++ [':']) :: (jsSplitNl pl.value).tail) ++ blockLinesH [] from rfl]
    rw [hplv]
    simp [jsSplitNl, blockLinesH]
  | cons q qs' ih =>
    simp only [List.map_cons, List.cons_append, List.flatten_cons]
    rw [jsSplitNl_headlineOf q (hnm q (List.mem_cons_self _ _))]
    rw [ih (fun x hx => hnm x (List.mem_cons_of_mem _ hx))]
    rfl

/-- Parsing the serialized blocks: the first headline starts the machine
in `PropertyStart` and the block run reproduces the property list. -/
theorem parseLines_blocks (prs : List (Str × CodeblockProperty)) (h0 : Str)
    (p0 : CodeblockProperty)
    (hWF0 : WFprop p0)
    (hWFs : ∀ x ∈ prs, WFprop x.2)
    (hH0 : propMatch (jsTrim h0) = some (p0.name, (jsSplitNl p0.value).headI))
    (hHs : ∀ x ∈ prs, propMatch (jsTrim x.1) = some (x.2.name, (jsSplitNl x.2.value).headI)) :
    parseLinesFrom none (blockLinesH ((h0, p0) :: prs)) = .ok (p0 :: prs.map Prod.snd) := by
  rw [show blockLinesH ((h0, p0) :: prs)
    = h0 :: ((jsSplitNl p0.value).tail ++ blockLinesH prs) from rfl]
  rw [parseLinesFrom_cons, matchLine_none, matchLineNoFence_prop _ _ _ hH0]
  simp only [LineMatch.rule]
  rw [show TRANSITION_MAP .codeblockStart RuleName.propertyStart
    = some ParserState.propertyStart from rfl]
  dsimp only
  rw [runLoop_blocks prs p0 none [] (jsTrim h0) 0 hWF0 hWFs hHs]
  simp

theorem map_snd_pair (l : List CodeblockProperty) :
    (l.map (fun q => (hlineOf q, q))).map Prod.snd = l := by
  induction l with
  | nil => rfl
  | cons a as ih => simp only [List.map_cons, ih]

/-- Re-parsing the serialization of a well-formed property list yields
the list back. -/
theorem reparse (ps : List CodeblockProperty) (hne : ps ≠ [])
    (hWF : ∀ p ∈ ps, WFprop p) (hlast : LastOK ps) :
    parseProperties (serializeProperties ps) = .ok ps := by
  have hser : serializeProperties ps = jsJoinNl (ps.map headlineOf) := rfl
  obtain ⟨p0, rest0, hps0⟩ : ∃ p0 rest0, ps = p0 :: rest0 := by
    cases hp : ps with
    | nil => exact absurd hp hne
    | cons a b => exact ⟨a, b, rfl⟩
  rcases List.eq_nil_or_concat ps with h0 | ⟨init, pl, hps1⟩
  · exact absurd h0 hne
  · rw [List.concat_eq_append] at hps1
    have h0WF : WFprop p0 := hWF p0 (by rw [hps0]; exact List.mem_cons_self _ _)
    have hplWF : WFprop pl := hWF pl
      (by rw [hps1]; exact List.mem_append_right _ (List.mem_singleton.mpr rfl))
    have hnms : ∀ q ∈ ps, '\n' ∉ q.name := fun q hq => keychar_no_nl q.name (hWF q hq).2.1
    obtain ⟨c, nm', hname⟩ : ∃ c nm', p0.name = c :: nm' := by
      cases hn : p0.name with
      | nil => exact absurd hn h0WF.1
      | cons a b => exact ⟨a, b, rfl⟩
    have hcw : isWs c = false :=
      keyChar_not_ws c (List.all_eq_true.mp h0WF.2.1 c
        (by rw [hname]; exact List.mem_cons_self _ _))
    have hSL : jsTrimLeft (serializeProperties ps) = serializeProperties ps := by
      rw [hser, hps0, List.map_cons]
      refine trimLeft_join_head (headlineOf p0) _ c (nm' ++ ':' :: ' ' :: p0.value) ?_ hcw
      rw [headlineOf, hname]
      simp
    obtain ⟨llast, hgl⟩ : ∃ l, (jsSplitNl pl.value).getLast? = some l := by
      cases hg : (jsSplitNl pl.value).getLast? with
      | none =>
        have hx := List.getLast?_isSome.mpr (jsSplitNl_ne_nil pl.value)
        rw [hg] at hx
        exact absurd hx (by simp)
      | some l => exact ⟨l, rfl⟩
    have hlps : ps.getLast? = some pl := by
      rw [hps1]
      exact List.getLast?_concat _
    by_cases hll : llast = []
    · have hplv : pl.value = [] := hlast pl hlps (by rw [hgl, hll])
      have hnm2 : '\n' ∉ pl.name := hnms pl
        (by rw [hps1]; exact List.mem_append_right _ (List.mem_singleton.mpr rfl))
      obtain ⟨cl, nml, hnamel⟩ : ∃ cl nml, pl.name = cl :: nml := by
        cases hn : pl.name with
        | nil => exact absurd hn hplWF.1
        | cons a b => exact ⟨a, b, rfl⟩
      have hclw : isWs cl = false :=
        keyChar_not_ws cl (List.all_eq_true.mp hplWF.2.1 cl
          (by rw [hnamel]; exact List.mem_cons_self _ _))
      have hheadIpl : (jsSplitNl pl.value).headI = [] := by
        rw [hplv]
        rfl
      have hHlast : propMatch (jsTrim (pl.name ++ [':']))
          = some (pl.name, (jsSplitNl pl.value).headI) := by
        rw [hheadIpl]
        have htr : jsTrim (pl.name ++ [':']) = pl.name ++ [':'] := by
          rw [hnamel]
          rw [show ((cl :: nml : Str) ++ [':']) = cl :: nml ++ [':'] by simp]
          exact jsTrim_of_head_last cl nml ':' hclw (by decide)
        rw [htr]
        exact propMatch_build_empty pl.name hplWF.1 hplWF.2.1
      have hTT : jsTrim (serializeProperties ps)
          = jsJoinNl (init.map headlineOf ++ [pl.name ++ [':']]) := by
        rw [jsTrim, hSL, hser, hps1, List.map_append, List.map_cons, List.map_nil]
        rw [show headlineOf pl = pl.name ++ [':', ' '] by rw [headlineOf, hplv]]
        exact trimRight_join_adj (init.map headlineOf) pl.name
      have hTne : jsJoinNl (init.map headlineOf ++ [pl.name ++ [':']]) ≠ [] :=
        jsJoinNl_concat_ne_nil _ _ (by simp)
      have hsplit2 : jsSplitNl (jsJoinNl (init.map headlineOf ++ [pl.name ++ [':']]))
          = blockLinesH (init.map (fun q => (hlineOf q, q)) ++ [(pl.name ++ [':'], pl)]) := by
        rw [jsSplitNl_jsJoinNl_pieces _ (by simp)]
        exact flatten_blocks_adj init pl
          (fun q hq => hnms q (by rw [hps1]; exact List.mem_append_left _ hq))
          hnm2 hplv
      rw [parseProperties, parseCodeblockWithSlot]
      simp only [matcherSlotInit]
      rw [if_neg (by rw [hTT]; intro hx; exact hTne (List.isEmpty_iff.mp hx))]
      rw [hTT, hsplit2]
      cases hinit : init with
      | nil =>
        have hps2 : ps = [pl] := by
          rw [hps1, hinit]
          rfl
        simp only [List.map_nil, List.nil_append]
        have hpb := parseLines_blocks [] (pl.name ++ [':']) pl hplWF (by simp) hHlast (by simp)
        rw [hpb, hps2]
        rfl
      | cons q0 init' =>
        have hps2 : ps = q0 :: (init' ++ [pl]) := by
          rw [hps1, hinit]
          rfl
        simp only [List.map_cons, List.cons_append]
        have hq0WF : WFprop q0 := hWF q0 (by rw [hps2]; exact List.mem_cons_self _ _)
        have hWFs : ∀ x ∈ (init'.map (fun q => (hlineOf q, q))
            ++ [(pl.name ++ [':'], pl)]), WFprop x.2 := by
          intro x hx
          rcases List.mem_append.mp hx with h' | h'
          · obtain ⟨q, hq, rfl⟩ := List.mem_map.mp h'
            exact hWF q (by
              rw [hps2]
              exact List.mem_cons_of_mem _ (List.mem_append_left _ hq))
          · rw [List.mem_singleton.mp h']
            exact hplWF
        have hHs : ∀ x ∈ (init'.map (fun q => (hlineOf q, q))
            ++ [(pl.name ++ [':'], pl)]),
            propMatch (jsTrim x.1) = some (x.2.name, (jsSplitNl x.2.value).headI) := by
          intro x hx
          rcases List.mem_append.mp hx with h' | h'
          · obtain ⟨q, hq, rfl⟩ := List.mem_map.mp h'
            exact propMatch_hline q (hWF q (by
              rw [hps2]
              exact List.mem_cons_of_mem _ (List.mem_append_left _ hq)))
          · rw [List.mem_singleton.mp h']
            exact hHlast
        have hpb := parseLines_blocks (init'.map (fun q => (hlineOf q, q))
            ++ [(pl.name ++ [':'], pl)])
          (hlineOf q0) q0 hq0WF hWFs (propMatch_hline q0 hq0WF) hHs
        rw [hpb, hps2]
        rw [List.map_append, map_snd_pair]
        rfl
    · obtain ⟨hvR, hvne⟩ := value_trimRight pl hplWF llast hgl hll
      have hhlR : jsTrimRight (headlineOf pl) = headlineOf pl := by
        rw [show headlineOf pl = (pl.name ++ [':', ' ']) ++ pl.value by
          rw [headlineOf]; simp]
        rw [jsTrimRight_append_of_ne_nil _ _ (by rw [hvR]; exact hvne), hvR]
      have hhlne : headlineOf pl ≠ [] := by
        rw [headlineOf]
        intro hx
        have := congrArg List.length hx
        simp at this
      have hTT : jsTrim (serializeProperties ps) = serializeProperties ps := by
        rw [jsTrim, hSL, hser, hps1, List.map_append, List.map_cons, List.map_nil]
        exact trimRight_join_id (init.map headlineOf) (headlineOf pl) hhlR hhlne
      have hsplit2 : jsSplitNl (serializeProperties ps)
          = blockLinesH (ps.map (fun q => (hlineOf q, q))) := by
        rw [hser, jsSplitNl_jsJoinNl_pieces _ (by rw [hps0]; simp)]
        exact flatten_blocks ps hnms
      have hSne : serializeProperties ps ≠ [] := by
        rw [hser, hps1, List.map_append, List.map_cons, List.map_nil]
        exact jsJoinNl_concat_ne_nil _ _ hhlne
      rw [parseProperties, parseCodeblockWithSlot]
      simp only [matcherSlotInit]
      rw [if_neg (by rw [hTT]; intro hx; exact hSne (List.isEmpty_iff.mp hx))]
      rw [hTT, hsplit2, hps0]
      simp only [List.map_cons]
      have hWFs : ∀ x ∈ rest0.map (fun q => (hlineOf q, q)), WFprop x.2 := by
        intro x hx
        obtain ⟨q, hq, rfl⟩ := List.mem_map.mp hx
        exact hWF q (by rw [hps0]; exact List.mem_cons_of_mem _ hq)
      have hHs : ∀ x ∈ rest0.map (fun q => (hlineOf q, q)),
          propMatch (jsTrim x.1) = some (x.2.name, (jsSplitNl x.2.value).headI) := by
        intro x hx
        obtain ⟨q, hq, rfl⟩ := List.mem_map.mp hx
        exact propMatch_hline q (hWF q (by rw [hps0]; exact List.mem_cons_of_mem _ hq))
      have hpb := parseLines_blocks (rest0.map (fun q => (hlineOf q, q))) (hlineOf p0) p0
        h0WF hWFs (propMatch_hline p0 h0WF) hHs
      rw [hpb]
      rw [map_snd_pair]

/-- C7: parsing is idempotent on its own output.  For every input on
which `parseProperties` succeeds with property list `ps`, re-serializing
`ps` as `key: value` lines (each property contributing the line
`key: <first value line>` followed by the remaining lines of its value)
and parsing that serialization succeeds and yields a property list with
the same keys and the same values, in the same order. -/
theorem c7_parse_idempotent (source : Str) (ps : List CodeblockProperty)
    (h : parseProperties source = .ok ps) :
    parseProperties (serializeProperties ps) = .ok ps := by
  obtain ⟨hne, hWF, hlast⟩ := parse_sound source ps h
  exact reparse ps hne hWF hlast

/-- C7, witness: the parse of `title: Hello` round-trips through its
serialization. -/
theorem c7_witness :
    parseProperties (serializeProperties [⟨"title".data, "Hello".data⟩])
      = .ok [⟨"title".data, "Hello".data⟩] :=
  c7_parse_idempotent "title: Hello".data [⟨"title".data, "Hello".data⟩] rfl
